import Mathlib

/-!
Verification development for the docx → HTML / TOC extraction pipeline
(`src/services/document_processor.py`, `src/services/docx2html.py`,
`src/services/omml_to_latex.py`).

Strings are modelled as `List Char` (Python `str`).  Python regular
expressions used by the source are compiled by hand into deterministic
scanners; where a regex is deterministic (no observable backtracking) the
scanner follows the leftmost/greedy/lazy semantics of Python `re`, as noted
at each definition.  `\d` is modelled as the ASCII digits, `\s`/`strip`
whitespace as the common ASCII whitespace plus the ideographic and no-break
spaces.  XML namespaces are elided: element tags are modelled by their
local names (the source always compares `tag.split('}')[-1]` or
`tag.endswith('}name')` against namespaced tags).
-/

/-- Whitespace for Python `str.strip` / regex `\s` (ASCII whitespace plus
U+00A0 and U+3000, the only non-ASCII whitespace relevant here). -/
def isWsChar (c : Char) : Bool :=
  c = ' ' || c = '\t' || c = '\n' || c = '\r' || c = '\x0b' || c = '\x0c' ||
  c = ' ' || c = '　'

/-- `l.dropWhile` whitespace: Python `lstrip`. -/
def stripFront (l : List Char) : List Char := l.dropWhile isWsChar

/-- Python `rstrip`. -/
def stripTrail (l : List Char) : List Char := (l.reverse.dropWhile isWsChar).reverse

/-- Python `str.strip()`. -/
def pyStrip (l : List Char) : List Char := stripTrail (stripFront l)

/-- One pass of `re.sub(r'\s+', ' ', ...)`: every maximal whitespace run
becomes a single space.  The flag records whether we are inside a run. -/
def squeezeWsAux : Bool → List Char → List Char
  | _, [] => []
  | inRun, c :: rest =>
    if isWsChar c then
      if inRun then squeezeWsAux true rest else ' ' :: squeezeWsAux true rest
    else c :: squeezeWsAux false rest

/-- `re.sub(r'\s+', ' ', text).strip()` — the whitespace normalisation used
by `standardize_chapter_name`. -/
def collapseWs (l : List Char) : List Char := pyStrip (squeezeWsAux false l)

/-- ASCII lowering of one character (Python `str.lower` restricted to the
ASCII range; the CJK characters appearing here are unaffected by `lower`). -/
def lowerChar (c : Char) : Char :=
  if 'A' ≤ c && c ≤ 'Z' then Char.ofNat (c.toNat + 32) else c

/-- Python `str.lower()` (ASCII fragment). -/
def asciiLower (l : List Char) : List Char := l.map lowerChar

/-- Python `str.count(sub)`: number of non-overlapping occurrences, scanning
left to right.  The `Nat` argument is the number of positions still to skip
after a match has consumed them. -/
def countSubAux (p : List Char) : Nat → List Char → Nat
  | _, [] => 0
  | 0, c :: rest =>
    if p.isPrefixOf (c :: rest) then 1 + countSubAux p (p.length - 1) rest
    else countSubAux p 0 rest
  | k + 1, _ :: rest => countSubAux p k rest

/-- Python `s.count(p)` for non-empty `p`. -/
def countSub (s p : List Char) : Nat := countSubAux p 0 s

/-- Python `p in s` substring test. -/
def containsSub : List Char → List Char → Bool
  | [], p => p.isEmpty
  | c :: rest, p => p.isPrefixOf (c :: rest) || containsSub rest p

/-- Python `s.replace(pat, rep)`: left-to-right, non-overlapping. -/
def replaceAllAux (pat rep : List Char) : Nat → List Char → List Char
  | 0, [] => []
  | 0, c :: rest =>
    if pat.isPrefixOf (c :: rest) && !pat.isEmpty then
      rep ++ replaceAllAux pat rep (pat.length - 1) rest
    else c :: replaceAllAux pat rep 0 rest
  | _ + 1, [] => []
  | k + 1, _ :: rest => replaceAllAux pat rep k rest

/-- Python `s.replace(pat, rep)` for non-empty `pat`. -/
def replaceAll (s pat rep : List Char) : List Char := replaceAllAux pat rep 0 s

/-! ## `standardize_chapter_name` (document_processor.py, lines 401–413) -/

/-- Character class `[一二三四五六七八九十\d]` of the chapter-numeral
patterns. -/
def isCN (c : Char) : Bool :=
  c = '一' || c = '二' || c = '三' || c = '四' || c = '五' ||
  c = '六' || c = '七' || c = '八' || c = '九' || c = '十' || c.isDigit

/-- Helper for `re.sub(r'^(第[…]+章\s*[\s\S]*M₁M₂)\d+', r'\1', text)` on the
part after `章`: Python's greedy `[\s\S]*` selects the **last** occurrence
of the two-character marker `m₁m₂` that is directly followed by at least
one digit; the greedy `\d+` then deletes the maximal digit run after it.
Returns `none` when no such occurrence exists (no match). -/
def stripLastMark (m1 m2 : Char) : List Char → Option (List Char)
  | [] => none
  | c :: rest =>
    match stripLastMark m1 m2 rest with
    | some r => some (c :: r)
    | none =>
      if c = m1 then
        match rest with
        | d :: ds =>
          if d = m2 && (match ds with | e :: _ => e.isDigit | [] => false) then
            some (c :: d :: ds.dropWhile Char.isDigit)
          else none
        | [] => none
      else none

/-- `re.sub(r'^(第[一二三四五六七八九十\d]+章\s*[\s\S]*m₁m₂)\d+', r'\1', text)`:
anchored at the start; `第`, then a non-empty numeral run, then `章`
(deterministic, since `章` is not in the numeral class), then anything up to
the last `m₁m₂` followed by digits; the digits are deleted.  Instantiated
with 绪论 and 引言 by `standardize_chapter_name`. -/
def subChapterMarker (m1 m2 : Char) (s : List Char) : List Char :=
  match s with
  | '第' :: rest =>
    let cn := rest.takeWhile isCN
    if cn.isEmpty then s
    else
      match rest.dropWhile isCN with
      | '章' :: tail =>
        match stripLastMark m1 m2 tail with
        | some t => '第' :: (cn ++ '章' :: t)
        | none => s
      | _ => s
  | _ => s

/-- Unanchored existence test for
`(第[一二三四五六七八九十\d]+[章节].*?[^0-9])\d+$` applied to the stem of the
string (everything before the maximal trailing digit run): does some
position start `第`, a non-empty numeral run, `章` or `节`, then a
newline-free stretch (`.` does not match `\n`) followed by one final
character (the `[^0-9]`, which ends the stem)?  Whichever start position
matches, the replacement deletes the same trailing digits, so only
existence matters. -/
def trailingDigitCore : List Char → Bool
  | [] => false
  | c :: rest =>
    (if c = '第' then
      let cn := rest.takeWhile isCN
      match rest.dropWhile isCN with
      | z :: tail =>
        (z = '章' || z = '节') && !cn.isEmpty && !tail.isEmpty &&
          !(tail.dropLast.contains '\n')
      | [] => false
    else false) || trailingDigitCore rest

/-- `re.sub(r'(第[一二三四五六七八九十\d]+[章节].*?[^0-9])\d+$', r'\1', text)`:
deletes the maximal trailing digit run (Python `$` also matches just before
one final newline) whenever the stem matches the bracketed pattern. -/
def subTrailingDigits (s : List Char) : List Char :=
  let hasNl : Bool := s.getLast? = some '\n'
  let body := if hasNl then s.dropLast else s
  let rev := body.reverse
  let ds := rev.takeWhile Char.isDigit
  if ds.isEmpty then s
  else
    let stem := (rev.dropWhile Char.isDigit).reverse
    if trailingDigitCore stem then stem ++ (if hasNl then ['\n'] else []) else s

/-- `standardize_chapter_name` (document_processor.py lines 401–413): strip
a digit suffix after a `第X章 … 绪论` / `… 引言` pattern, strip a trailing
digit run after any chapter/section label followed by a non-digit, then
collapse whitespace runs and strip the ends. -/
def standardize_chapter_name (s : List Char) : List Char :=
  collapseWs (subTrailingDigits (subChapterMarker '引' '言' (subChapterMarker '绪' '论' s)))

/-- Normal form produced by the whitespace squeeze: every whitespace
character is a plain space and no two adjacent characters are both
whitespace. -/
def wsNormB : List Char → Bool
  | [] => true
  | [c] => !isWsChar c || c = ' '
  | c :: d :: rest =>
    (!isWsChar c || (c = ' ' && !isWsChar d)) && wsNormB (d :: rest)

/-! ## `extract_toc_from_docx` (document_processor.py, lines 120–399)

A paragraph is modelled by its text, its style name and its runs; a run by
its (effective) bold flag — python-docx reports `None`/`True`/`False` and
the source only tests truthiness — and its font size in half-points
(python-docx `size.pt > 14` is `sizeHalfPt > 28`). -/

structure MRun where
  bold : Bool
  sizeHalfPt : Option Nat
deriving DecidableEq

structure Paragraph where
  text : List Char
  style : List Char
  runs : List MRun
deriving DecidableEq

/-- One flat TOC dictionary as built by the source, minus the `children`
list (sub-chapters are created with an always-empty `children` list, which
the model elides; see `TocNode`). -/
structure TocEntry where
  index : Nat
  level : Nat
  text : List Char
  originalText : List Char
  standardizedText : List Char
  idStr : List Char
deriving DecidableEq

/-- A main chapter together with the sub-chapters attached to it. -/
structure TocNode where
  entry : TocEntry
  children : List TocEntry
deriving DecidableEq

/-- Python `enumerate` with a start index. -/
def enumFrom {α : Type} : Nat → List α → List (Nat × α)
  | _, [] => []
  | i, a :: rest => (i, a) :: enumFrom (i + 1) rest

/-- The fixed contents-marker phrases (document_processor.py line 153). -/
def tocMarkers : List (List Char) :=
  ["目录".data, "contents".data, "table of contents".data]

/-- `text.lower() == marker` for one of the markers, on the stripped text. -/
def isMarkerPar (p : Paragraph) : Bool :=
  tocMarkers.contains (asciiLower (pyStrip p.text))

/-- `re.match(r'^第[一二三四五六七八九十\d]+章', text)` and its `group(0)`:
the numeral run is deterministic because `章` is not in the numeral class. -/
def chapterLabelOf (t : List Char) : Option (List Char) :=
  match t with
  | '第' :: rest =>
    let cn := rest.takeWhile isCN
    if cn.isEmpty then none
    else
      match rest.dropWhile isCN with
      | '章' :: _ => some ('第' :: (cn ++ ['章']))
      | _ => none
  | _ => none

/-- First scan, marker phase: find the first paragraph whose stripped text
equals a contents marker; return its index and the remaining enumerated
paragraphs. -/
def findMarkerE : List (Nat × Paragraph) → Option (Nat × List (Nat × Paragraph))
  | [] => none
  | (i, p) :: rest => if isMarkerPar p then some (i, rest) else findMarkerE rest

/-- `chapter_count[name] += 1` on the association list. -/
def bumpCount (name : List Char) : List (List Char × Nat) → List (List Char × Nat)
  | [] => [(name, 1)]
  | (n, k) :: rest =>
    if n = name then (n, k + 1) :: rest else (n, k) :: bumpCount name rest

/-- `chapter_count.get(name, 0)`. -/
def countOf (name : List Char) : List (List Char × Nat) → Nat
  | [] => 0
  | (n, k) :: rest => if n = name then k else countOf name rest

/-- The two spellings of the first-chapter label (line 174). -/
def firstChapterLabels : List (List Char) := ["第一章".data, "第1章".data]

/-- First scan, counting phase (lines 161–180): after the marker, count
chapter labels; the second occurrence of a first-chapter label starts the
body.  Returns the body-start index together with the enumerated paragraph
stream from that index on (`doc.paragraphs[start_index:]`). -/
def scanBodyStart (counts : List (List Char × Nat)) :
    List (Nat × Paragraph) → Option (Nat × List (Nat × Paragraph))
  | [] => none
  | (i, p) :: rest =>
    let t := pyStrip p.text
    if t.isEmpty then scanBodyStart counts rest
    else
      match chapterLabelOf t with
      | some name =>
        let counts' := bumpCount name counts
        if firstChapterLabels.contains name && decide (1 < countOf name counts') then
          some (i, (i, p) :: rest)
        else scanBodyStart counts' rest
      | none => scanBodyStart counts rest

/-- `paragraph.style.name.startswith('Heading') or '标题' in paragraph.style.name`. -/
def styleIsHeadingB (style : List Char) : Bool :=
  ("Heading".data).isPrefixOf style || containsSub style "标题".data

/-- `re.search(r'\d+', style)`: first maximal digit run. -/
def firstDigitRun : List Char → Option (List Char)
  | [] => none
  | c :: rest =>
    if c.isDigit then some (c :: rest.takeWhile Char.isDigit) else firstDigitRun rest

/-- `int` of a digit string. -/
def digitsToNat (l : List Char) : Nat :=
  l.foldl (fun a c => a * 10 + (c.toNat - 48)) 0

/-- Heading level from the style name (lines 207–214): the first embedded
digit run, defaulting to 1. -/
def styleLevel (style : List Char) : Nat :=
  match firstDigitRun style with
  | some ds => digitsToNat ds
  | none => 1

/-- `any(run.bold for run in paragraph.runs)`. -/
def anyBold (rs : List MRun) : Bool := rs.any (fun r => r.bold)

/-- `any(run.font.size and run.font.size.pt > 14 for run in paragraph.runs)`. -/
def anyLarge (rs : List MRun) : Bool :=
  rs.any (fun r => match r.sizeHalfPt with | some sz => decide (28 < sz) | none => false)

/-- Colon class `[：:]`. -/
def isColon (c : Char) : Bool := c = '：' || c = ':'

/-- `\s*\S+` as a prefix test: after greedily dropping whitespace a
character must remain. -/
def wsThenNonWs (l : List Char) : Bool := !(l.dropWhile isWsChar).isEmpty

/-- `[\.、]`. -/
def isDotPause (c : Char) : Bool := c = '.' || c = '、'

/-- Membership in `[^\.、\d]` (which includes whitespace). -/
def notDotPauseDigit (c : Char) : Bool := !isDotPause c && !c.isDigit

/-- `\s*[^\.、\d]+` as a prefix test: whitespace itself is in the class, so
the test reduces to the head being in the class. -/
def tailAfterDot : List Char → Bool
  | [] => false
  | c :: _ => notDotPauseDigit c

/-- `^第[一二三四五六七八九十\d]+章[：:]?\s*\S+` (pattern list line 233).
The optional colon backtracks: if consuming it fails, it is retried as the
`\S` itself. -/
def patChapterTitled (t : List Char) : Bool :=
  match t with
  | '第' :: rest =>
    let cn := rest.takeWhile isCN
    if cn.isEmpty then false
    else
      match rest.dropWhile isCN with
      | '章' :: tail =>
        (match tail with
         | c :: rs =>
           if isColon c then (wsThenNonWs rs || wsThenNonWs tail) else wsThenNonWs tail
         | [] => false)
      | _ => false
  | _ => false

/-- `^第[一二三四五六七八九十\d]+章$` (line 234); the text is already
stripped, so `$` is the end of the string. -/
def patChapterBare (t : List Char) : Bool :=
  match t with
  | '第' :: rest =>
    let cn := rest.takeWhile isCN
    !cn.isEmpty && decide (rest.dropWhile isCN = ['章'])
  | _ => false

/-- `^\d+[\.、]\s*[^\.、\d]+` (line 235). -/
def patNumDot (t : List Char) : Bool :=
  let ds := t.takeWhile Char.isDigit
  if ds.isEmpty then false
  else
    match t.dropWhile Char.isDigit with
    | c :: rest => isDotPause c && tailAfterDot rest
    | [] => false

/-- The numeral class `[一二三四五六七八九十]` (without ASCII digits). -/
def isCJKNum (c : Char) : Bool :=
  c = '一' || c = '二' || c = '三' || c = '四' || c = '五' ||
  c = '六' || c = '七' || c = '八' || c = '九' || c = '十'

/-- `^[一二三四五六七八九十]+[\.、]\s*[^\.、\d]+` (line 236). -/
def patCJKDot (t : List Char) : Bool :=
  let ds := t.takeWhile isCJKNum
  if ds.isEmpty then false
  else
    match t.dropWhile isCJKNum with
    | c :: rest => isDotPause c && tailAfterDot rest
    | [] => false

/-- `^\d+\.\d+\s+\S+` (line 239). -/
def patSubsection (t : List Char) : Bool :=
  let d1 := t.takeWhile Char.isDigit
  if d1.isEmpty then false
  else
    match t.dropWhile Char.isDigit with
    | '.' :: r1 =>
      let d2 := r1.takeWhile Char.isDigit
      if d2.isEmpty then false
      else
        match r1.dropWhile Char.isDigit with
        | c :: r2 => isWsChar c && wsThenNonWs r2
        | [] => false
    | _ => false

/-- `^\d+\.\d+\.\d+\s+\S+` (line 240). -/
def patSubSubsection (t : List Char) : Bool :=
  let d1 := t.takeWhile Char.isDigit
  if d1.isEmpty then false
  else
    match t.dropWhile Char.isDigit with
    | '.' :: r1 =>
      let d2 := r1.takeWhile Char.isDigit
      if d2.isEmpty then false
      else
        match r1.dropWhile Char.isDigit with
        | '.' :: r2 =>
          let d3 := r2.takeWhile Char.isDigit
          if d3.isEmpty then false
          else
            match r2.dropWhile Char.isDigit with
            | c :: r3 => isWsChar c && wsThenNonWs r3
            | [] => false
        | _ => false
    | _ => false

/-- `^第[一二三四五六七八九十\d]+节\s+\S+` (line 241). -/
def patSection (t : List Char) : Bool :=
  match t with
  | '第' :: rest =>
    let cn := rest.takeWhile isCN
    if cn.isEmpty then false
    else
      match rest.dropWhile isCN with
      | '节' :: tail =>
        (match tail with
         | c :: r2 => isWsChar c && wsThenNonWs r2
         | [] => false)
      | _ => false
  | _ => false

/-- The ordered `chapter_patterns` list (lines 231–242): first match wins. -/
def patternLevel (t : List Char) : Option Nat :=
  if patChapterTitled t then some 1
  else if patChapterBare t then some 1
  else if patNumDot t then some 1
  else if patCJKDot t then some 1
  else if patSubsection t then some 2
  else if patSubSubsection t then some 3
  else if patSection t then some 2
  else none

/-- Heading detection for one body paragraph (lines 199–249): style name
first, then bold / large-font runs, then the text patterns. -/
def classifyHeading (p : Paragraph) (t : List Char) : Bool × Nat :=
  if styleIsHeadingB p.style then (true, styleLevel p.style)
  else if !p.runs.isEmpty && (anyBold p.runs || anyLarge p.runs) then
    (true, if anyLarge p.runs then 1 else 2)
  else
    match patternLevel t with
    | some lv => (true, lv)
    | none => (false, 0)

/-- Python `\w` (word character) restricted to the character ranges
appearing in this code base: ASCII alphanumerics, underscore and CJK
unified ideographs.  Only used here inside searches whose keyword must be
present anyway, so the restriction is harmless. -/
def isWordChar (c : Char) : Bool :=
  c.isAlphanum || c = '_' || (0x4E00 ≤ c.toNat && c.toNat ≤ 0x9FFF)

/-- `\s*\w+` as a prefix test (classes are disjoint from whitespace, so
greedy scanning is deterministic). -/
def wordTail (l : List Char) : Bool :=
  match l.dropWhile isWsChar with
  | c :: _ => isWordChar c
  | [] => false

/-- `\s*\d+` as a prefix test. -/
def digitTail (l : List Char) : Bool :=
  match l.dropWhile isWsChar with
  | c :: _ => c.isDigit
  | [] => false

/-- `[\w\.-]`. -/
def isEmailChar (c : Char) : Bool := isWordChar c || c = '.' || c = '-'

/-- `\s*[\w\.-]+@[\w\.-]+` as a prefix test. -/
def emailTail (l : List Char) : Bool :=
  let p1 := l.dropWhile isWsChar
  let u := p1.takeWhile isEmailChar
  !u.isEmpty &&
    (match p1.dropWhile isEmailChar with
     | '@' :: r => !(r.takeWhile isEmailChar).isEmpty
     | _ => false)

/-- `re.search(kw + r'[：:]' + tail, text)`: scan every start position. -/
def searchPersonal (kw : List Char) (tailChk : List Char → Bool) : List Char → Bool
  | [] => false
  | c :: rest =>
    (kw.isPrefixOf (c :: rest) &&
      (match (c :: rest).drop kw.length with
       | d :: r => isColon d && tailChk r
       | [] => false)) ||
    searchPersonal kw tailChk rest

/-- `is_personal_info` (document_processor.py lines 438–452). -/
def is_personal_info (t : List Char) : Bool :=
  searchPersonal "姓名".data wordTail t || searchPersonal "电话".data digitTail t ||
  searchPersonal "邮箱".data emailTail t || searchPersonal "地址".data wordTail t ||
  searchPersonal "学号".data wordTail t || searchPersonal "指导教师".data wordTail t

/-- The punctuation class `[，。：；、,\.;:!？?!]` of line 261. -/
def punctChars : List Char :=
  ['，', '。', '：', '；', '、', ',', '.', ';', ':', '!', '？', '?']

/-- `re.search(r'[，。：；、,\.;:!？?!]', text) is not None`. -/
def hasPunctuation (t : List Char) : Bool := t.any (fun c => punctChars.contains c)

/-- `style_name_lower.startswith('heading 1') or '标题 1' in … or '标题1' in …`. -/
def isHeading1Style (style : List Char) : Bool :=
  ("heading 1".data).isPrefixOf (asciiLower style) ||
  containsSub style "标题 1".data || containsSub style "标题1".data

/-- `display_text` from the standardized text (lines 253, 328). -/
def displayOf (std : List Char) : List Char :=
  if 20 < std.length then std.take 20 ++ "...".data else std

/-- One TOC dictionary (lines 294–306): `t` is the stripped paragraph
text. -/
def mkEntry (i lv : Nat) (t : List Char) : TocEntry :=
  let std := standardize_chapter_name t
  { index := i, level := lv, text := displayOf std, originalText := t,
    standardizedText := std,
    idStr := "section-".data ++ (toString i).data ++ "-".data ++
      (t.take 5).filter isWordChar }

/-- Accumulator of the second scan: `chapter_texts`, `main_chapters`,
`sub_chapters`. -/
structure ClsState where
  seen : List (List Char)
  mains : List TocEntry
  subs : List TocEntry
deriving DecidableEq

/-- The acceptance condition of the second scan (lines 283–290): a heading
that is not personal information, not yet seen, free of punctuation, and —
for level 1 — large-font or `Heading 1`-styled. -/
def clsAccept (seen : List (List Char)) (p : Paragraph) (t : List Char)
    (isH : Bool) (lv : Nat) : Bool :=
  isH && !is_personal_info t &&
    !(seen.contains (displayOf (standardize_chapter_name t))) &&
    !hasPunctuation t &&
    (if lv = 1 then anyLarge p.runs || isHeading1Style p.style else true)

/-- One iteration of the second scan (lines 194–313). -/
def clsStep (st : ClsState) (ip : Nat × Paragraph) : ClsState :=
  let t := pyStrip ip.2.text
  if t.isEmpty then st
  else
    let c := classifyHeading ip.2 t
    let disp := displayOf (standardize_chapter_name t)
    if clsAccept st.seen ip.2 t c.1 c.2 then
      let e := mkEntry ip.1 c.2 t
      if c.2 = 1 then
        { st with seen := st.seen ++ [disp], mains := st.mains ++ [e] }
      else
        { st with seen := st.seen ++ [disp], subs := st.subs ++ [e] }
    else st

/-- The fallback keyword list (lines 335–337). -/
def chapterKeywords : List (List Char) :=
  ["绪论".data, "引言".data, "简介".data, "概述".data, "背景".data, "方法".data,
   "实验".data, "结果".data, "分析".data, "讨论".data, "结论".data,
   "参考文献".data, "致谢".data, "Introduction".data, "Methods".data,
   "Results".data, "Discussion".data, "Conclusion".data, "References".data]

/-- One iteration of the keyword fallback scan (lines 315–369). -/
def fbStep (st : ClsState) (ip : Nat × Paragraph) : ClsState :=
  let i := ip.1
  let p := ip.2
  let t := pyStrip p.text
  if t.isEmpty || decide (t.length < 4) || decide (100 < t.length) then st
  else
    let disp := displayOf (standardize_chapter_name t)
    if st.seen.contains disp then st
    else if chapterKeywords.any (fun kw => containsSub t kw) then
      let isFormatted := (!p.runs.isEmpty && anyBold p.runs) || decide (t.length < 30)
      if isFormatted && !is_personal_info t then
        { st with seen := st.seen ++ [disp], mains := st.mains ++ [mkEntry i 1 t] }
      else st
    else st

/-- Attach a sub-chapter to the rightmost main chapter that precedes it
(lines 372–379): the recursion prefers a success further right. -/
def attachToLast : List TocNode → TocEntry → Option (List TocNode)
  | [], _ => none
  | m :: rest, sub =>
    match attachToLast rest sub with
    | some rest' => some (m :: rest')
    | none =>
      if m.entry.index < sub.index then
        some ({ m with children := m.children ++ [sub] } :: rest)
      else none

/-- Attach one sub-chapter, falling back to the first main chapter
(lines 381–383). -/
def attachOne (mains : List TocNode) (sub : TocEntry) : List TocNode :=
  match attachToLast mains sub with
  | some ms => ms
  | none =>
    match mains with
    | [] => []
    | m :: rest => { m with children := m.children ++ [sub] } :: rest

def attachSubs (mains : List TocNode) (subs : List TocEntry) : List TocNode :=
  subs.foldl attachOne mains

/-- `extract_toc_from_docx` (document_processor.py lines 120–399): marker
search, body-start detection, second classification scan, keyword fallback
when no main chapter was found, then parent attachment of sub-chapters. -/
def extract_toc_from_docx (ps : List Paragraph) : List TocNode :=
  let eps := enumFrom 0 ps
  let phase1 :=
    match findMarkerE eps with
    | none => none
    | some (_, rest) => scanBodyStart [] rest
  let st0 : ClsState := { seen := [], mains := [], subs := [] }
  let st1 :=
    match phase1 with
    | some (_, fromBody) => fromBody.foldl clsStep st0
    | none => st0
  let st2 :=
    if st1.mains.length < 1 then
      (match phase1 with
       | some (_, fromBody) => fromBody.take 100
       | none => eps.take 100).foldl fbStep st1
    else st1
  attachSubs (st2.mains.map (fun e => { entry := e, children := [] })) st2.subs

/-- An entry as constructed by the classifier from a paragraph of the
stream: some index, some level, and the stripped text of a stream
paragraph. -/
def entryFromStream (ps : List Paragraph) (e : TocEntry) : Prop :=
  ∃ i lv, ∃ p ∈ ps, e = mkEntry i lv (pyStrip p.text)

/-- Hypothesis form for C1: a paragraph that can never be accepted as a
level-1 chapter by the second scan, independently of the dedup set. -/
def couldBeLevel1 (p : Paragraph) : Bool :=
  let t := pyStrip p.text
  !t.isEmpty &&
    (let c := classifyHeading p t
     c.1 && decide (c.2 = 1) && !is_personal_info t && !hasPunctuation t &&
       (anyLarge p.runs || isHeading1Style p.style))

/-! ## XML model

XML elements as used by both converters.  Tags and attribute keys are the
local names (the source always strips or suffix-matches the namespace).
`text` is the element's lxml `.text`. -/

inductive Xml where
  | mk (tag : List Char) (attrs : List (List Char × List Char))
      (text : Option (List Char)) (children : List Xml)

def Xml.tag : Xml → List Char
  | .mk t _ _ _ => t

def Xml.attrs : Xml → List (List Char × List Char)
  | .mk _ a _ _ => a

def Xml.text : Xml → Option (List Char)
  | .mk _ _ x _ => x

def Xml.children : Xml → List Xml
  | .mk _ _ _ ch => ch

/-- `element.tag.split('}')[-1]` — with namespaces elided this is the tag
itself. -/
def localTag (e : Xml) : List Char := e.tag

/-- `_get_attr` (omml_to_latex.py lines 63–70): the attribute under its
plain or namespace-qualified key. -/
def getAttr (e : Xml) (name : List Char) : Option (List Char) :=
  match e.attrs.find? (fun kv => decide (kv.1 = name)) with
  | some kv => some kv.2
  | none => none

/-- lxml `element.iter()`: the element followed by its descendants in
document order.  The fuel bounds the recursion depth; callers pass a bound
at least the tree height. -/
def iterAll : Nat → Xml → List Xml
  | 0, e => [e]
  | f + 1, e => e :: e.children.flatMap (iterAll f)

/-! ## OMML → LaTeX converter (`omml_to_latex.py`) -/

/-- The `symbol_map` of `OmmlToLatexConverter.__init__`, in insertion order
(the duplicate `∝` key of the source collapses to its first position, as in
a Python dict). -/
def symbolMap : List (Char × List Char) :=
  [('α', "\\alpha".data), ('β', "\\beta".data), ('γ', "\\gamma".data),
   ('δ', "\\delta".data), ('ε', "\\epsilon".data), ('ζ', "\\zeta".data),
   ('η', "\\eta".data), ('θ', "\\theta".data), ('ι', "\\iota".data),
   ('κ', "\\kappa".data), ('λ', "\\lambda".data), ('μ', "\\mu".data),
   ('ν', "\\nu".data), ('ξ', "\\xi".data), ('ο', "o".data), ('π', "\\pi".data),
   ('ρ', "\\rho".data), ('σ', "\\sigma".data), ('τ', "\\tau".data),
   ('υ', "\\upsilon".data), ('φ', "\\phi".data), ('χ', "\\chi".data),
   ('ψ', "\\psi".data), ('ω', "\\omega".data),
   ('Α', "A".data), ('Β', "B".data), ('Γ', "\\Gamma".data), ('Δ', "\\Delta".data),
   ('Ε', "E".data), ('Ζ', "Z".data), ('Η', "H".data), ('Θ', "\\Theta".data),
   ('Ι', "I".data), ('Κ', "K".data), ('Λ', "\\Lambda".data), ('Μ', "M".data),
   ('Ν', "N".data), ('Ξ', "\\Xi".data), ('Ο', "O".data), ('Π', "\\Pi".data),
   ('Ρ', "P".data), ('Σ', "\\Sigma".data), ('Τ', "T".data), ('Υ', "\\Upsilon".data),
   ('Φ', "\\Phi".data), ('Χ', "X".data), ('Ψ', "\\Psi".data), ('Ω', "\\Omega".data),
   ('∞', "\\infty".data), ('∑', "\\sum".data), ('∫', "\\int".data),
   ('∂', "\\partial".data), ('∇', "\\nabla".data), ('∆', "\\Delta".data),
   ('∏', "\\prod".data),
   ('≤', "\\leq".data), ('≥', "\\geq".data), ('≠', "\\neq".data),
   ('≈', "\\approx".data), ('≡', "\\equiv".data), ('∝', "\\propto".data),
   ('∼', "\\sim".data),
   ('∈', "\\in".data), ('∉', "\\notin".data), ('⊂', "\\subset".data),
   ('⊆', "\\subseteq".data), ('⊃', "\\supset".data), ('⊇', "\\supseteq".data),
   ('∪', "\\cup".data), ('∩', "\\cap".data), ('∅', "\\emptyset".data),
   ('∀', "\\forall".data), ('∃', "\\exists".data),
   ('→', "\\rightarrow".data), ('←', "\\leftarrow".data),
   ('↔', "\\leftrightarrow".data), ('⇒', "\\Rightarrow".data),
   ('⇐', "\\Leftarrow".data), ('⇔', "\\Leftrightarrow".data),
   ('↑', "\\uparrow".data), ('↓', "\\downarrow".data), ('↕', "\\updownarrow".data),
   ('±', "\\pm".data), ('∓', "\\mp".data), ('×', "\\times".data),
   ('÷', "\\div".data), ('·', "\\cdot".data), ('∘', "\\circ".data),
   ('√', "\\sqrt".data), ('∠', "\\angle".data), ('⊥', "\\perp".data),
   ('∥', "\\parallel".data), ('~', "\\sim".data),
   ('ℒ', "\\mathcal\x7bL\x7d".data), ('𝒟', "\\mathcal\x7bD\x7d".data),
   ('ℰ', "\\mathbb\x7bE\x7d".data), ('𝔼', "\\mathbb\x7bE\x7d".data),
   ('ϕ', "\\varphi".data)]

/-- `re.sub(r'#\([^)]+\)', '', text)`: delete every `#(…)` group whose body
is non-empty and free of `)`.  The skip argument carries positions already
consumed by a match. -/
def removeHashParenAux : Nat → List Char → List Char
  | _ + 1, [] => []
  | k + 1, _ :: rest => removeHashParenAux k rest
  | 0, [] => []
  | 0, c :: rest =>
    if c = '#' then
      match rest with
      | '(' :: rest2 =>
        let inner := rest2.takeWhile (fun d => decide (d ≠ ')'))
        if inner.isEmpty then c :: removeHashParenAux 0 rest
        else if (rest2.dropWhile (fun d => decide (d ≠ ')'))).isEmpty then
          c :: removeHashParenAux 0 rest
        else removeHashParenAux (1 + inner.length + 1) rest
      | _ => c :: removeHashParenAux 0 rest
    else c :: removeHashParenAux 0 rest

def removeHashParen (l : List Char) : List Char := removeHashParenAux 0 l

/-- `re.sub(r'(?<!\\)#(?![a-zA-Z])', '', text)`: drop `#` not preceded by a
backslash (in the original text) and not followed by a letter. -/
def removeHashAux (prev : Option Char) : List Char → List Char
  | [] => []
  | c :: rest =>
    if c = '#' && !(prev = some '\\') &&
        !(match rest with | d :: _ => d.isAlpha | [] => false) then
      removeHashAux (some c) rest
    else c :: removeHashAux (some c) rest

def removeStandaloneHash (l : List Char) : List Char := removeHashAux none l

/-- `convert_text` (omml_to_latex.py lines 511–533): a lone bar becomes
`\mid`; otherwise apply the symbol table then strip the `#`-numbering. -/
def convert_text (e : Xml) : List Char :=
  let text := e.text.getD []
  if text = ['|'] then "\\mid".data
  else
    removeStandaloneHash (removeHashParen
      (symbolMap.foldl (fun acc sy => replaceAll acc [sy.1] sy.2) text))

/-- `convert_symbol` (lines 616–622). -/
def convert_symbol (e : Xml) : List Char :=
  match getAttr e "char".data with
  | none => []
  | some cv =>
    if cv.isEmpty then []
    else
      match cv with
      | [c] =>
        match symbolMap.find? (fun sy => decide (sy.1 = c)) with
        | some sy => sy.2
        | none => cv
      | _ => cv

/-- Python `s.strip('{}')`. -/
def stripBraces (l : List Char) : List Char :=
  let isBr : Char → Bool := fun c => c = '{' || c = '}'
  ((l.dropWhile isBr).reverse.dropWhile isBr).reverse

/-- Python `s.split(sep)` for a one-character separator. -/
def splitOnChar (sep : Char) : List Char → List (List Char)
  | [] => [[]]
  | c :: rest =>
    if c = sep then [] :: splitOnChar sep rest
    else
      match splitOnChar sep rest with
      | [] => [[c]]
      | h :: t => (c :: h) :: t

/-- `convert_omath` / `convert_run` / the unknown-element fallback: convert
all children in order, propagating any failure. -/
def convertChildren (conv : Xml → Option (List Char)) (e : Xml) :
    Option (List Char) :=
  (e.children.mapM conv).map List.flatten

/-- `convert_fraction` (lines 133–145): the `num`/`den` children are
converted (last one wins); other children are ignored. -/
def convert_fraction (conv : Xml → Option (List Char)) (e : Xml) :
    Option (List Char) := do
  let nd ← e.children.foldlM
    (fun (nd : List Char × List Char) child =>
      if localTag child = "num".data then do
        let v ← conv child; pure (v, nd.2)
      else if localTag child = "den".data then do
        let v ← conv child; pure (nd.1, v)
      else pure nd) (([], []) : List Char × List Char)
  pure ("\\frac\x7b".data ++ nd.1 ++ "\x7d\x7b".data ++ nd.2 ++ "\x7d".data)

/-- `convert_superscript` (lines 147–159). -/
def convert_superscript (conv : Xml → Option (List Char)) (e : Xml) :
    Option (List Char) := do
  let bs ← e.children.foldlM
    (fun (bs : List Char × List Char) child =>
      if localTag child = "e".data then do
        let v ← conv child; pure (v, bs.2)
      else if localTag child = "sup".data then do
        let v ← conv child; pure (bs.1, v)
      else pure bs) (([], []) : List Char × List Char)
  pure ("\x7b".data ++ bs.1 ++ "\x7d^\x7b".data ++ bs.2 ++ "\x7d".data)

/-- `convert_subscript` (lines 161–176), with the `E`-to-blackboard-bold
special case. -/
def convert_subscript (conv : Xml → Option (List Char)) (e : Xml) :
    Option (List Char) := do
  let bs ← e.children.foldlM
    (fun (bs : List Char × List Char) child =>
      if localTag child = "e".data then do
        let v ← conv child; pure (v, bs.2)
      else if localTag child = "sub".data then do
        let v ← conv child; pure (bs.1, v)
      else pure bs) (([], []) : List Char × List Char)
  let base := if stripBraces bs.1 = "E".data then "\\mathbb\x7bE\x7d".data else bs.1
  pure ("\x7b".data ++ base ++ "\x7d_\x7b".data ++ bs.2 ++ "\x7d".data)

/-- `convert_subsuperscript` (lines 178–193). -/
def convert_subsuperscript (conv : Xml → Option (List Char)) (e : Xml) :
    Option (List Char) := do
  let t ← e.children.foldlM
    (fun (t : List Char × List Char × List Char) child =>
      if localTag child = "e".data then do
        let v ← conv child; pure (v, t.2.1, t.2.2)
      else if localTag child = "sub".data then do
        let v ← conv child; pure (t.1, v, t.2.2)
      else if localTag child = "sup".data then do
        let v ← conv child; pure (t.1, t.2.1, v)
      else pure t) (([], [], []) : List Char × List Char × List Char)
  pure ("\x7b".data ++ t.1 ++ "\x7d_\x7b".data ++ t.2.1 ++ "\x7d^\x7b".data ++
    t.2.2 ++ "\x7d".data)

/-- `convert_radical` (lines 195–210): a non-empty degree selects the
indexed root. -/
def convert_radical (conv : Xml → Option (List Char)) (e : Xml) :
    Option (List Char) := do
  let db ← e.children.foldlM
    (fun (db : List Char × List Char) child =>
      if localTag child = "deg".data then do
        let v ← conv child; pure (v, db.2)
      else if localTag child = "e".data then do
        let v ← conv child; pure (db.1, v)
      else pure db) (([], []) : List Char × List Char)
  if db.1.isEmpty then pure ("\\sqrt\x7b".data ++ db.2 ++ "\x7d".data)
  else pure ("\\sqrt[".data ++ db.1 ++ "]\x7b".data ++ db.2 ++ "\x7d".data)

/-- The n-ary `operator_map` (lines 233–244). -/
def naryOperatorMap : List (List Char × List Char) :=
  [("∑".data, "\\sum".data), ("∫".data, "\\int".data), ("∏".data, "\\prod".data),
   ("⋃".data, "\\bigcup".data), ("⋂".data, "\\bigcap".data),
   ("⋁".data, "\\bigvee".data), ("⋀".data, "\\bigwedge".data),
   ("max".data, "\\operatorname*\x7bmax\x7d".data),
   ("min".data, "\\operatorname*\x7bmin\x7d".data)]

/-- `convert_nary` (lines 212–255). -/
def convert_nary (conv : Xml → Option (List Char)) (e : Xml) :
    Option (List Char) := do
  let st ← e.children.foldlM
    (fun (st : List Char × List Char × List Char × List Char) child =>
      if localTag child = "naryPr".data then
        let ch := child.children.foldl
          (fun (acc : List Char) pr =>
            if localTag pr = "chr".data then (getAttr pr "val".data).getD []
            else acc) st.1
        pure (ch, st.2.1, st.2.2.1, st.2.2.2)
      else if localTag child = "sub".data then do
        let v ← conv child; pure (st.1, v, st.2.2.1, st.2.2.2)
      else if localTag child = "sup".data then do
        let v ← conv child; pure (st.1, st.2.1, v, st.2.2.2)
      else if localTag child = "e".data then do
        let v ← conv child; pure (st.1, st.2.1, st.2.2.1, v)
      else pure st)
    (([], [], [], []) : List Char × List Char × List Char × List Char)
  let char := st.1
  let sub := st.2.1
  let sup := st.2.2.1
  let base := st.2.2.2
  let op :=
    match naryOperatorMap.find? (fun kv => decide (kv.1 = char)) with
    | some kv => kv.2
    | none => char
  if !sub.isEmpty && !sup.isEmpty then
    pure (op ++ "_\x7b".data ++ sub ++ "\x7d^\x7b".data ++ sup ++ "\x7d ".data ++ base)
  else if !sub.isEmpty then
    pure (op ++ "_\x7b".data ++ sub ++ "\x7d ".data ++ base)
  else if !sup.isEmpty then
    pure (op ++ "^\x7b".data ++ sup ++ "\x7d ".data ++ base)
  else
    pure (op ++ " ".data ++ base)

/-- `_escape_delim` (lines 378–384). -/
def escapeDelim (ch : List Char) : List Char :=
  if ch.isEmpty then []
  else if ch = "\x7b".data then "\\\x7b".data
  else if ch = "\x7d".data then "\\\x7d".data
  else ch

/-- The probability indicators of the delimiter heuristic (line 355). -/
def probIndicators : List (List Char) :=
  ["p".data, "P".data, "Pr".data, "θ".data, "log".data]

/-- `parent_context` of `convert_delimiter` (lines 347–352): concatenated
`.text` of every element of `element.iter()` other than the element
itself, i.e. of all strict descendants. -/
def delimiterContext (fuel : Nat) (e : Xml) : List Char :=
  ((e.children.flatMap (iterAll fuel)).map (fun d => d.text.getD [])).flatten

/-- The delimiter characters from `dPr` (lines 303–312): an absent or
empty `begChr`/`endChr` value keeps the default `(`/`)`. -/
def delimiterChars (e : Xml) : List Char × List Char :=
  e.children.foldl
    (fun (ld : List Char × List Char) child =>
      if localTag child = "dPr".data then
        child.children.foldl
          (fun (ld : List Char × List Char) pr =>
            if localTag pr = "begChr".data then
              (match getAttr pr "val".data with
               | some v => if v.isEmpty then ld.1 else v
               | none => ld.1, ld.2)
            else if localTag pr = "endChr".data then
              (ld.1, match getAttr pr "val".data with
               | some v => if v.isEmpty then ld.2 else v
               | none => ld.2)
            else ld) ld
      else ld) (("(".data, ")".data) : List Char × List Char)

/-- The explicit separator from `dPr` (lines 314–326). -/
def delimiterSep (e : Xml) : Option (List Char) :=
  e.children.foldl
    (fun (sep : Option (List Char)) child =>
      if localTag child = "dPr".data then
        let sep1 :=
          match getAttr child "sepChr".data with
          | some v => if v.isEmpty then sep else some v
          | none => sep
        child.children.foldl
          (fun (sep : Option (List Char)) pr =>
            if localTag pr = "sepChr".data then
              match getAttr pr "val".data with
              | some v => if v.isEmpty then sep else some v
              | none => sep
            else if localTag pr = "val".data &&
                containsSub ((getAttr pr "val".data).getD []) "|".data then
              some "|".data
            else sep) sep1
      else sep) none

/-- The inner-expression collection (lines 328–341): each `e` child is
converted; a single `|` inside an expression, with no separator known yet,
splits it and fixes the bar as the separator. -/
def delimiterParts (conv : Xml → Option (List Char)) (e : Xml)
    (sep0 : Option (List Char)) :
    Option (List (List Char) × Option (List Char)) :=
  e.children.foldlM
    (fun (ps : List (List Char) × Option (List Char)) child =>
      if localTag child = "e".data then do
        let expr ← conv child
        if containsSub expr "|".data && ps.2 = none then
          let parts := splitOnChar '|' expr
          if parts.length = 2 then pure (ps.1 ++ parts, some "|".data)
          else pure (ps.1 ++ [expr], ps.2)
        else pure (ps.1 ++ [expr], ps.2)
      else pure ps) (([], sep0) : List (List Char) × Option (List Char))

/-- The conditional-probability heuristic (lines 343–366). -/
def delimiterHeuristic (fuel : Nat) (e : Xml) (exprParts : List (List Char)) :
    Bool :=
  let ctx := delimiterContext fuel e
  let first := pyStrip (exprParts.headD [])
  let second := pyStrip ((exprParts.drop 1).headD [])
  (decide (first.length ≤ 2) &&
    (containsSub second "x".data || containsSub second "X".data ||
     containsSub second "I".data || containsSub second "c".data)) ||
  probIndicators.any (fun ind => containsSub ctx ind)

/-- `convert_delimiter` (lines 297–396): custom delimiters from `dPr`,
separator discovery (explicit `sepChr`, a single `|` inside an inner
expression, or the conditional-probability heuristic), inner expressions
joined and wrapped in `\left`/`\right`. -/
def convert_delimiter (conv : Xml → Option (List Char)) (fuel : Nat) (e : Xml) :
    Option (List Char) := do
  let ld := delimiterChars e
  let ps ← delimiterParts conv e (delimiterSep e)
  let exprParts := ps.1
  let sepChar : Option (List Char) :=
    if exprParts.length = 2 && ps.2 = none &&
        ld.1 = "(".data && ld.2 = ")".data then
      if delimiterHeuristic fuel e exprParts then some "|".data else ps.2
    else ps.2
  let inner :=
    match sepChar with
    | some s =>
      let latexSep := if s = "|".data then " \\mid ".data else " ".data ++ s ++ " ".data
      (List.intersperse latexSep exprParts).flatten
    | none => exprParts.flatten
  let leftTex := escapeDelim ld.1
  let rightTex0 := escapeDelim ld.2
  let rightTex := if rightTex0.isEmpty then ".".data else rightTex0
  pure ("\\left".data ++ leftTex ++ " ".data ++ inner ++ " \\right".data ++ rightTex)

/-- `convert_matrix` (lines 398–411): every child of each `mr` row is
converted and the rows joined. -/
def convert_matrix (conv : Xml → Option (List Char)) (e : Xml) :
    Option (List Char) := do
  let rows ← e.children.foldlM
    (fun (acc : List Char) child =>
      if localTag child = "mr".data then do
        let cells ← child.children.mapM conv
        pure (acc ++ (List.intersperse " & ".data cells).flatten ++ " \\\\\n".data)
      else pure acc) "\\begin\x7bmatrix\x7d\n".data
  pure (rows ++ "\\end\x7bmatrix\x7d".data)

/-- `convert_function` (lines 413–425). -/
def convert_function (conv : Xml → Option (List Char)) (e : Xml) :
    Option (List Char) := do
  let nb ← e.children.foldlM
    (fun (nb : List Char × List Char) child =>
      if localTag child = "fName".data then do
        let v ← conv child; pure (v, nb.2)
      else if localTag child = "e".data then do
        let v ← conv child; pure (nb.1, v)
      else pure nb) (([], []) : List Char × List Char)
  pure ("\\".data ++ nb.1 ++ "\x7b".data ++ nb.2 ++ "\x7d".data)

/-- `convert_box` (lines 446–448): re-enters `convert_element` on the same
element. -/
def convert_box (conv : Xml → Option (List Char)) (e : Xml) : Option (List Char) :=
  conv e

/-- The `e`-child accumulation shared by accent/bar/borderBox/groupChr. -/
def convertBaseOfE (conv : Xml → Option (List Char)) (e : Xml) :
    Option (List Char) :=
  e.children.foldlM
    (fun (base : List Char) child =>
      if localTag child = "e".data then conv child else pure base) []

/-- `convert_accent` (lines 427–435). -/
def convert_accent (conv : Xml → Option (List Char)) (e : Xml) :
    Option (List Char) := do
  let base ← convertBaseOfE conv e
  pure ("\\hat\x7b".data ++ base ++ "\x7d".data)

/-- `convert_bar` (lines 437–444). -/
def convert_bar (conv : Xml → Option (List Char)) (e : Xml) :
    Option (List Char) := do
  let base ← convertBaseOfE conv e
  pure ("\\overline\x7b".data ++ base ++ "\x7d".data)

/-- `convert_border_box` (lines 450–457). -/
def convert_border_box (conv : Xml → Option (List Char)) (e : Xml) :
    Option (List Char) := do
  let base ← convertBaseOfE conv e
  pure ("\\boxed\x7b".data ++ base ++ "\x7d".data)

/-- `convert_group_char` (lines 459–467). -/
def convert_group_char (conv : Xml → Option (List Char)) (e : Xml) :
    Option (List Char) := do
  let base ← convertBaseOfE conv e
  pure ("\\underbrace\x7b".data ++ base ++ "\x7d".data)

/-- The `e`/`lim` accumulation of the limit converters. -/
def convertBaseLim (conv : Xml → Option (List Char)) (e : Xml) :
    Option (List Char × List Char) :=
  e.children.foldlM
    (fun (bl : List Char × List Char) child =>
      if localTag child = "e".data then do
        let v ← conv child; pure (v, bl.2)
      else if localTag child = "lim".data then do
        let v ← conv child; pure (bl.1, v)
      else pure bl) (([], []) : List Char × List Char)

/-- `convert_limit_lower` (lines 469–488): `max`/`min` render through
`\operatorname*`, anything else through `\underset`. -/
def convert_limit_lower (conv : Xml → Option (List Char)) (e : Xml) :
    Option (List Char) := do
  let bl ← convertBaseLim conv e
  let bstr := stripBraces bl.1
  if (bstr = "max".data || bstr = "min".data) && !bl.2.isEmpty then
    let bs := bstr.filter (fun c => decide (c ≠ '\\'))
    pure ("\\operatorname*\x7b".data ++ bs ++ "\x7d_\x7b".data ++ bl.2 ++ "\x7d".data)
  else
    pure ("\\underset\x7b".data ++ bl.2 ++ "\x7d\x7b".data ++ bl.1 ++ "\x7d".data)

/-- `convert_limit_upper` (lines 490–502). -/
def convert_limit_upper (conv : Xml → Option (List Char)) (e : Xml) :
    Option (List Char) := do
  let bl ← convertBaseLim conv e
  pure ("\\overset\x7b".data ++ bl.2 ++ "\x7d\x7b".data ++ bl.1 ++ "\x7d".data)

/-- `convert_element` (omml_to_latex.py lines 72–124).  The fuel models the
Python recursion limit: each recursive call descends one level, and `none`
is the `RecursionError` raised when the limit is reached (`convert_box`
re-enters `convert_element` on the same element, so a `box` node always
exhausts it). -/
def convert_element : Nat → Xml → Option (List Char)
  | 0, _ => none
  | f + 1, e =>
    let tag := localTag e
    if tag = "oMath".data then convertChildren (convert_element f) e
    else if tag = "f".data then convert_fraction (convert_element f) e
    else if tag = "sSup".data then convert_superscript (convert_element f) e
    else if tag = "sSub".data then convert_subscript (convert_element f) e
    else if tag = "sSubSup".data then convert_subsuperscript (convert_element f) e
    else if tag = "rad".data then convert_radical (convert_element f) e
    else if tag = "nary".data then convert_nary (convert_element f) e
    else if tag = "d".data then convert_delimiter (convert_element f) f e
    else if tag = "m".data then convert_matrix (convert_element f) e
    else if tag = "func".data then convert_function (convert_element f) e
    else if tag = "acc".data then convert_accent (convert_element f) e
    else if tag = "bar".data then convert_bar (convert_element f) e
    else if tag = "box".data then convert_box (convert_element f) e
    else if tag = "borderBox".data then convert_border_box (convert_element f) e
    else if tag = "groupChr".data then convert_group_char (convert_element f) e
    else if tag = "limLow".data then convert_limit_lower (convert_element f) e
    else if tag = "limUpp".data then convert_limit_upper (convert_element f) e
    else if tag = "r".data then convertChildren (convert_element f) e
    else if tag = "t".data then some (convert_text e)
    else if tag = "sym".data then some (convert_symbol e)
    else convertChildren (convert_element f) e

/-- `re.sub(r'#\\left\([^)]+\\right\)', '', text)` of `clean_latex_output`:
deletes `#\left( … \right)` groups whose body is free of `)`. -/
def removeHashLeftParenAux : Nat → List Char → List Char
  | _ + 1, [] => []
  | k + 1, _ :: rest => removeHashLeftParenAux k rest
  | 0, [] => []
  | 0, c :: rest =>
    if c = '#' && ("\\left(".data).isPrefixOf rest then
      let rest2 := rest.drop 6
      let inner := rest2.takeWhile (fun d => decide (d ≠ ')'))
      let after := rest2.dropWhile (fun d => decide (d ≠ ')'))
      if !after.isEmpty && ("\\right".data).isSuffixOf inner &&
          decide (6 < inner.length) then
        removeHashLeftParenAux (6 + inner.length + 1) rest
      else c :: removeHashLeftParenAux 0 rest
    else c :: removeHashLeftParenAux 0 rest

def removeHashLeftParen (l : List Char) : List Char := removeHashLeftParenAux 0 l

/-- `re.sub(r'\\\\(?!\\|$)', r'\\', text)`: collapse a doubled backslash
unless it is followed by another backslash or stands at the end (Python `$`
also matches just before one final newline). -/
def fixDoubleBackslash : List Char → List Char
  | [] => []
  | '\\' :: '\\' :: rest2 =>
    if (match rest2 with
        | [] => false
        | ['\n'] => false
        | d :: _ => decide (d ≠ '\\')) then
      '\\' :: fixDoubleBackslash rest2
    else '\\' :: fixDoubleBackslash ('\\' :: rest2)
  | c :: rest => c :: fixDoubleBackslash rest

/-- The `latex_commands` list of `add_spaces_after_latex_commands`
(lines 543–560), in source order; `\in` is deliberately absent. -/
def latexSpacingCommands : List (List Char) :=
  ["\\rightarrow".data, "\\leftarrow".data, "\\leftrightarrow".data,
   "\\Rightarrow".data, "\\Leftarrow".data, "\\Leftrightarrow".data,
   "\\uparrow".data, "\\downarrow".data, "\\updownarrow".data,
   "\\subseteq".data, "\\supseteq".data, "\\subset".data, "\\supset".data,
   "\\notin".data, "\\neq".data, "\\approx".data, "\\equiv".data,
   "\\propto".data, "\\parallel".data, "\\emptyset".data, "\\forall".data,
   "\\exists".data, "\\geq".data, "\\leq".data, "\\pm".data, "\\mp".data,
   "\\times".data, "\\div".data, "\\cdot".data, "\\circ".data, "\\sqrt".data,
   "\\angle".data, "\\perp".data, "\\infty".data, "\\partial".data,
   "\\nabla".data, "\\Gamma".data, "\\Delta".data, "\\Theta".data,
   "\\Lambda".data, "\\Xi".data, "\\Pi".data, "\\Sigma".data,
   "\\Upsilon".data, "\\Phi".data, "\\Psi".data, "\\Omega".data,
   "\\alpha".data, "\\beta".data, "\\gamma".data, "\\delta".data,
   "\\epsilon".data, "\\zeta".data, "\\eta".data, "\\theta".data,
   "\\iota".data, "\\kappa".data, "\\lambda".data, "\\mu".data, "\\nu".data,
   "\\xi".data, "\\pi".data, "\\rho".data, "\\sigma".data, "\\tau".data,
   "\\upsilon".data, "\\phi".data, "\\chi".data, "\\psi".data, "\\omega".data,
   "\\cup".data, "\\cap".data, "\\sim".data]

/-- Stable insertion for the length-descending sort
(`latex_commands.sort(key=len, reverse=True)`): an element goes before the
first strictly shorter one, after all of equal or greater length processed
later in the fold. -/
def insertByLen (x : List Char) : List (List Char) → List (List Char)
  | [] => [x]
  | y :: rest =>
    if decide (y.length ≤ x.length) then x :: y :: rest
    else y :: insertByLen x rest

/-- `re.sub(f'({cmd})(?=[a-zA-Z0-9])', r'\1 ', text)`: insert a space after
each occurrence of the command that is immediately followed by an
alphanumeric character; scanning resumes after the command. -/
def insertSpaceAfterCmdAux (cmd : List Char) : Nat → List Char → List Char
  | _ + 1, [] => []
  | k + 1, _ :: rest => insertSpaceAfterCmdAux cmd k rest
  | 0, [] => []
  | 0, c :: rest =>
    if cmd.isPrefixOf (c :: rest) && !cmd.isEmpty &&
        (match (c :: rest).drop cmd.length with
         | d :: _ => d.isAlphanum
         | [] => false) then
      cmd ++ ' ' :: insertSpaceAfterCmdAux cmd (cmd.length - 1) rest
    else c :: insertSpaceAfterCmdAux cmd 0 rest

def insertSpaceAfterCmd (cmd t : List Char) : List Char :=
  insertSpaceAfterCmdAux cmd 0 t

/-- `re.sub(r'\\in([A-Z])', r'\\in \1', text)` (line 576). -/
def fixInSpacing : List Char → List Char
  | [] => []
  | '\\' :: 'i' :: 'n' :: d :: rest2 =>
    if 'A' ≤ d && d ≤ 'Z' then
      '\\' :: 'i' :: 'n' :: ' ' :: d :: fixInSpacing rest2
    else '\\' :: fixInSpacing ('i' :: 'n' :: d :: rest2)
  | c :: rest => c :: fixInSpacing rest

/-- `add_spaces_after_latex_commands` (omml_to_latex.py lines 535–578). -/
def add_spaces_after_latex_commands (t : List Char) : List Char :=
  let sorted := latexSpacingCommands.foldr insertByLen []
  fixInSpacing (sorted.foldl (fun acc cmd => insertSpaceAfterCmd cmd acc) t)

/-- `re.sub(r'\s*,\s*$', '', text)` (line 602). -/
def removeTrailingComma (l : List Char) : List Char :=
  let r1 := stripTrail l
  match r1.getLast? with
  | some ',' => stripTrail r1.dropLast
  | _ => l

/-- `clean_latex_output` (omml_to_latex.py lines 580–605). -/
def clean_latex_output (l : List Char) : List Char :=
  if l.isEmpty then l
  else
    collapseWs (removeTrailingComma (add_spaces_after_latex_commands
      (fixDoubleBackslash (removeStandaloneHash (removeHashLeftParen
        (removeHashParen l))))))

/-- The conversion depth bound, modelling the Python recursion limit. -/
def convertRecLimit : Nat := 1000

/-- `omml_to_latex` (omml_to_latex.py lines 607–614): the `try`/`except`
around the conversion — a failed conversion (in this model, exhaustion of
the recursion bound) yields the fixed placeholder. -/
def omml_to_latex (e : Xml) : List Char :=
  match convert_element convertRecLimit e with
  | some r => clean_latex_output r
  | none => "[Math Formula]".data

/-! ## `_preprocess_latex` (docx2html.py, lines 369–416) -/

/-- Step 3: the infinity sign fixes (lines 386–388; the third pattern of
the source equals the first, `'\i'` in a plain Python string being a
literal backslash-i). -/
def infinityFixes (l : List Char) : List Char :=
  replaceAll (replaceAll (replaceAll l "−\\infty".data "-\\infty".data)
    "−∞".data "-\\infty".data) "−\\infty".data "-\\infty".data

/-- Step 4 (lines 390–396): count `\left` and `\right` occurrences and
append one ` ` plus `diff` copies of `\right. ` when lefts exceed
rights. -/
def balanceLeftRight (l : List Char) : List Char :=
  let lc := countSub l "\\left".data
  let rc := countSub l "\\right".data
  if rc < lc then
    l ++ " ".data ++ (List.replicate (lc - rc) "\\right. ".data).flatten
  else l

/-- Step 5 (lines 398–405): literal spacing replacements, outer loop over
the five symbols, inner over the four variable pairs. -/
def spacingPairs : List (List Char × List Char) :=
  [("i\\geqj".data, "i \\geq j".data), ("x\\geqy".data, "x \\geq y".data),
   ("a\\geqb".data, "a \\geq b".data), ("n\\geqm".data, "n \\geq m".data),
   ("i\\leqj".data, "i \\leq j".data), ("x\\leqy".data, "x \\leq y".data),
   ("a\\leqb".data, "a \\leq b".data), ("n\\leqm".data, "n \\leq m".data),
   ("i>j".data, "i > j".data), ("x>y".data, "x > y".data),
   ("a>b".data, "a > b".data), ("n>m".data, "n > m".data),
   ("i<j".data, "i < j".data), ("x<y".data, "x < y".data),
   ("a<b".data, "a < b".data), ("n<m".data, "n < m".data),
   ("i=j".data, "i = j".data), ("x=y".data, "x = y".data),
   ("a=b".data, "a = b".data), ("n=m".data, "n = m".data)]

def spacingFixes (l : List Char) : List Char :=
  spacingPairs.foldl (fun acc pr => replaceAll acc pr.1 pr.2) l

/-- Drop the suffix starting at the leftmost position whose remainder
matches the end-anchored pattern `m`; identity when no position matches. -/
def removeEndPat (m : List Char → Bool) : List Char → List Char
  | [] => []
  | c :: rest => if m (c :: rest) then [] else c :: removeEndPat m rest

/-- `[-−–—]`. -/
def isDashChar (c : Char) : Bool := c = '-' || c = '−' || c = '–' || c = '—'

/-- Full-suffix match of `\(\s*\d+\s*\)\s*$`. -/
def numParenSuffix (l : List Char) : Bool :=
  match l with
  | '(' :: r1 =>
    let r2 := r1.dropWhile isWsChar
    let ds := r2.takeWhile Char.isDigit
    if ds.isEmpty then false
    else
      match (r2.dropWhile Char.isDigit).dropWhile isWsChar with
      | ')' :: r3 => (r3.dropWhile isWsChar).isEmpty
      | _ => false
  | _ => false

/-- Full-suffix match of `\(\s*\d+\s*[-−–—]\s*\d+\s*\)\s*$`. -/
def numRangeParenSuffix (l : List Char) : Bool :=
  match l with
  | '(' :: r1 =>
    let r2 := r1.dropWhile isWsChar
    let d1 := r2.takeWhile Char.isDigit
    if d1.isEmpty then false
    else
      match (r2.dropWhile Char.isDigit).dropWhile isWsChar with
      | c :: r3 =>
        if isDashChar c then
          let r4 := r3.dropWhile isWsChar
          let d2 := r4.takeWhile Char.isDigit
          if d2.isEmpty then false
          else
            match (r4.dropWhile Char.isDigit).dropWhile isWsChar with
            | ')' :: r5 => (r5.dropWhile isWsChar).isEmpty
            | _ => false
        else false
      | [] => false
  | _ => false

/-- Full-suffix match of `\\left\(\s*\d+\s*\\right\)\s*$`. -/
def leftNumSuffix (l : List Char) : Bool :=
  if ("\\left(".data).isPrefixOf l then
    let r1 := (l.drop 6).dropWhile isWsChar
    let ds := r1.takeWhile Char.isDigit
    if ds.isEmpty then false
    else
      let r2 := (r1.dropWhile Char.isDigit).dropWhile isWsChar
      ("\\right)".data).isPrefixOf r2 && ((r2.drop 7).dropWhile isWsChar).isEmpty
  else false

/-- Full-suffix match of `\\left\(\s*\d+\s*[-−–—]\s*\d+\s*\s*\\right\)\s*$`. -/
def leftNumRangeSuffix (l : List Char) : Bool :=
  if ("\\left(".data).isPrefixOf l then
    let r1 := (l.drop 6).dropWhile isWsChar
    let d1 := r1.takeWhile Char.isDigit
    if d1.isEmpty then false
    else
      match (r1.dropWhile Char.isDigit).dropWhile isWsChar with
      | c :: r3 =>
        if isDashChar c then
          let r4 := r3.dropWhile isWsChar
          let d2 := r4.takeWhile Char.isDigit
          if d2.isEmpty then false
          else
            let r5 := (r4.dropWhile Char.isDigit).dropWhile isWsChar
            ("\\right)".data).isPrefixOf r5 &&
              ((r5.drop 7).dropWhile isWsChar).isEmpty
        else false
      | [] => false
  else false

/-- `_remove_formula_numbering` (docx2html.py lines 418–441): the four
end-anchored numbering patterns, each followed by a `strip`. -/
def remove_formula_numbering (l : List Char) : List Char :=
  pyStrip (removeEndPat numParenSuffix (pyStrip (removeEndPat leftNumSuffix
    (pyStrip (removeEndPat numRangeParenSuffix
      (pyStrip (removeEndPat leftNumRangeSuffix l)))))))

/-- The environments auto-closed by step 7 (line 412). -/
def mathEnvs : List (List Char) :=
  ["cases".data, "align".data, "matrix".data, "pmatrix".data, "bmatrix".data]

/-- Step 7 (lines 410–414): append `\end{env}` for each known environment
opened but not closed; the outer guard tests the incoming string. -/
def closeEnvironments (l : List Char) : List Char :=
  if containsSub l "\\begin\x7b".data then
    mathEnvs.foldl
      (fun acc env =>
        if containsSub acc ("\\begin\x7b".data ++ env ++ "\x7d".data) &&
            !containsSub acc ("\\end\x7b".data ++ env ++ "\x7d".data) then
          acc ++ "\\end\x7b".data ++ env ++ "\x7d".data
        else acc) l
  else l

/-- `_preprocess_latex` (docx2html.py lines 369–416). -/
def preprocess_latex (l : List Char) : List Char :=
  if l.isEmpty || l = "[Math Formula]".data then l
  else
    closeEnvironments (remove_formula_numbering (spacingFixes
      (balanceLeftRight (infinityFixes l))))

/-! ## DOCX → HTML renderer (`docx2html.py`)

The converter walks paragraph XML elements, emitting text runs, math
fragments and `<img>` tags while threading `self.processed_image_ids`
(modelled as a membership list).  File-system effects of `_save_image`
are elided: saving succeeds whenever the relationship id is in the map.
A `result_parts` list is kept as structured `RPart`s; `joinParts` renders
it to the exact string the source's f-strings and `''.join` build. -/

/-- `xml.sax.saxutils.escape`: `&`, `<`, `>` replaced by their entities
(the sequential `replace` calls of `escape` equal this per-character map). -/
def htmlEscape (l : List Char) : List Char :=
  l.flatMap (fun c =>
    if c = '&' then "&amp;".data
    else if c = '<' then "&lt;".data
    else if c = '>' then "&gt;".data
    else [c])

/-- `relationship_map` (lines 84–86): relationship id ↦ extension of the
relationship's `target_ref` (empty when it has none). -/
abbrev RelMap := List (List Char × List Char)

def lookupRel (rel : RelMap) (rid : List Char) : Option (List Char) :=
  match rel.find? (fun kv => decide (kv.1 = rid)) with
  | some kv => some kv.2
  | none => none

/-- `_save_image` (lines 443–471): the saved filename
`image_{image_id}{image_ext}`, extension defaulted to `.png`; the
file write is elided (it succeeds). -/
def save_image (rid ext : List Char) : List Char :=
  "image_".data ++ rid ++ (if ext.isEmpty then ".png".data else ext)

/-- One entry of a `result_parts` list: an emitted `<img>` tag (tagged with
its relationship id), a math fragment with its chosen wrapping, or plain
string content. -/
inductive RPart where
  | img (rid : List Char) (fname : List Char)
  | math (latex : List Char) (display : Bool)
  | str (s : List Char)
deriving DecidableEq

/-- The exact string a `RPart` stands for: the `<img>` f-string of lines
245/308, the `\[...\]` / `\(...\)` wraps of lines 268/272/357, or the text
itself. -/
def renderPart (imgDir : List Char) : RPart → List Char
  | .img _ fname =>
    "<img src=\"".data ++ imgDir ++ "/".data ++ fname ++ "\" alt=\"Image\" />".data
  | .math l display =>
    if display then "\\[".data ++ l ++ "\\]".data
    else "\\(".data ++ l ++ "\\)".data
  | .str s => s

/-- `''.join(result_parts)`. -/
def joinParts (imgDir : List Char) (ps : List RPart) : List Char :=
  (ps.map (renderPart imgDir)).flatten

/-- `_find_embedded_image_ids` (lines 153–167): every `embed` attribute of
a `blip` under a `drawing` under the element, inclusive iteration in
document order (tag suffix match `}drawing` ⟺ local tag `drawing`). -/
def find_embedded_image_ids (fuel : Nat) (e : Xml) : List (List Char) :=
  (iterAll fuel e).flatMap (fun child =>
    if child.tag = "drawing".data then
      (iterAll fuel child).flatMap (fun sub =>
        if sub.tag = "blip".data then
          (sub.attrs.filter (fun kv => decide (kv.1 = "embed".data))).map
            (fun kv => kv.2)
        else [])
    else [])

/-- The image-emission loop shared by lines 239–247 and 301–310: for each
id not yet in `processed_image_ids` and present in the relationship map,
emit one `<img>` part and add the id to the set. -/
def emitImgs (rel : RelMap) : List (List Char) → List (List Char) →
    (List RPart × List (List Char))
  | [], st => ([], st)
  | rid :: rest, st =>
    match lookupRel rel rid with
    | some ext =>
      if rid ∈ st then emitImgs rel rest st
      else
        let r := emitImgs rel rest (rid :: st)
        (RPart.img rid (save_image rid ext) :: r.1, r.2)
    | none => emitImgs rel rest st

/-- `element.find('.//tag')`: the first proper descendant with the given
local tag, in document order. -/
def findDesc (fuel : Nat) (t : List Char) (e : Xml) : Option Xml :=
  (e.children.flatMap (iterAll fuel)).find? (fun d => decide (d.tag = t))

/-- `.//vertAlign[@w:val=v]` (lines 341/345). -/
def findVertAlign (fuel : Nat) (e : Xml) (v : List Char) : Option Xml :=
  (e.children.flatMap (iterAll fuel)).find? (fun d =>
    decide (d.tag = "vertAlign".data) && decide (getAttr d "val".data = some v))

/-- The `<w:t>` branch of `_process_run_element` (lines 316–348): escape the
text, then wrap with the formats found in the run's first `rPr` descendant.
In the source the find paths double the namespace braces
(`'.//{' + self.ns_w + '}rPr'` with `ns_w` already braced), so `find`
always returns `None` and no wrap is ever applied; the model keeps the
lookup as written, which only widens the set of behaviours covered — no
theorem below depends on the wrap strings. -/
def formatRunText (fuel : Nat) (runEl : Xml) (txt : List Char) : List Char :=
  let content := htmlEscape txt
  match findDesc fuel "rPr".data runEl with
  | none => content
  | some props =>
    let c1 := if (findDesc fuel "b".data props).isSome
      then "<strong>".data ++ content ++ "</strong>".data else content
    let c2 := if (findDesc fuel "i".data props).isSome
      then "<em>".data ++ c1 ++ "</em>".data else c1
    let c3 := if (findDesc fuel "u".data props).isSome
      then "<u>".data ++ c2 ++ "</u>".data else c2
    let c4 := if (findDesc fuel "strike".data props).isSome
      then "<s>".data ++ c3 ++ "</s>".data else c3
    let c5 := if (findVertAlign fuel props "superscript".data).isSome
      then "<sup>".data ++ c4 ++ "</sup>".data else c4
    if (findVertAlign fuel props "subscript".data).isSome
      then "<sub>".data ++ c5 ++ "</sub>".data else c5

/-- The display test of lines 265–266: a newline, a leading environment
after strip, length over 50, or one of `\frac`, `\sum`, `\int`, `\prod`. -/
def isDisplayMath (l : List Char) : Bool :=
  containsSub l ['\n'] ||
    ("\\begin\x7b".data).isPrefixOf (pyStrip l) ||
    decide (50 < l.length) ||
    containsSub l "\\frac".data || containsSub l "\\sum".data ||
    containsSub l "\\int".data || containsSub l "\\prod".data

/-- The `oMath` branch of `_process_paragraph_element_recursively`
(lines 258–275): convert, skip an empty or placeholder result, preprocess,
then wrap display or inline according to `isDisplayMath`. -/
def paraMathParts (child : Xml) : List RPart :=
  let latex := omml_to_latex child
  if latex.isEmpty || latex = "[Math Formula]".data then []
  else
    let latex := preprocess_latex latex
    [RPart.math latex (isDisplayMath latex)]

/-- The `oMath` branch of `_process_run_element` (lines 350–359): identical
except the fragment is always wrapped inline. -/
def runMathParts (child : Xml) : List RPart :=
  let latex := omml_to_latex child
  if latex.isEmpty || latex = "[Math Formula]".data then []
  else [RPart.math (preprocess_latex latex) false]

/-- The ordered child loop of `_process_run_element` (lines 313–365):
`t` children append their formatted text when non-empty, `oMath` children
their inline math, and any other child recurses (through `conv`), its
contribution kept only when it renders non-empty. -/
def runChildLoop (imgDir : List Char)
    (conv : List (List Char) → Xml → Option (List RPart × List (List Char)))
    (fmt : List Char → List Char) :
    List (List Char) → List Xml → Option (List RPart × List (List Char))
  | st, [] => some ([], st)
  | st, child :: rest =>
    if child.tag = "t".data then
      match child.text with
      | some txt =>
        if txt.isEmpty then runChildLoop imgDir conv fmt st rest
        else
          match runChildLoop imgDir conv fmt st rest with
          | none => none
          | some r => some (RPart.str (fmt txt) :: r.1, r.2)
      | none => runChildLoop imgDir conv fmt st rest
    else if child.tag = "oMath".data then
      match runChildLoop imgDir conv fmt st rest with
      | none => none
      | some r => some (runMathParts child ++ r.1, r.2)
    else
      match conv st child with
      | none => none
      | some c =>
        match runChildLoop imgDir conv fmt c.2 rest with
        | none => none
        | some r =>
          if (joinParts imgDir c.1).isEmpty then some (r.1, r.2)
          else some (c.1 ++ r.1, r.2)

/-- `_process_run_element` (lines 285–367): images of the whole run first
(lines 299–310), then the ordered child loop.  The fuel bounds the Python
recursion depth; `none` models a `RecursionError`. -/
def process_run_element (rel : RelMap) (imgDir : List Char) :
    Nat → List (List Char) → Xml → Option (List RPart × List (List Char))
  | 0, _, _ => none
  | fuel + 1, st, e =>
    let imgs := emitImgs rel (find_embedded_image_ids (fuel + 1) e) st
    match runChildLoop imgDir (process_run_element rel imgDir fuel)
        (formatRunText (fuel + 1) e) imgs.2 e.children with
    | none => none
    | some r => some (imgs.1 ++ r.1, r.2)

/-- The paragraph-level image pre-pass (lines 232–247): images embedded in
the non-run direct children of a `p` element, emitted up front. -/
def paraPrepass (rel : RelMap) (fuel : Nat) :
    List (List Char) → List Xml → (List RPart × List (List Char))
  | st, [] => ([], st)
  | st, child :: rest =>
    if child.tag = "r".data then paraPrepass rel fuel st rest
    else
      let imgs := emitImgs rel (find_embedded_image_ids fuel child) st
      let r := paraPrepass rel fuel imgs.2 rest
      (imgs.1 ++ r.1, r.2)

/-- The ordered child loop of `_process_paragraph_element_recursively`
(lines 250–281): `r` children go through the run processor, `oMath`
children through the paragraph math branch, anything else recurses;
a child's contribution is kept only when it renders non-empty. -/
def paraChildLoop (imgDir : List Char)
    (convP convR : List (List Char) → Xml → Option (List RPart × List (List Char))) :
    List (List Char) → List Xml → Option (List RPart × List (List Char))
  | st, [] => some ([], st)
  | st, child :: rest =>
    if child.tag = "r".data then
      match convR st child with
      | none => none
      | some c =>
        match paraChildLoop imgDir convP convR c.2 rest with
        | none => none
        | some r =>
          if (joinParts imgDir c.1).isEmpty then some (r.1, r.2)
          else some (c.1 ++ r.1, r.2)
    else if child.tag = "oMath".data then
      match paraChildLoop imgDir convP convR st rest with
      | none => none
      | some r => some (paraMathParts child ++ r.1, r.2)
    else
      match convP st child with
      | none => none
      | some c =>
        match paraChildLoop imgDir convP convR c.2 rest with
        | none => none
        | some r =>
          if (joinParts imgDir c.1).isEmpty then some (r.1, r.2)
          else some (c.1 ++ r.1, r.2)

/-- `_process_paragraph_element_recursively` (lines 215–283): the image
pre-pass when the element is a `p`, then the ordered child loop. -/
def process_paragraph_element_recursively (rel : RelMap) (imgDir : List Char) :
    Nat → List (List Char) → Xml → Option (List RPart × List (List Char))
  | 0, _, _ => none
  | fuel + 1, st, e =>
    let pre := if e.tag = "p".data then paraPrepass rel (fuel + 1) st e.children
      else ([], st)
    match paraChildLoop imgDir
        (process_paragraph_element_recursively rel imgDir fuel)
        (process_run_element rel imgDir fuel) pre.2 e.children with
    | none => none
    | some r => some (pre.1 ++ r.1, r.2)

/-- A python-docx paragraph as `_convert_paragraph_to_html_improved` reads
it: its `.text`, its `.style.name`, and its underlying XML element. -/
structure DocxPara where
  text : List Char
  styleName : Option (List Char)
  el : Xml

/-- `_has_math_or_images` (lines 472–484). -/
def has_math_or_images (fuel : Nat) (e : Xml) : Bool :=
  !((iterAll fuel e).filter (fun x => decide (x.tag = "oMath".data))).isEmpty ||
    !((iterAll fuel e).filter (fun x => decide (x.tag = "drawing".data))).isEmpty

/-- The `style_mapping` lookup of lines 189–200 (`.get(style_name, "p")`). -/
def styleTagOf (styleName : List Char) : List Char :=
  if styleName = "heading 1".data then "h1".data
  else if styleName = "heading 2".data then "h2".data
  else if styleName = "heading 3".data then "h3".data
  else if styleName = "heading 4".data then "h4".data
  else if styleName = "heading 5".data then "h5".data
  else if styleName = "heading 6".data then "h6".data
  else if styleName = "title".data then "h1".data
  else if styleName = "subtitle".data then "h2".data
  else "p".data

/-- `_convert_paragraph_to_html_improved` (lines 169–213).  Besides the
returned HTML string the model carries the structured `result_parts` of the
element walk (empty on the early and heading returns, which emit nothing). -/
def convert_paragraph_to_html_improved (rel : RelMap) (imgDir : List Char)
    (fuel : Nat) (st : List (List Char)) (p : DocxPara) :
    Option (List Char × List RPart × List (List Char)) :=
  if (pyStrip p.text).isEmpty && !has_math_or_images fuel p.el then
    some ([], [], st)
  else
    let styleName := match p.styleName with
      | some n => asciiLower n
      | none => "normal".data
    let htmlTag := styleTagOf styleName
    if decide (htmlTag.head? = some 'h') && !(pyStrip p.text).isEmpty then
      some ("<".data ++ htmlTag ++ ">".data ++ htmlEscape (pyStrip p.text) ++
        "</".data ++ htmlTag ++ ">".data, [], st)
    else
      match process_paragraph_element_recursively rel imgDir fuel st p.el with
      | none => none
      | some (parts, st') =>
        let content := joinParts imgDir parts
        if content.isEmpty then some ([], parts, st')
        else some ("<".data ++ htmlTag ++ ">".data ++ content ++
          "</".data ++ htmlTag ++ ">".data, parts, st')

/-- One table cell (lines 465–521 of `_convert_table_to_html`): the cell's
paragraphs converted in order, `<p>`/`</p>` rewritten to `` / `<br/>`, the
trailing `<br/>` stripped. -/
def convertCellParas (rel : RelMap) (imgDir : List Char) (fuel : Nat) :
    List (List Char) → List DocxPara →
    Option (List (List Char) × List RPart × List (List Char))
  | st, [] => some ([], [], st)
  | st, p :: rest =>
    match convert_paragraph_to_html_improved rel imgDir fuel st p with
    | none => none
    | some (html, parts, st1) =>
      match convertCellParas rel imgDir fuel st1 rest with
      | none => none
      | some (hs, ps, st2) =>
        if html.isEmpty then some (hs, parts ++ ps, st2)
        else
          some (replaceAll (replaceAll html "<p>".data []) "</p>".data
            "<br/>".data :: hs, parts ++ ps, st2)

/-- `cell_content[-1][:-5]` when the last entry ends in `<br/>`
(lines 513–515). -/
def stripLastBr (hs : List (List Char)) : List (List Char) :=
  match hs.getLast? with
  | none => hs
  | some last =>
    if "<br/>".data.isSuffixOf last then
      hs.dropLast ++ [last.take (last.length - 5)]
    else hs

def convertRowCells (rel : RelMap) (imgDir : List Char) (fuel : Nat) :
    List (List Char) → List (List DocxPara) →
    Option (List (List Char) × List RPart × List (List Char))
  | st, [] => some ([], [], st)
  | st, cell :: rest =>
    match convertCellParas rel imgDir fuel st cell with
    | none => none
    | some (hs, parts, st1) =>
      match convertRowCells rel imgDir fuel st1 rest with
      | none => none
      | some (cs, ps, st2) =>
        some (("<td>".data ++ (stripLastBr hs).flatten ++ "</td>".data) :: cs,
          parts ++ ps, st2)

def convertTableRows (rel : RelMap) (imgDir : List Char) (fuel : Nat) :
    List (List Char) → List (List (List DocxPara)) →
    Option (List (List Char) × List RPart × List (List Char))
  | st, [] => some ([], [], st)
  | st, row :: rest =>
    match convertRowCells rel imgDir fuel st row with
    | none => none
    | some (cells, parts, st1) =>
      match convertTableRows rel imgDir fuel st1 rest with
      | none => none
      | some (rs, ps, st2) =>
        some (("<tr>".data ++ cells.flatten ++ "</tr>".data) :: rs,
          parts ++ ps, st2)

/-- `_convert_table_to_html` (lines 486–523). -/
def convert_table_to_html (rel : RelMap) (imgDir : List Char) (fuel : Nat)
    (st : List (List Char)) (rows : List (List (List DocxPara))) :
    Option (List Char × List RPart × List (List Char)) :=
  match convertTableRows rel imgDir fuel st rows with
  | none => none
  | some (rs, parts, st') =>
    some ("<table border=\x271\x27>".data ++ rs.flatten ++ "</table>".data,
      parts, st')

/-- A document block as `_iter_block_items` yields it. -/
inductive Block where
  | par (p : DocxPara)
  | table (rows : List (List (List DocxPara)))

/-- The block loop of `convert_docx_to_html` (lines 89–97): non-empty
block HTML collected in order, `processed_image_ids` threaded through. -/
def convertBlocks (rel : RelMap) (imgDir : List Char) (fuel : Nat) :
    List (List Char) → List Block →
    Option (List (List Char) × List RPart × List (List Char))
  | st, [] => some ([], [], st)
  | st, b :: rest =>
    let conv := match b with
      | .par p => convert_paragraph_to_html_improved rel imgDir fuel st p
      | .table rows => convert_table_to_html rel imgDir fuel st rows
    match conv with
    | none => none
    | some (html, parts, st1) =>
      match convertBlocks rel imgDir fuel st1 rest with
      | none => none
      | some (hs, ps, st2) =>
        if html.isEmpty then some (hs, parts ++ ps, st2)
        else some (html :: hs, parts ++ ps, st2)

/-- `convert_docx_to_html` (lines 40–115) restricted to its rendering core:
`processed_image_ids` is reset to the empty set (line 75) — the `prior`
set left over from an earlier conversion is discarded — and the blocks are
processed in order.  Returns the `html_content` list, the collected parts,
and the final processed set. -/
def convert_docx_to_html (rel : RelMap) (imgDir : List Char) (fuel : Nat)
    (prior : List (List Char)) (blocks : List Block) :
    Option (List (List Char) × List RPart × List (List Char)) :=
  convertBlocks rel imgDir fuel [] blocks

/-! # Theorems -/

/-! ## C7 — idempotence of `standardize_chapter_name` -/

theorem dropWhile_dropWhile (p : Char → Bool) (l : List Char) :
    (l.dropWhile p).dropWhile p = l.dropWhile p := by
  induction l with
  | nil => rfl
  | cons c rest ih =>
    by_cases h : p c
    · simp [List.dropWhile, h, ih]
    · simp [List.dropWhile, h]

theorem stripFront_stripFront (l : List Char) :
    stripFront (stripFront l) = stripFront l := dropWhile_dropWhile _ l

theorem stripTrail_stripTrail (l : List Char) :
    stripTrail (stripTrail l) = stripTrail l := by
  simp [stripTrail, dropWhile_dropWhile]

/-- If the head is not whitespace (or the list is empty), `stripFront` is the
identity. -/
theorem stripFront_of_head (l : List Char)
    (h : ∀ c, l.head? = some c → isWsChar c = false) : stripFront l = l := by
  cases l with
  | nil => rfl
  | cons c rest =>
    have := h c rfl
    simp [stripFront, List.dropWhile, this]

/-- `stripTrail` is a prefix of its argument. -/
theorem stripTrail_isPre (l : List Char) : stripTrail l <+: l := by
  have h : l.reverse.dropWhile isWsChar <:+ l.reverse := List.dropWhile_suffix _
  simpa [stripTrail] using h.reverse

/-- `stripTrail` preserves the head of a cons. -/
theorem stripTrail_head (c : Char) (rest : List Char) :
    (stripTrail (c :: rest)).head? = some c ∨ stripTrail (c :: rest) = [] := by
  rcases h : stripTrail (c :: rest) with _ | ⟨b, t⟩
  · exact Or.inr rfl
  · left
    obtain ⟨t2, ht2⟩ := stripTrail_isPre (c :: rest)
    rw [h] at ht2
    have : b = c := by
      have := congrArg List.head? ht2
      simpa using this
    rw [this]
    rfl

theorem pyStrip_pyStrip (l : List Char) : pyStrip (pyStrip l) = pyStrip l := by
  unfold pyStrip
  rcases hf : stripFront l with _ | ⟨c, rest⟩
  · simp [stripTrail, stripFront]
  · have hcw : isWsChar c = false := by
      have hhd : (l.dropWhile isWsChar).head? = some c := by
        have : stripFront l = c :: rest := hf
        simpa [stripFront] using congrArg List.head? this
      have h2 := List.head?_dropWhile_not isWsChar l
      rw [hhd] at h2
      simpa using h2
    rcases stripTrail_head c rest with h | h
    · rw [stripFront_of_head _ (by intro d hd; rw [h] at hd; cases hd; exact hcw),
        stripTrail_stripTrail]
    · rw [h]
      simp [stripFront, stripTrail]

theorem squeezeWsAux_true_head (l : List Char) :
    ∀ c, (squeezeWsAux true l).head? = some c → isWsChar c = false := by
  induction l with
  | nil => intro c h; simp [squeezeWsAux] at h
  | cons a rest ih =>
    intro c h
    by_cases ha : isWsChar a
    · rw [show squeezeWsAux true (a :: rest) = squeezeWsAux true rest by
        simp [squeezeWsAux, ha]] at h
      exact ih c h
    · rw [show squeezeWsAux true (a :: rest) = a :: squeezeWsAux false rest by
        simp [squeezeWsAux, ha]] at h
      simp at h
      rw [← h]
      simpa using ha

theorem wsNormB_cons (c : Char) (l : List Char) (hc : isWsChar c = false)
    (hl : wsNormB l = true) : wsNormB (c :: l) = true := by
  cases l with
  | nil => simp [wsNormB, hc]
  | cons d rest => simp [wsNormB, hc] at hl ⊢; exact hl

theorem wsNormB_cons_space (l : List Char)
    (hl : wsNormB l = true)
    (hh : ∀ c, l.head? = some c → isWsChar c = false) :
    wsNormB (' ' :: l) = true := by
  cases l with
  | nil => simp [wsNormB]
  | cons d rest =>
    have hd : isWsChar d = false := hh d rfl
    simp [wsNormB, hd] at hl ⊢
    exact hl

theorem wsNormB_squeeze (l : List Char) :
    ∀ b, wsNormB (squeezeWsAux b l) = true := by
  induction l with
  | nil => intro b; simp [squeezeWsAux, wsNormB]
  | cons a rest ih =>
    intro b
    by_cases ha : isWsChar a
    · cases b with
      | true => simpa [squeezeWsAux, ha] using ih true
      | false =>
        rw [show squeezeWsAux false (a :: rest) = ' ' :: squeezeWsAux true rest by
          simp [squeezeWsAux, ha]]
        exact wsNormB_cons_space _ (ih true) (squeezeWsAux_true_head rest)
    · have hrw : squeezeWsAux b (a :: rest) = a :: squeezeWsAux false rest := by
        cases b <;> simp [squeezeWsAux, ha]
      rw [hrw]
      exact wsNormB_cons a _ (by simpa using ha) (ih false)

theorem wsNormB_tail (c : Char) (l : List Char) (h : wsNormB (c :: l) = true) :
    wsNormB l = true := by
  cases l with
  | nil => rfl
  | cons d rest => simp [wsNormB] at h; exact h.2

theorem wsNormB_suffix (a l : List Char) (h : wsNormB (a ++ l) = true) :
    wsNormB l = true := by
  induction a with
  | nil => exact h
  | cons c a' ih => exact ih (wsNormB_tail c _ h)

theorem wsNormB_append_left (a b : List Char) (h : wsNormB (a ++ b) = true) :
    wsNormB a = true := by
  induction a with
  | nil => rfl
  | cons c a' ih =>
    cases a' with
    | nil =>
      cases b with
      | nil => exact h
      | cons d rest =>
        simp [wsNormB] at h ⊢
        rcases h.1 with h1 | h1
        · exact Or.inl h1
        · exact Or.inr h1.1
    | cons c2 a'' =>
      have hh : wsNormB (c :: c2 :: (a'' ++ b)) = true := h
      simp only [wsNormB, Bool.and_eq_true] at hh ⊢
      exact ⟨hh.1, ih hh.2⟩

theorem wsNormB_prefix (a l : List Char) (hp : a <+: l) (h : wsNormB l = true) :
    wsNormB a = true := by
  obtain ⟨t, ht⟩ := hp
  exact wsNormB_append_left a t (ht ▸ h)

theorem squeeze_id_of_norm (l : List Char) (h : wsNormB l = true) :
    squeezeWsAux false l = l := by
  induction l with
  | nil => rfl
  | cons c rest ih =>
    by_cases hc : isWsChar c
    · have hsp : c = ' ' := by
        cases rest with
        | nil => simp [wsNormB, hc] at h; exact h
        | cons d r => simp [wsNormB, hc] at h; exact h.1.1
      cases rest with
      | nil => simp [squeezeWsAux, hc, hsp]
      | cons d r =>
        have hd : isWsChar d = false := by
          simp [wsNormB, hc] at h; exact h.1.2
        have ihr := ih (wsNormB_tail c _ h)
        rw [show squeezeWsAux false (c :: d :: r) = ' ' :: squeezeWsAux true (d :: r) by
          simp [squeezeWsAux, hc]]
        rw [show squeezeWsAux true (d :: r) = d :: squeezeWsAux false r by
          simp [squeezeWsAux, hd]]
        rw [show squeezeWsAux false (d :: r) = d :: squeezeWsAux false r by
          simp [squeezeWsAux, hd]] at ihr
        rw [hsp, ihr]
    · have ihr := ih (wsNormB_tail c _ h)
      simp [squeezeWsAux, hc, ihr]

theorem wsNormB_pyStrip (l : List Char) (h : wsNormB l = true) :
    wsNormB (pyStrip l) = true := by
  have h1 : wsNormB (stripFront l) = true := by
    have hs : stripFront l <:+ l := List.dropWhile_suffix _
    obtain ⟨t, ht⟩ := hs
    exact wsNormB_suffix t _ (by rw [ht]; exact h)
  exact wsNormB_prefix _ _ (stripTrail_isPre _) h1

theorem collapseWs_idem (l : List Char) : collapseWs (collapseWs l) = collapseWs l := by
  unfold collapseWs
  rw [squeeze_id_of_norm _ (wsNormB_pyStrip _ (wsNormB_squeeze l false))]
  exact pyStrip_pyStrip _

/-- Claim C7, counterexample: `standardize_chapter_name` is not idempotent.
On `"第一章 x5 7"` the trailing-digit rule deletes the final `7` and leaves a
trailing space which whitespace collapsing then strips, exposing the digit
`5` to a second application, which deletes it as well. -/
theorem claim_C7_counterexample :
    standardize_chapter_name (standardize_chapter_name "第一章 x5 7".data) ≠
      standardize_chapter_name "第一章 x5 7".data := by decide

/-- Claim C7, amended: `standardize_chapter_name` is idempotent on every
input whose standardized form is a fixed point of the three digit-stripping
substitutions (in general a second application can strip a further trailing
digit run, as the counterexample shows); the final whitespace collapse is
idempotent unconditionally. -/
theorem claim_C7_amended (s : List Char)
    (h1 : subChapterMarker '绪' '论' (standardize_chapter_name s) =
      standardize_chapter_name s)
    (h2 : subChapterMarker '引' '言' (standardize_chapter_name s) =
      standardize_chapter_name s)
    (h3 : subTrailingDigits (standardize_chapter_name s) =
      standardize_chapter_name s) :
    standardize_chapter_name (standardize_chapter_name s) =
      standardize_chapter_name s := by
  conv_lhs => rw [standardize_chapter_name, h1, h2, h3]
  rw [standardize_chapter_name, collapseWs_idem]

/-- Claim C7, witness for the amended theorem at the input `"第一章 绪论"`. -/
theorem claim_C7_witness :
    standardize_chapter_name (standardize_chapter_name "第一章 绪论".data) =
      standardize_chapter_name "第一章 绪论".data :=
  claim_C7_amended _ (by decide) (by decide) (by decide)

/-! ## C1 — TOC classification scenario -/

theorem enumFrom_append {α : Type} (k : Nat) (a b : List α) :
    enumFrom k (a ++ b) = enumFrom k a ++ enumFrom (k + a.length) b := by
  induction a generalizing k with
  | nil => simp [enumFrom]
  | cons x a' ih =>
    simp [enumFrom, ih (k + 1)]
    rw [Nat.add_comm a'.length 1, ← Nat.add_assoc]

theorem mem_enumFrom {α : Type} (l : List α) :
    ∀ (k : Nat) (ip : Nat × α), ip ∈ enumFrom k l → ip.2 ∈ l := by
  induction l with
  | nil => intro k ip h; simp [enumFrom] at h
  | cons x rest ih =>
    intro k ip h
    rcases List.mem_cons.mp h with h | h
    · simp [h]
    · exact List.mem_cons_of_mem _ (ih (k + 1) ip h)

theorem findMarkerE_skip (pre : List Paragraph) :
    ∀ (k : Nat) (rest : List (Nat × Paragraph)),
      (∀ p ∈ pre, isMarkerPar p = false) →
      findMarkerE (enumFrom k pre ++ rest) = findMarkerE rest := by
  induction pre with
  | nil => intro k rest _; simp [enumFrom]
  | cons p pre' ih =>
    intro k rest h
    have hp : isMarkerPar p = false := h p (List.mem_cons_self _ _)
    simp only [enumFrom, List.cons_append, findMarkerE, hp, Bool.false_eq_true,
      if_false]
    exact ih (k + 1) rest (fun q hq => h q (List.mem_cons_of_mem _ hq))

theorem countOf_bump_ne (n name : List Char) (c : List (List Char × Nat))
    (h : n ≠ name) : countOf n (bumpCount name c) = countOf n c := by
  have hnn : name ≠ n := fun hh => h hh.symm
  induction c with
  | nil => simp [bumpCount, countOf, hnn]
  | cons e rest ih =>
    obtain ⟨m, k⟩ := e
    by_cases hm : m = name
    · subst hm
      simp [bumpCount, countOf, hnn]
    · by_cases hmn : m = n
      · subst hmn; simp [bumpCount, hm, countOf]
      · simp [bumpCount, hm, countOf, hmn, ih]

theorem countOf_bump_eq (name : List Char) (c : List (List Char × Nat)) :
    countOf name (bumpCount name c) = countOf name c + 1 := by
  induction c with
  | nil => simp [bumpCount, countOf]
  | cons e rest ih =>
    obtain ⟨m, k⟩ := e
    by_cases hm : m = name
    · subst hm; simp [bumpCount, countOf]
    · simp [bumpCount, hm, countOf, ih]

theorem chapterLabelOf_nonempty (t : List Char) (L : List Char)
    (h : chapterLabelOf t = some L) : t.isEmpty = false := by
  cases t with
  | nil => exact Option.noConfusion h
  | cons c rest => simp [List.isEmpty]

theorem scanBodyStart_skip (rest : List (Nat × Paragraph)) (l : List (Nat × Paragraph)) :
    ∀ (counts : List (List Char × Nat)),
      (∀ ip ∈ l, ∀ N ∈ firstChapterLabels,
        chapterLabelOf (pyStrip ip.2.text) ≠ some N) →
      ∃ counts', scanBodyStart counts (l ++ rest) = scanBodyStart counts' rest ∧
        ∀ N ∈ firstChapterLabels, countOf N counts' = countOf N counts := by
  induction l with
  | nil => intro counts _; exact ⟨counts, rfl, fun _ _ => rfl⟩
  | cons ip l' ih =>
    intro counts h
    obtain ⟨i, p⟩ := ip
    by_cases ht : (pyStrip p.text).isEmpty
    · have := ih counts (fun q hq => h q (List.mem_cons_of_mem _ hq))
      simpa [scanBodyStart, ht] using this
    · rcases hlab : chapterLabelOf (pyStrip p.text) with _ | name
      · have := ih counts (fun q hq => h q (List.mem_cons_of_mem _ hq))
        simpa [scanBodyStart, ht, hlab] using this
      · have hmem : name ∉ firstChapterLabels := fun hmemm =>
          h (i, p) (List.mem_cons_self _ _) name hmemm hlab
        obtain ⟨counts', hc1, hc2⟩ :=
          ih (bumpCount name counts) (fun q hq => h q (List.mem_cons_of_mem _ hq))
        refine ⟨counts', ?_, ?_⟩
        · simpa [scanBodyStart, ht, hlab, hmem] using hc1
        · intro N hN
          rw [hc2 N hN, countOf_bump_ne]
          exact fun hEq => hmem (hEq ▸ hN)
theorem scanBodyStart_main (mid : List Paragraph) (tocPar : Paragraph)
    (mid2 : List Paragraph) (bodyPar : Paragraph) (post : List Paragraph)
    (L : List Char) (k : Nat)
    (hLmem : L ∈ firstChapterLabels)
    (hmid : ∀ p ∈ mid ++ mid2, ∀ N ∈ firstChapterLabels,
      chapterLabelOf (pyStrip p.text) ≠ some N)
    (htoc : chapterLabelOf (pyStrip tocPar.text) = some L)
    (hbody : chapterLabelOf (pyStrip bodyPar.text) = some L) :
    scanBodyStart [] (enumFrom k (mid ++ tocPar :: (mid2 ++ bodyPar :: post))) =
      some (k + mid.length + 1 + mid2.length,
        enumFrom (k + mid.length + 1 + mid2.length) (bodyPar :: post)) := by
  rw [enumFrom_append k mid]
  obtain ⟨c1, hc1, hc1v⟩ := scanBodyStart_skip
    (enumFrom (k + mid.length) (tocPar :: (mid2 ++ bodyPar :: post)))
    (enumFrom k mid) []
    (fun ip hip N hN => hmid ip.2 (List.mem_append_left _ (mem_enumFrom _ _ _ hip)) N hN)
  rw [hc1]
  have hLc1 : countOf L c1 = 0 := by rw [hc1v L hLmem]; rfl
  have hte : (pyStrip tocPar.text).isEmpty = false := chapterLabelOf_nonempty _ _ htoc
  have hbe : (pyStrip bodyPar.text).isEmpty = false := chapterLabelOf_nonempty _ _ hbody
  -- step through the tocPar paragraph
  rw [show enumFrom (k + mid.length) (tocPar :: (mid2 ++ bodyPar :: post)) =
      (k + mid.length, tocPar) :: enumFrom (k + mid.length + 1) (mid2 ++ bodyPar :: post)
    from rfl]
  rw [show scanBodyStart c1 ((k + mid.length, tocPar) ::
      enumFrom (k + mid.length + 1) (mid2 ++ bodyPar :: post)) =
      scanBodyStart (bumpCount L c1) (enumFrom (k + mid.length + 1) (mid2 ++ bodyPar :: post))
    by
      simp only [scanBodyStart, hte, htoc, Bool.false_eq_true, if_false]
      have : countOf L (bumpCount L c1) = 1 := by rw [countOf_bump_eq, hLc1]
      simp [this]]
  obtain ⟨c2, hc2, hc2v⟩ := scanBodyStart_skip
    (enumFrom (k + mid.length + 1 + mid2.length) (bodyPar :: post))
    (enumFrom (k + mid.length + 1) mid2) (bumpCount L c1)
    (fun ip hip N hN => hmid ip.2 (List.mem_append_right _ (mem_enumFrom _ _ _ hip)) N hN)
  rw [enumFrom_append (k + mid.length + 1) mid2, hc2]
  have hLc2 : countOf L c2 = 1 := by
    rw [hc2v L hLmem, countOf_bump_eq, hLc1]
  rw [show enumFrom (k + mid.length + 1 + mid2.length) (bodyPar :: post) =
      (k + mid.length + 1 + mid2.length, bodyPar) ::
        enumFrom (k + mid.length + 1 + mid2.length + 1) post from rfl]
  simp only [scanBodyStart, hbe, hbody, Bool.false_eq_true, if_false]
  have hbump : countOf L (bumpCount L c2) = 2 := by rw [countOf_bump_eq, hLc2]
  simp only [hbump]
  simp [hLmem, enumFrom]
theorem clsStep_accept (st : ClsState) (i : Nat) (p : Paragraph)
    (hsty1 : styleIsHeadingB p.style = true)
    (hsty2 : styleLevel p.style = 1)
    (hsty3 : isHeading1Style p.style = true)
    (hne : (pyStrip p.text).isEmpty = false)
    (hpi : is_personal_info (pyStrip p.text) = false)
    (hpunct : hasPunctuation (pyStrip p.text) = false)
    (hseen : displayOf (standardize_chapter_name (pyStrip p.text)) ∉ st.seen) :
    clsStep st (i, p) =
      { st with
        seen := st.seen ++ [displayOf (standardize_chapter_name (pyStrip p.text))],
        mains := st.mains ++ [mkEntry i 1 (pyStrip p.text)] } := by
  simp [clsStep, clsAccept, classifyHeading, hsty1, hsty2, hsty3, hne, hpi, hpunct, hseen]

theorem clsStep_mains_stable (st : ClsState) (i : Nat) (p : Paragraph)
    (h : couldBeLevel1 p = false) : (clsStep st (i, p)).mains = st.mains := by
  by_cases ht : (pyStrip p.text).isEmpty
  · simp [clsStep, ht]
  · by_cases hacc : clsAccept st.seen p (pyStrip p.text)
        (classifyHeading p (pyStrip p.text)).1 (classifyHeading p (pyStrip p.text)).2
    · by_cases hlv : (classifyHeading p (pyStrip p.text)).2 = 1
      · exfalso
        have hcb : couldBeLevel1 p = true := by
          simp only [clsAccept, hlv, if_pos rfl, Bool.and_eq_true] at hacc
          have h5 : (anyLarge p.runs || isHeading1Style p.style) = true := by
            simpa using hacc.2
          simp [couldBeLevel1, ht, hlv, hacc.1.1.1.1, hacc.1.1.1.2, hacc.1.2, h5]
        rw [h] at hcb
        cases hcb
      · simp [clsStep, ht, hacc, hlv]
    · simp [clsStep, ht, hacc]
theorem foldl_clsStep_mains (l : List (Nat × Paragraph)) :
    ∀ (st : ClsState), (∀ ip ∈ l, couldBeLevel1 ip.2 = false) →
      (l.foldl clsStep st).mains = st.mains := by
  induction l with
  | nil => intro st _; rfl
  | cons ip l' ih =>
    intro st h
    obtain ⟨i, p⟩ := ip
    rw [List.foldl_cons,
      ih (clsStep st (i, p)) (fun q hq => h q (List.mem_cons_of_mem _ hq)),
      clsStep_mains_stable st i p (h (i, p) (List.mem_cons_self _ _))]

theorem attachSubs_single (subs : List TocEntry) :
    ∀ (e : TocEntry) (ch0 : List TocEntry),
      ∃ ch, attachSubs [{ entry := e, children := ch0 }] subs =
        [{ entry := e, children := ch }] := by
  induction subs with
  | nil => intro e ch0; exact ⟨ch0, rfl⟩
  | cons s subs' ih =>
    intro e ch0
    by_cases hlt : e.index < s.index
    · have h1 : attachOne [{ entry := e, children := ch0 }] s =
          [{ entry := e, children := ch0 ++ [s] }] := by
        simp [attachOne, attachToLast, hlt]
      obtain ⟨ch, hch⟩ := ih e (ch0 ++ [s])
      exact ⟨ch, by simp [attachSubs, List.foldl_cons] at hch ⊢; rw [h1]; exact hch⟩
    · have h1 : attachOne [{ entry := e, children := ch0 }] s =
          [{ entry := e, children := ch0 ++ [s] }] := by
        simp [attachOne, attachToLast, hlt]
      obtain ⟨ch, hch⟩ := ih e (ch0 ++ [s])
      exact ⟨ch, by simp [attachSubs, List.foldl_cons] at hch ⊢; rw [h1]; exact hch⟩

/-- Claim C1: a paragraph stream holding a contents marker, exactly one
first-chapter label occurrence in the TOC listing, and one later occurrence
of the same label styled as a level-1 heading (and acceptable as a chapter:
no personal-information pattern, no punctuation), with no other paragraph
acceptable as a level-1 chapter, classifies to exactly one level-1 chapter
node, whose index is the position of the second (body) occurrence. -/
theorem claim_C1 (pre mid mid2 post : List Paragraph)
    (marker tocPar bodyPar : Paragraph) (L : List Char)
    (hLmem : L ∈ firstChapterLabels)
    (hpre : ∀ p ∈ pre, isMarkerPar p = false)
    (hmarker : isMarkerPar marker = true)
    (_hone : ∀ p ∈ mid ++ mid2 ++ post, isMarkerPar p = false)
    (hmid : ∀ p ∈ mid ++ mid2, ∀ N ∈ firstChapterLabels,
      chapterLabelOf (pyStrip p.text) ≠ some N)
    (htoc : chapterLabelOf (pyStrip tocPar.text) = some L)
    (hbody : chapterLabelOf (pyStrip bodyPar.text) = some L)
    (hsty1 : styleIsHeadingB bodyPar.style = true)
    (hsty2 : styleLevel bodyPar.style = 1)
    (hsty3 : isHeading1Style bodyPar.style = true)
    (hpi : is_personal_info (pyStrip bodyPar.text) = false)
    (hpunct : hasPunctuation (pyStrip bodyPar.text) = false)
    (hpost : ∀ p ∈ post, couldBeLevel1 p = false) :
    ∃ node, extract_toc_from_docx
        (pre ++ marker :: (mid ++ tocPar :: (mid2 ++ bodyPar :: post))) = [node] ∧
      node.entry.index = pre.length + mid.length + mid2.length + 2 ∧
      node.entry.level = 1 := by
  have hbe : (pyStrip bodyPar.text).isEmpty = false := chapterLabelOf_nonempty _ _ hbody
  have hfind : findMarkerE
      (enumFrom 0 (pre ++ marker :: (mid ++ tocPar :: (mid2 ++ bodyPar :: post)))) =
      some (0 + pre.length,
        enumFrom (0 + pre.length + 1) (mid ++ tocPar :: (mid2 ++ bodyPar :: post))) := by
    rw [enumFrom_append 0 pre]
    rw [show enumFrom (0 + pre.length) (marker :: (mid ++ tocPar :: (mid2 ++ bodyPar :: post)))
        = (0 + pre.length, marker) ::
          enumFrom (0 + pre.length + 1) (mid ++ tocPar :: (mid2 ++ bodyPar :: post)) from rfl]
    rw [findMarkerE_skip pre 0 _ hpre]
    simp [findMarkerE, hmarker]
  have hscan := scanBodyStart_main mid tocPar mid2 bodyPar post L (0 + pre.length + 1) hLmem
    hmid htoc hbody
  set bIdx := 0 + pre.length + 1 + mid.length + 1 + mid2.length with hbIdx
  simp only [extract_toc_from_docx, hfind, hscan]
  rw [show enumFrom bIdx (bodyPar :: post) = (bIdx, bodyPar) :: enumFrom (bIdx + 1) post
    from rfl]
  rw [List.foldl_cons]
  rw [clsStep_accept _ bIdx bodyPar hsty1 hsty2 hsty3 hbe hpi hpunct (by simp)]
  simp only [List.nil_append]
  have hm : (List.foldl clsStep
      { seen := [displayOf (standardize_chapter_name (pyStrip bodyPar.text))],
        mains := [mkEntry bIdx 1 (pyStrip bodyPar.text)], subs := [] }
      (enumFrom (bIdx + 1) post)).mains =
      [mkEntry bIdx 1 (pyStrip bodyPar.text)] :=
    foldl_clsStep_mains (enumFrom (bIdx + 1) post) _
      (fun ip hip => hpost ip.2 (mem_enumFrom _ _ _ hip))
  simp only [hm, List.length_cons, List.length_nil, List.map_cons, List.map_nil]
  simp only [show ¬ (0 + 1 < 1) from by omega, if_false]
  rw [hm]
  simp only [List.map_cons, List.map_nil]
  obtain ⟨ch, hch⟩ := attachSubs_single
    ((List.foldl clsStep
      { seen := [displayOf (standardize_chapter_name (pyStrip bodyPar.text))],
        mains := [mkEntry bIdx 1 (pyStrip bodyPar.text)], subs := [] }
      (enumFrom (bIdx + 1) post)).subs)
    (mkEntry bIdx 1 (pyStrip bodyPar.text)) []
  refine ⟨{ entry := mkEntry bIdx 1 (pyStrip bodyPar.text), children := ch }, ?_, ?_, ?_⟩
  · exact hch
  · simp [mkEntry, hbIdx]
    omega
  · simp [mkEntry]

/-- Claim C1, witness: the minimal three-paragraph stream (marker, TOC
line, Heading-1 body line) yields exactly one level-1 chapter at index 2. -/
theorem claim_C1_witness :
    ∃ node, extract_toc_from_docx
        ([] ++ { text := "目录".data, style := "Normal".data, runs := [] } ::
          ([] ++ { text := "第一章 绪论".data, style := "Normal".data, runs := [] } ::
            ([] ++ { text := "第一章 绪论".data, style := "Heading 1".data, runs := [] } ::
              []))) = [node] ∧
      node.entry.index = (([] : List Paragraph)).length +
        (([] : List Paragraph)).length + (([] : List Paragraph)).length + 2 ∧
      node.entry.level = 1 :=
  claim_C1 [] [] [] []
    { text := "目录".data, style := "Normal".data, runs := [] }
    { text := "第一章 绪论".data, style := "Normal".data, runs := [] }
    { text := "第一章 绪论".data, style := "Heading 1".data, runs := [] }
    "第一章".data
    (by decide) (by simp) (by decide) (by simp) (by simp)
    (by decide) (by decide) (by decide) (by decide) (by decide)
    (by decide) (by decide) (by simp)

/-! ## C8 — display truncation and original text -/

theorem displayOf_eq_trunc_iff (std : List Char) :
    displayOf std = std.take 20 ++ "...".data ↔ 20 < std.length := by
  by_cases h : 20 < std.length
  · simp [displayOf, h]
  · rw [displayOf, if_neg h]
    constructor
    · intro he
      have := congrArg List.length he
      simp [List.length_take] at this
      omega
    · intro hc; exact absurd hc h

theorem displayOf_short (std : List Char) (h : ¬ 20 < std.length) :
    displayOf std = std := by
  rw [displayOf, if_neg h]

theorem entryFromStream_props (ps : List Paragraph) (e : TocEntry)
    (h : entryFromStream ps e) :
    (e.text = e.standardizedText.take 20 ++ "...".data ↔
      20 < e.standardizedText.length) ∧
    (¬ 20 < e.standardizedText.length → e.text = e.standardizedText) ∧
    e.standardizedText = standardize_chapter_name e.originalText ∧
    ∃ p ∈ ps, e.originalText = pyStrip p.text := by
  obtain ⟨i, lv, p, hp, rfl⟩ := h
  refine ⟨?_, ?_, rfl, ⟨p, hp, rfl⟩⟩
  · exact displayOf_eq_trunc_iff _
  · intro h
    simp only [mkEntry] at h ⊢
    exact displayOf_short _ h

theorem clsStep_entries (st : ClsState) (ip : Nat × Paragraph) (e : TocEntry)
    (ps : List Paragraph) (hp : ip.2 ∈ ps)
    (hst : ∀ x ∈ st.mains ++ st.subs, entryFromStream ps x)
    (he : e ∈ (clsStep st ip).mains ++ (clsStep st ip).subs) :
    entryFromStream ps e := by
  obtain ⟨i, p⟩ := ip
  by_cases ht : (pyStrip p.text).isEmpty
  · rw [show clsStep st (i, p) = st by simp [clsStep, ht]] at he
    exact hst e he
  · by_cases hacc : clsAccept st.seen p (pyStrip p.text)
        (classifyHeading p (pyStrip p.text)).1 (classifyHeading p (pyStrip p.text)).2
    · by_cases hlv : (classifyHeading p (pyStrip p.text)).2 = 1
      · have hacc' : clsAccept st.seen p (pyStrip p.text)
            (classifyHeading p (pyStrip p.text)).1 1 = true := hlv ▸ hacc
        rw [show clsStep st (i, p) = { st with
            seen := st.seen ++ [displayOf (standardize_chapter_name (pyStrip p.text))],
            mains := st.mains ++ [mkEntry i 1 (pyStrip p.text)] }
          by simp [clsStep, ht, hacc', hlv]] at he
        simp only [List.mem_append, List.mem_singleton] at he
        rcases he with (he | he) | he
        · exact hst e (List.mem_append_left _ he)
        · exact ⟨i, 1, p, hp, he⟩
        · exact hst e (List.mem_append_right _ he)
      · rw [show clsStep st (i, p) = { st with
            seen := st.seen ++ [displayOf (standardize_chapter_name (pyStrip p.text))],
            subs := st.subs ++ [mkEntry i (classifyHeading p (pyStrip p.text)).2 (pyStrip p.text)] }
          by simp [clsStep, ht, hacc, hlv]] at he
        simp only [List.mem_append, List.mem_singleton] at he
        rcases he with he | (he | he)
        · exact hst e (List.mem_append_left _ he)
        · exact hst e (List.mem_append_right _ he)
        · exact ⟨i, _, p, hp, he⟩
    · rw [show clsStep st (i, p) = st by simp [clsStep, ht, hacc]] at he
      exact hst e he

theorem fbStep_entries (st : ClsState) (ip : Nat × Paragraph) (e : TocEntry)
    (ps : List Paragraph) (hp : ip.2 ∈ ps)
    (hst : ∀ x ∈ st.mains ++ st.subs, entryFromStream ps x)
    (he : e ∈ (fbStep st ip).mains ++ (fbStep st ip).subs) :
    entryFromStream ps e := by
  obtain ⟨i, p⟩ := ip
  simp only [fbStep] at he
  split at he
  · exact hst e he
  · split at he
    · exact hst e he
    · split at he
      · split at he
        · simp only [List.mem_append, List.mem_singleton] at he
          rcases he with (he | he) | he
          · exact hst e (List.mem_append_left _ he)
          · exact ⟨i, _, p, hp, he⟩
          · exact hst e (List.mem_append_right _ he)
        · exact hst e he
      · exact hst e he

theorem foldl_entries {step : ClsState → Nat × Paragraph → ClsState}
    (hstep : ∀ st ip e ps, ip.2 ∈ ps →
      (∀ x ∈ st.mains ++ st.subs, entryFromStream ps x) →
      e ∈ (step st ip).mains ++ (step st ip).subs → entryFromStream ps e)
    (ps : List Paragraph) (l : List (Nat × Paragraph)) :
    ∀ (st : ClsState), (∀ ip ∈ l, ip.2 ∈ ps) →
      (∀ x ∈ st.mains ++ st.subs, entryFromStream ps x) →
      ∀ e ∈ (l.foldl step st).mains ++ (l.foldl step st).subs,
        entryFromStream ps e := by
  induction l with
  | nil => intro st _ hst e he; exact hst e he
  | cons ip l' ih =>
    intro st hl hst e he
    rw [List.foldl_cons] at he
    exact ih (step st ip) (fun q hq => hl q (List.mem_cons_of_mem _ hq))
      (fun x hx => hstep st ip x ps (hl ip (List.mem_cons_self _ _)) hst hx) e he

theorem scanBodyStart_mem (rest : List (Nat × Paragraph)) :
    ∀ (counts : List (List Char × Nat)) (i : Nat) (out : List (Nat × Paragraph)),
      scanBodyStart counts rest = some (i, out) → ∀ x ∈ out, x ∈ rest := by
  induction rest with
  | nil => intro counts i out h; exact Option.noConfusion h
  | cons ip rest' ih =>
    intro counts i out h x hx
    obtain ⟨j, p⟩ := ip
    simp only [scanBodyStart] at h
    by_cases ht : (pyStrip p.text).isEmpty
    · rw [if_pos ht] at h
      exact List.mem_cons_of_mem _ (ih counts i out h x hx)
    · rw [if_neg (by simpa using ht)] at h
      rcases hlab : chapterLabelOf (pyStrip p.text) with _ | name
      · simp only [hlab] at h
        exact List.mem_cons_of_mem _ (ih counts i out h x hx)
      · simp only [hlab] at h
        by_cases hc : (firstChapterLabels.contains name &&
            decide (1 < countOf name (bumpCount name counts))) = true
        · rw [if_pos hc] at h
          obtain ⟨rfl, rfl⟩ : i = j ∧ out = (j, p) :: rest' := by
            cases h; exact ⟨rfl, rfl⟩
          exact hx
        · rw [if_neg hc] at h
          exact List.mem_cons_of_mem _ (ih _ i out h x hx)

theorem findMarkerE_mem (l : List (Nat × Paragraph)) :
    ∀ (i : Nat) (out : List (Nat × Paragraph)),
      findMarkerE l = some (i, out) → ∀ x ∈ out, x ∈ l := by
  induction l with
  | nil => intro i out h; exact Option.noConfusion h
  | cons ip l' ih =>
    intro i out h x hx
    obtain ⟨j, p⟩ := ip
    simp only [findMarkerE] at h
    by_cases hm : isMarkerPar p
    · rw [if_pos hm] at h
      obtain ⟨rfl, rfl⟩ : i = j ∧ out = l' := by cases h; exact ⟨rfl, rfl⟩
      exact List.mem_cons_of_mem _ hx
    · rw [if_neg (by simpa using hm)] at h
      exact List.mem_cons_of_mem _ (ih i out h x hx)

theorem attachToLast_nodes (ms : List TocNode) (sub : TocEntry) :
    ∀ (out : List TocNode), attachToLast ms sub = some out →
      ∀ n ∈ out, (n ∈ ms ∨ ∃ m ∈ ms, n.entry = m.entry ∧
        ∀ c ∈ n.children, c ∈ m.children ∨ c = sub) := by
  induction ms with
  | nil => intro out h; exact Option.noConfusion h
  | cons m ms' ih =>
    intro out h n hn
    simp only [attachToLast] at h
    rcases hrec : attachToLast ms' sub with _ | out'
    · rw [hrec] at h
      by_cases hlt : m.entry.index < sub.index
      · rw [if_pos hlt] at h
        obtain rfl : ({ m with children := m.children ++ [sub] } :: ms') = out := by
          cases h; rfl
        rcases List.mem_cons.mp hn with rfl | hn'
        · refine Or.inr ⟨m, List.mem_cons_self _ _, rfl, ?_⟩
          intro c hc
          rcases List.mem_append.mp hc with hc | hc
          · exact Or.inl hc
          · exact Or.inr (List.mem_singleton.mp hc)
        · exact Or.inl (List.mem_cons_of_mem _ hn')
      · rw [if_neg hlt] at h
        exact Option.noConfusion h
    · rw [hrec] at h
      obtain rfl : m :: out' = out := by cases h; rfl
      rcases List.mem_cons.mp hn with rfl | hn'
      · exact Or.inl (List.mem_cons_self _ _)
      · rcases ih out' hrec n hn' with hcase | ⟨m2, hm2, he2, hc2⟩
        · exact Or.inl (List.mem_cons_of_mem _ hcase)
        · exact Or.inr ⟨m2, List.mem_cons_of_mem _ hm2, he2, hc2⟩

theorem attachOne_nodes (ms : List TocNode) (sub : TocEntry) :
    ∀ n ∈ attachOne ms sub, (n ∈ ms ∨ ∃ m ∈ ms, n.entry = m.entry ∧
      ∀ c ∈ n.children, c ∈ m.children ∨ c = sub) := by
  intro n hn
  simp only [attachOne] at hn
  rcases hal : attachToLast ms sub with _ | out
  · rw [hal] at hn
    cases ms with
    | nil => simp at hn
    | cons m ms' =>
      rcases List.mem_cons.mp hn with rfl | hn'
      · refine Or.inr ⟨m, List.mem_cons_self _ _, rfl, ?_⟩
        intro c hc
        rcases List.mem_append.mp hc with hc | hc
        · exact Or.inl hc
        · exact Or.inr (List.mem_singleton.mp hc)
      · exact Or.inl (List.mem_cons_of_mem _ hn')
  · rw [hal] at hn
    exact attachToLast_nodes ms sub out hal n hn

theorem attachSubs_nodes (ps : List Paragraph) (subs : List TocEntry) :
    ∀ (ms : List TocNode),
      (∀ m ∈ ms, entryFromStream ps m.entry ∧
        ∀ c ∈ m.children, entryFromStream ps c) →
      (∀ s ∈ subs, entryFromStream ps s) →
      ∀ n ∈ attachSubs ms subs, entryFromStream ps n.entry ∧
        ∀ c ∈ n.children, entryFromStream ps c := by
  induction subs with
  | nil => intro ms hms _ n hn; exact hms n hn
  | cons s subs' ih =>
    intro ms hms hsubs n hn
    rw [show attachSubs ms (s :: subs') = attachSubs (attachOne ms s) subs' from rfl] at hn
    refine ih (attachOne ms s) ?_ (fun x hx => hsubs x (List.mem_cons_of_mem _ hx)) n hn
    intro m' hm'
    rcases attachOne_nodes ms s m' hm' with hold | ⟨m, hm, he, hc⟩
    · exact hms m' hold
    · refine ⟨he ▸ (hms m hm).1, ?_⟩
      intro c hcm
      rcases hc c hcm with hcc | rfl
      · exact (hms m hm).2 c hcc
      · exact hsubs _ (List.mem_cons_self _ _)

/-- Claim C8: every accepted TOC node (chapter or attached sub-chapter)
has display text equal to the standardized text truncated to 20 characters
with an appended ellipsis marker exactly when the standardized text is
longer than 20 characters, equal to the standardized text unchanged
otherwise, and its `original_text` field carries the full untruncated
(stripped) text of the source paragraph. -/
theorem claim_C8 (ps : List Paragraph) (n : TocNode) (e : TocEntry)
    (hn : n ∈ extract_toc_from_docx ps) (he : e = n.entry ∨ e ∈ n.children) :
    (e.text = e.standardizedText.take 20 ++ "...".data ↔
      20 < e.standardizedText.length) ∧
    (¬ 20 < e.standardizedText.length → e.text = e.standardizedText) ∧
    e.standardizedText = standardize_chapter_name e.originalText ∧
    ∃ p ∈ ps, e.originalText = pyStrip p.text := by
  apply entryFromStream_props
  revert he
  suffices h : entryFromStream ps n.entry ∧ ∀ c ∈ n.children, entryFromStream ps c by
    intro he
    rcases he with rfl | he
    · exact h.1
    · exact h.2 e he
  revert hn
  simp only [extract_toc_from_docx]
  rcases hf : findMarkerE (enumFrom 0 ps) with _ | fi
  · -- no marker: fallback over the first 100 paragraphs
    simp only [hf]
    intro hn
    have hfold : ∀ x ∈ (((enumFrom 0 ps).take 100).foldl fbStep
        { seen := [], mains := [], subs := [] }).mains ++
        (((enumFrom 0 ps).take 100).foldl fbStep
        { seen := [], mains := [], subs := [] }).subs, entryFromStream ps x := by
      apply foldl_entries fbStep_entries
      · intro ip hip
        exact mem_enumFrom ps 0 ip (List.take_subset _ _ hip)
      · intro x hx; simp at hx
    apply attachSubs_nodes ps _ _ ?_ ?_ n
    · simpa using hn
    · intro m hm
      simp only [List.mem_map] at hm
      obtain ⟨x, hx, rfl⟩ := hm
      exact ⟨hfold x (List.mem_append_left _ hx), by simp⟩
    · intro s hs
      exact hfold s (List.mem_append_right _ hs)
  · obtain ⟨mi, mrest⟩ := fi
    simp only [hf]
    rcases hs : scanBodyStart [] mrest with _ | si
    · simp only [hs]
      intro hn
      have hfold : ∀ x ∈ (((enumFrom 0 ps).take 100).foldl fbStep
          { seen := [], mains := [], subs := [] }).mains ++
          (((enumFrom 0 ps).take 100).foldl fbStep
          { seen := [], mains := [], subs := [] }).subs, entryFromStream ps x := by
        apply foldl_entries fbStep_entries
        · intro ip hip
          exact mem_enumFrom ps 0 ip (List.take_subset _ _ hip)
        · intro x hx; simp at hx
      apply attachSubs_nodes ps _ _ ?_ ?_ n
      · simpa using hn
      · intro m hm
        simp only [List.mem_map] at hm
        obtain ⟨x, hx, rfl⟩ := hm
        exact ⟨hfold x (List.mem_append_left _ hx), by simp⟩
      · intro s hs2
        exact hfold s (List.mem_append_right _ hs2)
    · obtain ⟨bi, fromBody⟩ := si
      simp only [hs]
      intro hn
      have hmem1 : ∀ ip ∈ fromBody, ip.2 ∈ ps := fun ip hip =>
        mem_enumFrom ps 0 ip
          (findMarkerE_mem _ _ _ hf ip (scanBodyStart_mem _ _ _ _ hs ip hip))
      have hfold1 : ∀ x ∈ (fromBody.foldl clsStep
          { seen := [], mains := [], subs := [] }).mains ++
          (fromBody.foldl clsStep { seen := [], mains := [], subs := [] }).subs,
          entryFromStream ps x := by
        apply foldl_entries clsStep_entries ps fromBody _ hmem1
        intro x hx; simp at hx
      by_cases hlen : (fromBody.foldl clsStep
          { seen := [], mains := [], subs := [] }).mains.length < 1
      · rw [if_pos hlen] at hn
        have hfold2 : ∀ x ∈ ((fromBody.take 100).foldl fbStep
            (fromBody.foldl clsStep { seen := [], mains := [], subs := [] })).mains ++
            ((fromBody.take 100).foldl fbStep
            (fromBody.foldl clsStep { seen := [], mains := [], subs := [] })).subs,
            entryFromStream ps x :=
          foldl_entries fbStep_entries ps _ _
            (fun ip hip => hmem1 ip (List.take_subset _ _ hip)) hfold1
        apply attachSubs_nodes ps _ _ ?_ ?_ n
        · simpa using hn
        · intro m hm
          simp only [List.mem_map] at hm
          obtain ⟨x, hx, rfl⟩ := hm
          exact ⟨hfold2 x (List.mem_append_left _ hx), by simp⟩
        · intro s hs2
          exact hfold2 s (List.mem_append_right _ hs2)
      · rw [if_neg hlen] at hn
        apply attachSubs_nodes ps _ _ ?_ ?_ n
        · simpa using hn
        · intro m hm
          simp only [List.mem_map] at hm
          obtain ⟨x, hx, rfl⟩ := hm
          exact ⟨hfold1 x (List.mem_append_left _ hx), by simp⟩
        · intro s hs2
          exact hfold1 s (List.mem_append_right _ hs2)

/-- Claim C8, witness at the concrete three-paragraph stream, instantiating
the theorem at the single produced chapter node — whose standardized text
is short, so the display text equals it unchanged. -/
theorem claim_C8_witness :
    ((mkEntry 2 1 (pyStrip "第一章 绪论".data)).text =
        (mkEntry 2 1 (pyStrip "第一章 绪论".data)).standardizedText.take 20 ++
          "...".data ↔
      20 < (mkEntry 2 1 (pyStrip "第一章 绪论".data)).standardizedText.length) ∧
    (mkEntry 2 1 (pyStrip "第一章 绪论".data)).text =
      (mkEntry 2 1 (pyStrip "第一章 绪论".data)).standardizedText ∧
    (mkEntry 2 1 (pyStrip "第一章 绪论".data)).standardizedText =
      standardize_chapter_name (mkEntry 2 1 (pyStrip "第一章 绪论".data)).originalText ∧
    ∃ p ∈ ([{ text := "目录".data, style := "Normal".data, runs := [] },
        { text := "第一章 绪论".data, style := "Normal".data, runs := [] },
        { text := "第一章 绪论".data, style := "Heading 1".data, runs := [] }] :
        List Paragraph),
      (mkEntry 2 1 (pyStrip "第一章 绪论".data)).originalText = pyStrip p.text :=
  have h := claim_C8
    ([{ text := "目录".data, style := "Normal".data, runs := [] },
      { text := "第一章 绪论".data, style := "Normal".data, runs := [] },
      { text := "第一章 绪论".data, style := "Heading 1".data, runs := [] }] :
      List Paragraph)
    { entry := mkEntry 2 1 (pyStrip "第一章 绪论".data), children := [] }
    (mkEntry 2 1 (pyStrip "第一章 绪论".data))
    (by decide) (Or.inl rfl)
  ⟨h.1, h.2.1 (by decide), h.2.2.1, h.2.2.2⟩

/-! ## C10 / C9 / C6 — the math converter -/

theorem box_convert_none (e : Xml) (h : localTag e = "box".data) :
    ∀ fuel, convert_element fuel e = none := by
  intro fuel
  induction fuel with
  | zero => rfl
  | succ f ih =>
    simp only [convert_element]
    rw [if_neg (by rw [h]; decide), if_neg (by rw [h]; decide),
      if_neg (by rw [h]; decide), if_neg (by rw [h]; decide),
      if_neg (by rw [h]; decide), if_neg (by rw [h]; decide),
      if_neg (by rw [h]; decide), if_neg (by rw [h]; decide),
      if_neg (by rw [h]; decide), if_neg (by rw [h]; decide),
      if_neg (by rw [h]; decide), if_neg (by rw [h]; decide),
      if_pos (by rw [h])]
    exact ih

theorem mapM_option_none {α β : Type} (f : α → Option β) (l : List α) (x : α)
    (hx : x ∈ l) (hf : f x = none) : l.mapM f = none := by
  induction l with
  | nil => simp at hx
  | cons a l' ih =>
    rw [List.mapM_cons]
    rcases List.mem_cons.mp hx with rfl | hx'
    · rw [hf]; rfl
    · rcases ha : f a with _ | b
      · rfl
      · rw [ih hx']
        rfl

/-- Claim C10: `convert_box` re-enters `convert_element` on the same `box`
element, so the conversion of a `box` node never returns a value for any
recursion budget (the Python original recurses until `RecursionError`);
consequently a formula whose math root contains a `box` child is converted
by the top-level handler to the `[Math Formula]` placeholder. -/
theorem claim_C10 (e : Xml) (h : localTag e = "box".data) :
    (∀ fuel, convert_element fuel e = none) ∧
    (∀ (attrs : List (List Char × List Char)) (txt : Option (List Char))
        (pre post : List Xml),
      omml_to_latex (Xml.mk "oMath".data attrs txt (pre ++ e :: post)) =
        "[Math Formula]".data) := by
  refine ⟨box_convert_none e h, ?_⟩
  intro attrs txt pre post
  have hconv : convert_element convertRecLimit
      (Xml.mk "oMath".data attrs txt (pre ++ e :: post)) = none := by
    rw [show convert_element convertRecLimit
        (Xml.mk "oMath".data attrs txt (pre ++ e :: post)) =
        ((pre ++ e :: post).mapM (convert_element 999)).map List.flatten from rfl]
    rw [mapM_option_none _ _ e (by simp) (box_convert_none e h 999)]
    rfl
  rw [omml_to_latex, hconv]

/-- Claim C10, witness: a concrete `box` element inside a math root. -/
theorem claim_C10_witness :
    convert_element 1000 (Xml.mk "box".data [] none []) = none ∧
    omml_to_latex (Xml.mk "oMath".data [] none
      [Xml.mk "box".data [] none []]) = "[Math Formula]".data :=
  ⟨(claim_C10 (Xml.mk "box".data [] none []) rfl).1 1000,
   (claim_C10 (Xml.mk "box".data [] none []) rfl).2 [] none [] []⟩

/-- Claim C9: `omml_to_latex` never propagates a failure — when the
conversion of the sub-tree fails it returns the fixed placeholder
`[Math Formula]`, and otherwise the cleaned LaTeX string. -/
theorem claim_C9 (e : Xml) :
    (convert_element convertRecLimit e = none →
      omml_to_latex e = "[Math Formula]".data) ∧
    (∀ r, convert_element convertRecLimit e = some r →
      omml_to_latex e = clean_latex_output r) := by
  constructor
  · intro h; rw [omml_to_latex, h]
  · intro r h; rw [omml_to_latex, h]

/-- Claim C9, witness: the failing branch at a `box` element, the
succeeding branch at a text element. -/
theorem claim_C9_witness :
    omml_to_latex (Xml.mk "box".data [] none []) = "[Math Formula]".data ∧
    omml_to_latex (Xml.mk "t".data [] (some "y".data) []) =
      clean_latex_output "y".data :=
  ⟨(claim_C9 (Xml.mk "box".data [] none [])).1
    (box_convert_none (Xml.mk "box".data [] none []) rfl convertRecLimit),
   (claim_C9 (Xml.mk "t".data [] (some "y".data) [])).2 "y".data (by decide)⟩

/-- Claim C6: a delimiter node with the default parenthesis delimiters, no
explicit or discovered separator and exactly two inner expressions, whose
first (stripped) expression has at most 2 characters and second contains
one of `x`, `X`, `I`, `c`, or whose element context contains a probability
indicator, renders with a `\mid` separator: `\left( y \mid x \right)`. -/
theorem claim_C6 (e : Xml) (fuel : Nat) (y x : List Char)
    (hd : delimiterChars e = ("(".data, ")".data))
    (hparts : delimiterParts (convert_element fuel) e (delimiterSep e) =
      some ([y, x], none))
    (hcond : delimiterHeuristic fuel e [y, x] = true) :
    convert_delimiter (convert_element fuel) fuel e =
      some ("\\left( ".data ++ y ++ " \\mid ".data ++ x ++ " \\right)".data) := by
  rw [convert_delimiter, hd, hparts]
  simp only [Option.bind_eq_bind, Option.some_bind, hcond]
  simp [List.intersperse, escapeDelim]

/-- Claim C6, witness: the delimiter `(y)(x)` with text children `y` and
`x` renders as `\left( y \mid x \right)`. -/
theorem claim_C6_witness :
    convert_delimiter (convert_element 100) 100
        (Xml.mk "d".data [] none
          [Xml.mk "e".data [] none
            [Xml.mk "r".data [] none [Xml.mk "t".data [] (some "y".data) []]],
           Xml.mk "e".data [] none
            [Xml.mk "r".data [] none [Xml.mk "t".data [] (some "x".data) []]]]) =
      some ("\\left( ".data ++ "y".data ++ " \\mid ".data ++ "x".data ++
        " \\right)".data) :=
  claim_C6
    (Xml.mk "d".data [] none
      [Xml.mk "e".data [] none
        [Xml.mk "r".data [] none [Xml.mk "t".data [] (some "y".data) []]],
       Xml.mk "e".data [] none
        [Xml.mk "r".data [] none [Xml.mk "t".data [] (some "x".data) []]]])
    100 "y".data "x".data (by decide) (by decide) (by decide)


/-! ## C5 — `\left`/`\right` balancing -/

theorem countSubAux_skip (p : List Char) (x : List Char) :
    ∀ y, countSubAux p x.length (x ++ y) = countSubAux p 0 y := by
  induction x with
  | nil => intro y; rfl
  | cons c x' ih =>
    intro y
    show countSubAux p (x'.length + 1) (c :: (x' ++ y)) = countSubAux p 0 y
    rw [show countSubAux p (x'.length + 1) (c :: (x' ++ y)) =
      countSubAux p x'.length (x' ++ y) from rfl]
    exact ih y

theorem countSubAux_cons_miss (p : List Char) (c : Char) (l : List Char)
    (h : p.isPrefixOf (c :: l) = false) :
    countSubAux p 0 (c :: l) = countSubAux p 0 l := by
  simp [countSubAux, h]

theorem countSubAux_cons_hit (p : List Char) (c : Char) (l : List Char)
    (h : p.isPrefixOf (c :: l) = true) :
    countSubAux p 0 (c :: l) = 1 + countSubAux p (p.length - 1) l := by
  simp [countSubAux, h]

theorem countSubAux_append (p b : List Char) (hsp : ' ' ∉ p)
    (hb : b = [] ∨ b.head? = some ' ') :
    ∀ (a : List Char) (k : Nat), k ≤ a.length →
      countSubAux p k (a ++ b) = countSubAux p k a + countSubAux p 0 b := by
  intro a
  induction a with
  | nil =>
    intro k hk
    obtain rfl : k = 0 := Nat.le_zero.mp hk
    simp [countSubAux]
  | cons c a' ih =>
    intro k hk
    match k with
    | k' + 1 =>
      show countSubAux p k' (a' ++ b) = countSubAux p k' a' + countSubAux p 0 b
      exact ih k' (Nat.lt_succ_iff.mp (Nat.lt_of_lt_of_le (Nat.lt_succ_self _) hk))
    | 0 =>
      by_cases hpre : p.isPrefixOf ((c :: a') ++ b) = true
      · have hlen : p.length ≤ (c :: a').length := by
          by_contra hlong
          push_neg at hlong
          rcases hb with rfl | hbh
          · have hle := (List.isPrefixOf_iff_prefix.mp hpre).length_le
            simp at hle
            simp at hlong
            omega
          · obtain ⟨d, b', rfl⟩ : ∃ d b', b = d :: b' := by
              cases b with
              | nil => simp at hbh
              | cons d b' => exact ⟨d, b', rfl⟩
            obtain rfl : d = ' ' := by simpa using hbh
            obtain ⟨t, ht⟩ := List.isPrefixOf_iff_prefix.mp hpre
            have h2 : (p ++ t)[(c :: a').length]? =
                ((c :: a') ++ ' ' :: b')[(c :: a').length]? := by rw [ht]
            rw [List.getElem?_append, if_pos hlong,
              List.getElem?_append_right (le_refl _), Nat.sub_self] at h2
            exact hsp (List.getElem?_mem (by simpa using h2))
        have hpre2 : p.isPrefixOf (c :: a') = true := by
          rw [List.isPrefixOf_iff_prefix, List.prefix_iff_eq_take]
          have hpfx := List.isPrefixOf_iff_prefix.mp hpre
          rw [List.prefix_iff_eq_take, List.take_append_eq_append_take,
            Nat.sub_eq_zero_of_le hlen, List.take_zero, List.append_nil] at hpfx
          exact hpfx
        rw [show (c :: a') ++ b = c :: (a' ++ b) from rfl] at hpre
        rw [show (c :: a') ++ b = c :: (a' ++ b) from rfl,
          countSubAux_cons_hit p c (a' ++ b) hpre,
          countSubAux_cons_hit p c a' hpre2,
          ih (p.length - 1) (by simp at hlen; omega)]
        omega
      · have hpre2 : p.isPrefixOf (c :: a') = false := by
          by_contra hyes
          rw [Bool.not_eq_false] at hyes
          have h3 := List.isPrefixOf_iff_prefix.mp hyes
          have h4 : p <+: (c :: a') ++ b := h3.trans (List.prefix_append _ _)
          rw [← List.isPrefixOf_iff_prefix] at h4
          exact hpre h4
        rw [show (c :: a') ++ b = c :: (a' ++ b) from rfl] at hpre
        rw [show (c :: a') ++ b = c :: (a' ++ b) from rfl,
          countSubAux_cons_miss p c (a' ++ b) (Bool.not_eq_true _ |>.mp hpre),
          countSubAux_cons_miss p c a' hpre2]
        exact ih 0 (Nat.zero_le _)

theorem countSubAux_space_cons (p' : List Char) (c0 : Char) (hc0 : c0 ≠ ' ')
    (l : List Char) :
    countSubAux (c0 :: p') 0 (' ' :: l) = countSubAux (c0 :: p') 0 l := by
  apply countSubAux_cons_miss
  simp [List.isPrefixOf, hc0]

theorem countSub_tokens (p' : List Char) (c0 : Char) (hc0 : c0 ≠ ' ') :
    ∀ n, countSubAux (c0 :: p') 0
      ((List.replicate n ((c0 :: p') ++ [' '])).flatten) = n := by
  intro n
  induction n with
  | zero => rfl
  | succ m ih =>
    rw [List.replicate_succ, List.flatten_cons]
    rw [show ((c0 :: p') ++ [' ']) ++ (List.replicate m ((c0 :: p') ++ [' '])).flatten
      = c0 :: (p' ++ (' ' :: (List.replicate m ((c0 :: p') ++ [' '])).flatten)) by simp]
    rw [countSubAux_cons_hit _ _ _ (by
      rw [List.isPrefixOf_iff_prefix]
      exact ⟨' ' :: (List.replicate m ((c0 :: p') ++ [' '])).flatten, by simp⟩)]
    rw [show (c0 :: p').length - 1 = p'.length from rfl]
    rw [countSubAux_skip (c0 :: p') p']
    rw [countSubAux_space_cons p' c0 hc0, ih]
    omega

/-- Claim C5: when the assembled LaTeX holds more `\left` than `\right`
occurrences, the balancing step appends a space and exactly
`left − right` copies of the `\right. ` token — so the `\right.` count of
the output exceeds that of the input by exactly the difference — and when
`left ≤ right` nothing is appended. -/
theorem claim_C5 (s : List Char) :
    (countSub s "\\right".data < countSub s "\\left".data →
      balanceLeftRight s = s ++ " ".data ++
        (List.replicate (countSub s "\\left".data - countSub s "\\right".data)
          "\\right. ".data).flatten ∧
      countSub (balanceLeftRight s) "\\right.".data =
        countSub s "\\right.".data +
          (countSub s "\\left".data - countSub s "\\right".data)) ∧
    (countSub s "\\left".data ≤ countSub s "\\right".data →
      balanceLeftRight s = s) := by
  constructor
  · intro hlt
    have heq : balanceLeftRight s = s ++ " ".data ++
        (List.replicate (countSub s "\\left".data - countSub s "\\right".data)
          "\\right. ".data).flatten := by
      rw [balanceLeftRight]
      simp only [hlt, if_pos]
    refine ⟨heq, ?_⟩
    rw [heq, List.append_assoc]
    generalize countSub s "\\left".data - countSub s "\\right".data = d
    show countSubAux "\\right.".data 0
        (s ++ (' ' :: (List.replicate d "\\right. ".data).flatten)) =
      countSubAux "\\right.".data 0 s + d
    rw [show ("\\right. ".data : List Char) = ('\\' :: "right.".data) ++ [' '] from rfl]
    rw [show ("\\right.".data : List Char) = '\\' :: "right.".data from rfl]
    rw [countSubAux_append ('\\' :: "right.".data)
      (' ' :: (List.replicate d (('\\' :: "right.".data) ++ [' '])).flatten)
      (by decide) (Or.inr rfl) s 0 (Nat.zero_le _)]
    rw [countSubAux_space_cons "right.".data '\\' (by decide)]
    rw [countSub_tokens "right.".data '\\' (by decide) d]
  · intro hle
    rw [balanceLeftRight]
    simp only [Nat.not_lt.mpr hle, if_false]

/-- Claim C5, witness: one unmatched `\left` gains one `\right.` token; a
balanced string is unchanged. -/
theorem claim_C5_witness :
    (balanceLeftRight "\\left( a".data = "\\left( a".data ++ " ".data ++
        (List.replicate 1 "\\right. ".data).flatten ∧
      countSub (balanceLeftRight "\\left( a".data) "\\right.".data = 1) ∧
    balanceLeftRight "ab".data = "ab".data := by
  constructor
  · have h := (claim_C5 "\\left( a".data).1 (by decide)
    exact ⟨by simpa using h.1, by simpa using h.2⟩
  · exact (claim_C5 "ab".data).2 (by decide)


/-! ## C2 and C4 — counterexamples -/

/-- Claim C2, counterexample: a math element nested inside a run is always
wrapped inline (lines 350–359), even when the display condition of the
paragraph-level branch holds — here a 51-character formula, longer than the
50-character bound the claim requires for inline wrapping. -/
theorem claim_C2_counterexample :
    process_run_element [] [] 5 []
        (Xml.mk "r".data [] none
          [Xml.mk "oMath".data [] none
            [Xml.mk "t".data [] (some (List.replicate 51 'a')) []]]) =
      some ([RPart.math (List.replicate 51 'a') false], []) ∧
    isDisplayMath (List.replicate 51 'a') = true := by
  constructor
  · decide
  · decide

/-- Claim C4, counterexample: the paragraph-level image pre-pass
(lines 232–247) hoists an image embedded in a non-run child to the start of
the paragraph output, although its `drawing` element comes after the text
run — the `<img>` part precedes the run's text, not follows it. -/
theorem claim_C4_counterexample :
    process_paragraph_element_recursively
        [("rId1".data, ".png".data)] "imgs".data 5 []
        (Xml.mk "p".data [] none
          [Xml.mk "r".data [] none [Xml.mk "t".data [] (some "A".data) []],
           Xml.mk "fldSimple".data [] none
             [Xml.mk "drawing".data [] none
               [Xml.mk "blip".data [("embed".data, "rId1".data)] none []]]]) =
      some ([RPart.img "rId1".data "image_rId1.png".data,
             RPart.str "A".data], ["rId1".data]) := by
  decide


/-! ## C2 — amended: inline/display wrapping -/

/-- The claim's inline condition, in its own words: short, free of the four
display-only commands, no leading environment marker, no line break. -/
def specInlineB (l : List Char) : Bool :=
  decide (l.length ≤ 50) && !containsSub l "\\frac".data &&
    !containsSub l "\\sum".data && !containsSub l "\\int".data &&
    !containsSub l "\\prod".data &&
    !(("\\begin\x7b".data).isPrefixOf (pyStrip l)) && !containsSub l ['\n']

theorem specInlineB_not_display (l : List Char) :
    specInlineB l = !isDisplayMath l := by
  have h : decide (l.length ≤ 50) = !decide (50 < l.length) := by
    by_cases h50 : 50 < l.length
    · have h2 : ¬ l.length ≤ 50 := by omega
      simp [h50, h2]
    · have h2 : l.length ≤ 50 := by omega
      simp [h50, h2]
  simp only [specInlineB, isDisplayMath, h]
  cases containsSub l ['\n'] <;>
    cases ("\\begin\x7b".data).isPrefixOf (pyStrip l) <;>
      cases decide (50 < l.length) <;>
        cases containsSub l "\\frac".data <;>
          cases containsSub l "\\sum".data <;>
            cases containsSub l "\\int".data <;>
              cases containsSub l "\\prod".data <;> rfl

theorem emitImgs_parts_img (rel : RelMap) :
    ∀ ids st p, p ∈ (emitImgs rel ids st).1 →
      ∃ rid f, p = RPart.img rid f := by
  intro ids
  induction ids with
  | nil => intro st p hp; simp [emitImgs] at hp
  | cons rid rest ih =>
    intro st p hp
    rcases hlk : lookupRel rel rid with _ | ext
    · simp only [emitImgs, hlk] at hp
      exact ih st p hp
    · simp only [emitImgs, hlk] at hp
      by_cases hmem : rid ∈ st
      · rw [if_pos hmem] at hp
        exact ih st p hp
      · rw [if_neg hmem] at hp
        rcases List.mem_cons.mp hp with h | h
        · exact ⟨rid, save_image rid ext, h⟩
        · exact ih (rid :: st) p h

theorem paraPrepass_parts_img (rel : RelMap) (fuel : Nat) :
    ∀ cs st p, p ∈ (paraPrepass rel fuel st cs).1 →
      ∃ rid f, p = RPart.img rid f := by
  intro cs
  induction cs with
  | nil => intro st p hp; simp [paraPrepass] at hp
  | cons c rest ih =>
    intro st p hp
    simp only [paraPrepass] at hp
    by_cases hr : c.tag = "r".data
    · rw [if_pos hr] at hp
      exact ih st p hp
    · rw [if_neg hr] at hp
      rcases List.mem_append.mp hp with h | h
      · exact emitImgs_parts_img rel _ st p h
      · exact ih _ p h

theorem runChildLoop_forall (imgDir : List Char)
    (conv : List (List Char) → Xml → Option (List RPart × List (List Char)))
    (fmt : List Char → List Char) (Q : RPart → Prop)
    (hmath : ∀ c p, p ∈ runMathParts c → Q p)
    (hstr : ∀ txt, txt ≠ [] → Q (RPart.str (fmt txt)))
    (hconv : ∀ st c r, conv st c = some r → ∀ p ∈ r.1, Q p) :
    ∀ cs st r, runChildLoop imgDir conv fmt st cs = some r →
      ∀ p ∈ r.1, Q p := by
  intro cs
  induction cs with
  | nil =>
    intro st r hr p hp
    rw [runChildLoop] at hr
    cases hr
    simp at hp
  | cons child rest ih =>
    intro st r hr p hp
    rw [runChildLoop] at hr
    by_cases ht : child.tag = "t".data
    · rw [if_pos ht] at hr
      rcases htx : child.text with _ | txt
      · simp only [htx] at hr
        exact ih st r hr p hp
      · simp only [htx] at hr
        by_cases he : txt.isEmpty
        · rw [if_pos he] at hr
          exact ih st r hr p hp
        · rw [if_neg he] at hr
          rcases hrec : runChildLoop imgDir conv fmt st rest with _ | r0
          · simp only [hrec] at hr
            cases hr
          · simp only [hrec] at hr
            cases hr
            rcases List.mem_cons.mp hp with h | h
            · exact h ▸ hstr txt (fun hh => he (by simp [hh]))
            · exact ih st r0 hrec p h
    · rw [if_neg ht] at hr
      by_cases hm : child.tag = "oMath".data
      · rw [if_pos hm] at hr
        rcases hrec : runChildLoop imgDir conv fmt st rest with _ | r0
        · simp only [hrec] at hr
          cases hr
        · simp only [hrec] at hr
          cases hr
          rcases List.mem_append.mp hp with h | h
          · exact hmath child p h
          · exact ih st r0 hrec p h
      · rw [if_neg hm] at hr
        rcases hc : conv st child with _ | c
        · simp only [hc] at hr
          cases hr
        · simp only [hc] at hr
          rcases hrec : runChildLoop imgDir conv fmt c.2 rest with _ | r0
          · simp only [hrec] at hr
            cases hr
          · simp only [hrec] at hr
            by_cases hj : (joinParts imgDir c.1).isEmpty
            · rw [if_pos hj] at hr
              cases hr
              exact ih c.2 r0 hrec p hp
            · rw [if_neg hj] at hr
              cases hr
              rcases List.mem_append.mp hp with h | h
              · exact hconv st child c hc p h
              · exact ih c.2 r0 hrec p h

theorem paraChildLoop_forall (imgDir : List Char)
    (convP convR : List (List Char) → Xml → Option (List RPart × List (List Char)))
    (Q : RPart → Prop)
    (hmath : ∀ c p, p ∈ paraMathParts c → Q p)
    (hconvP : ∀ st c r, convP st c = some r → ∀ p ∈ r.1, Q p)
    (hconvR : ∀ st c r, convR st c = some r → ∀ p ∈ r.1, Q p) :
    ∀ cs st r, paraChildLoop imgDir convP convR st cs = some r →
      ∀ p ∈ r.1, Q p := by
  intro cs
  induction cs with
  | nil =>
    intro st r hr p hp
    rw [paraChildLoop] at hr
    cases hr
    simp at hp
  | cons child rest ih =>
    intro st r hr p hp
    rw [paraChildLoop] at hr
    by_cases hrt : child.tag = "r".data
    · rw [if_pos hrt] at hr
      rcases hc : convR st child with _ | c
      · simp only [hc] at hr
        cases hr
      · simp only [hc] at hr
        rcases hrec : paraChildLoop imgDir convP convR c.2 rest with _ | r0
        · simp only [hrec] at hr
          cases hr
        · simp only [hrec] at hr
          by_cases hj : (joinParts imgDir c.1).isEmpty
          · rw [if_pos hj] at hr
            cases hr
            exact ih c.2 r0 hrec p hp
          · rw [if_neg hj] at hr
            cases hr
            rcases List.mem_append.mp hp with h | h
            · exact hconvR st child c hc p h
            · exact ih c.2 r0 hrec p h
    · rw [if_neg hrt] at hr
      by_cases hm : child.tag = "oMath".data
      · rw [if_pos hm] at hr
        rcases hrec : paraChildLoop imgDir convP convR st rest with _ | r0
        · simp only [hrec] at hr
          cases hr
        · simp only [hrec] at hr
          cases hr
          rcases List.mem_append.mp hp with h | h
          · exact hmath child p h
          · exact ih st r0 hrec p h
      · rw [if_neg hm] at hr
        rcases hc : convP st child with _ | c
        · simp only [hc] at hr
          cases hr
        · simp only [hc] at hr
          rcases hrec : paraChildLoop imgDir convP convR c.2 rest with _ | r0
          · simp only [hrec] at hr
            cases hr
          · simp only [hrec] at hr
            by_cases hj : (joinParts imgDir c.1).isEmpty
            · rw [if_pos hj] at hr
              cases hr
              exact ih c.2 r0 hrec p hp
            · rw [if_neg hj] at hr
              cases hr
              rcases List.mem_append.mp hp with h | h
              · exact hconvP st child c hc p h
              · exact ih c.2 r0 hrec p h

theorem process_run_forall (rel : RelMap) (imgDir : List Char)
    (Q : RPart → Prop)
    (hmath : ∀ c p, p ∈ runMathParts c → Q p)
    (hstr : ∀ fl el txt, txt ≠ [] → Q (RPart.str (formatRunText fl el txt)))
    (himg : ∀ rid f, Q (RPart.img rid f)) :
    ∀ fuel st e r, process_run_element rel imgDir fuel st e = some r →
      ∀ p ∈ r.1, Q p := by
  intro fuel
  induction fuel with
  | zero => intro st e r hr; cases hr
  | succ f ih =>
    intro st e r hr p hp
    rw [process_run_element] at hr
    rcases hloop : runChildLoop imgDir (process_run_element rel imgDir f)
        (formatRunText (f + 1) e)
        (emitImgs rel (find_embedded_image_ids (f + 1) e) st).2 e.children
      with _ | r0
    · simp only [hloop] at hr
      cases hr
    · simp only [hloop] at hr
      cases hr
      rcases List.mem_append.mp hp with h | h
      · obtain ⟨rid, fn, rfl⟩ := emitImgs_parts_img rel _ _ p h
        exact himg rid fn
      · exact runChildLoop_forall imgDir _ _ Q hmath
          (fun txt htx => hstr (f + 1) e txt htx)
          ih e.children _ r0 hloop p h

theorem process_para_forall (rel : RelMap) (imgDir : List Char)
    (Q : RPart → Prop)
    (hpmath : ∀ c p, p ∈ paraMathParts c → Q p)
    (hmath : ∀ c p, p ∈ runMathParts c → Q p)
    (hstr : ∀ fl el txt, txt ≠ [] → Q (RPart.str (formatRunText fl el txt)))
    (himg : ∀ rid f, Q (RPart.img rid f)) :
    ∀ fuel st e r,
      process_paragraph_element_recursively rel imgDir fuel st e = some r →
      ∀ p ∈ r.1, Q p := by
  intro fuel
  induction fuel with
  | zero => intro st e r hr; cases hr
  | succ f ih =>
    intro st e r hr p hp
    rw [process_paragraph_element_recursively] at hr
    rcases hloop : paraChildLoop imgDir
        (process_paragraph_element_recursively rel imgDir f)
        (process_run_element rel imgDir f)
        (if e.tag = "p".data then paraPrepass rel (f + 1) st e.children
          else ([], st)).2 e.children with _ | r0
    · simp only [hloop] at hr
      cases hr
    · simp only [hloop] at hr
      cases hr
      rcases List.mem_append.mp hp with h | h
      · by_cases hpt : e.tag = "p".data
        · rw [if_pos hpt] at h
          obtain ⟨rid, fn, rfl⟩ := paraPrepass_parts_img rel (f + 1) _ _ p h
          exact himg rid fn
        · rw [if_neg hpt] at h
          simp at h
      · exact paraChildLoop_forall imgDir _ _ Q hpmath ih
          (process_run_forall rel imgDir Q hmath hstr himg f)
          e.children _ r0 hloop p h

/-- Claim C2, amended: at paragraph level a math fragment is wrapped inline
exactly when the claim's condition (short, no display-only command, no
environment marker, no line break) holds of the preprocessed LaTeX; but a
math element nested inside a run is always wrapped inline, so across the
whole walk only one direction survives: a display-wrapped fragment always
violates the inline condition. -/
theorem claim_C2_amended :
    (∀ c L d, RPart.math L d ∈ paraMathParts c →
      (d = false ↔ specInlineB L = true)) ∧
    (∀ c L d, RPart.math L d ∈ runMathParts c → d = false) ∧
    (∀ rel imgDir fuel st e r,
      process_paragraph_element_recursively rel imgDir fuel st e = some r →
      ∀ L, RPart.math L true ∈ r.1 → specInlineB L = false) := by
  refine ⟨?_, ?_, ?_⟩
  · intro c L d hm
    rw [paraMathParts] at hm
    by_cases hg : ((omml_to_latex c).isEmpty
        || decide (omml_to_latex c = "[Math Formula]".data)) = true
    · rw [if_pos hg] at hm
      simp at hm
    · rw [if_neg hg] at hm
      simp only [List.mem_singleton, RPart.math.injEq] at hm
      obtain ⟨rfl, rfl⟩ := hm
      rw [specInlineB_not_display]
      cases isDisplayMath (preprocess_latex (omml_to_latex c)) <;> simp
  · intro c L d hm
    rw [runMathParts] at hm
    by_cases hg : ((omml_to_latex c).isEmpty
        || decide (omml_to_latex c = "[Math Formula]".data)) = true
    · rw [if_pos hg] at hm
      simp at hm
    · rw [if_neg hg] at hm
      simp only [List.mem_singleton, RPart.math.injEq] at hm
      exact hm.2
  · intro rel imgDir fuel st e r hr L hm
    have := process_para_forall rel imgDir
      (fun p => ∀ L, p = RPart.math L true → specInlineB L = false)
      ?_ ?_ ?_ ?_ fuel st e r hr (RPart.math L true) hm L rfl
    · exact this
    · intro c p hp L' hpe
      subst hpe
      rw [paraMathParts] at hp
      by_cases hg : ((omml_to_latex c).isEmpty
        || decide (omml_to_latex c = "[Math Formula]".data)) = true
      · rw [if_pos hg] at hp; simp at hp
      · rw [if_neg hg] at hp
        simp only [List.mem_singleton, RPart.math.injEq] at hp
        rw [specInlineB_not_display, hp.1, ← hp.2]
        rfl
    · intro c p hp L' hpe
      subst hpe
      rw [runMathParts] at hp
      by_cases hg : ((omml_to_latex c).isEmpty
        || decide (omml_to_latex c = "[Math Formula]".data)) = true
      · rw [if_pos hg] at hp; simp at hp
      · rw [if_neg hg] at hp
        simp only [List.mem_singleton, RPart.math.injEq] at hp
        cases hp.2
    · intro fl el txt htx L' h; cases h
    · intro rid f L' h; cases h

/-- Claim C2, witness: the amended theorem applied at a small inline
paragraph formula, a run formula, and a paragraph whose direct math child
is 51 characters long and display-wrapped. -/
theorem claim_C2_witness :
    ((false = false) ↔ specInlineB "y".data = true) ∧
    (false = false) ∧
    specInlineB (List.replicate 51 'a') = false := by
  refine ⟨?_, rfl, ?_⟩
  · exact claim_C2_amended.1 (Xml.mk "oMath".data [] none
      [Xml.mk "t".data [] (some "y".data) []]) "y".data false (by decide)
  · exact claim_C2_amended.2.2 [] [] 5 []
      (Xml.mk "p".data [] none
        [Xml.mk "oMath".data [] none
          [Xml.mk "t".data [] (some (List.replicate 51 'a')) []]])
      ([RPart.math (List.replicate 51 'a') true], [])
      (by decide) (List.replicate 51 'a') (by decide)


/-! ## C3 — image de-duplication -/

/-- The number of `<img>` parts emitted for one relationship id. -/
def countImg (rid : List Char) (ps : List RPart) : Nat :=
  ps.countP (fun p => match p with
    | RPart.img r _ => decide (r = rid)
    | _ => false)

/-- The de-duplication invariant of one state-threading step: the processed
set only grows, an already-processed id is never emitted again, at most one
`<img>` for the id is emitted, and an emitted id ends up in the set. -/
def ImgInv (rid : List Char) (st st' : List (List Char))
    (parts : List RPart) : Prop :=
  (rid ∈ st → rid ∈ st') ∧ (rid ∈ st → countImg rid parts = 0) ∧
    countImg rid parts ≤ 1 ∧ (1 ≤ countImg rid parts → rid ∈ st')

theorem countImg_append (rid : List Char) (p q : List RPart) :
    countImg rid (p ++ q) = countImg rid p + countImg rid q :=
  List.countP_append _ _ _

theorem ImgInv_nil (rid : List Char) (st : List (List Char)) :
    ImgInv rid st st [] :=
  ⟨fun h => h, fun _ => rfl, by simp [countImg], by simp [countImg]⟩

theorem ImgInv_noimg (rid : List Char) (st : List (List Char))
    (parts : List RPart) (h : countImg rid parts = 0) :
    ImgInv rid st st parts :=
  ⟨fun hh => hh, fun _ => h, by omega, by omega⟩

theorem countImg_str (rid s : List Char) (ps : List RPart) :
    countImg rid (RPart.str s :: ps) = countImg rid ps := by
  simp [countImg, List.countP_cons]

theorem countImg_math (rid L : List Char) (d : Bool) (ps : List RPart) :
    countImg rid (RPart.math L d :: ps) = countImg rid ps := by
  simp [countImg, List.countP_cons]

theorem countImg_runMath (rid : List Char) (c : Xml) :
    countImg rid (runMathParts c) = 0 := by
  rw [runMathParts]
  by_cases hg : ((omml_to_latex c).isEmpty
      || decide (omml_to_latex c = "[Math Formula]".data)) = true
  · rw [if_pos hg]; rfl
  · rw [if_neg hg]; rfl

theorem countImg_paraMath (rid : List Char) (c : Xml) :
    countImg rid (paraMathParts c) = 0 := by
  rw [paraMathParts]
  by_cases hg : ((omml_to_latex c).isEmpty
      || decide (omml_to_latex c = "[Math Formula]".data)) = true
  · rw [if_pos hg]; rfl
  · rw [if_neg hg]; rfl

theorem ImgInv_comp (rid : List Char) (st st1 st2 : List (List Char))
    (p1 p2 : List RPart) (h1 : ImgInv rid st st1 p1)
    (h2 : ImgInv rid st1 st2 p2) : ImgInv rid st st2 (p1 ++ p2) := by
  obtain ⟨m1, z1, b1, a1⟩ := h1
  obtain ⟨m2, z2, b2, a2⟩ := h2
  refine ⟨fun h => m2 (m1 h), ?_, ?_, ?_⟩
  · intro h
    rw [countImg_append, z1 h, z2 (m1 h)]
  · rw [countImg_append]
    by_cases hc : 1 ≤ countImg rid p1
    · have := z2 (a1 hc)
      omega
    · omega
  · rw [countImg_append]
    intro h
    by_cases hc : 1 ≤ countImg rid p1
    · exact m2 (a1 hc)
    · exact a2 (by omega)

/-- Composition where the first step's parts are dropped (a child whose
rendered contribution is empty is not appended, but its state change
remains). -/
theorem ImgInv_drop (rid : List Char) (st st1 st2 : List (List Char))
    (p1 p2 : List RPart) (h1 : ImgInv rid st st1 p1)
    (h2 : ImgInv rid st1 st2 p2) : ImgInv rid st st2 p2 := by
  obtain ⟨m1, z1, b1, a1⟩ := h1
  obtain ⟨m2, z2, b2, a2⟩ := h2
  exact ⟨fun h => m2 (m1 h), fun h => z2 (m1 h), b2, a2⟩

theorem ImgInv_cons_noimg (rid : List Char) (st st' : List (List Char))
    (p : RPart) (ps : List RPart)
    (hp : countImg rid [p] = 0) (h : ImgInv rid st st' ps) :
    ImgInv rid st st' (p :: ps) := by
  have := ImgInv_comp rid st st st' [p] ps (ImgInv_noimg rid st [p] hp) h
  simpa using this

theorem emitImgs_inv (rel : RelMap) (rid : List Char) :
    ∀ ids st, ImgInv rid st (emitImgs rel ids st).2 (emitImgs rel ids st).1 := by
  intro ids
  induction ids with
  | nil => intro st; exact ImgInv_nil rid st
  | cons i rest ih =>
    intro st
    rcases hlk : lookupRel rel i with _ | ext
    · simp only [emitImgs, hlk]
      exact ih st
    · simp only [emitImgs, hlk]
      by_cases hmem : i ∈ st
      · rw [if_pos hmem]
        exact ih st
      · rw [if_neg hmem]
        obtain ⟨m, z, b, a⟩ := ih (i :: st)
        by_cases heq : i = rid
        · subst heq
          have hz : countImg i (emitImgs rel rest (i :: st)).1 = 0 :=
            z (List.mem_cons_self i st)
          refine ⟨fun h => m (List.mem_cons_of_mem i h), ?_, ?_, ?_⟩
          · intro h; exact absurd h hmem
          · simp only [countImg, List.countP_cons]
            simp only [countImg] at hz
            simp [hz]
          · intro _
            exact m (List.mem_cons_self i st)
        · refine ⟨fun h => m (List.mem_cons_of_mem i h), ?_, ?_, ?_⟩
          · intro h
            have := z (List.mem_cons_of_mem i h)
            simp only [countImg, List.countP_cons] at this ⊢
            simp [this, heq]
          · have := b
            simp only [countImg, List.countP_cons] at this ⊢
            simp [heq] at this ⊢
            omega
          · intro h
            apply a
            simp only [countImg, List.countP_cons] at h ⊢
            simpa [heq] using h

theorem paraPrepass_inv (rel : RelMap) (fuel : Nat) (rid : List Char) :
    ∀ cs st, ImgInv rid st (paraPrepass rel fuel st cs).2
      (paraPrepass rel fuel st cs).1 := by
  intro cs
  induction cs with
  | nil => intro st; exact ImgInv_nil rid st
  | cons c rest ih =>
    intro st
    by_cases hr : c.tag = "r".data
    · simp only [paraPrepass, if_pos hr]
      exact ih st
    · simp only [paraPrepass, if_neg hr]
      exact ImgInv_comp rid _ _ _ _ _
        (emitImgs_inv rel rid (find_embedded_image_ids fuel c) st)
        (ih (emitImgs rel (find_embedded_image_ids fuel c) st).2)

theorem runChildLoop_inv (imgDir : List Char)
    (conv : List (List Char) → Xml → Option (List RPart × List (List Char)))
    (fmt : List Char → List Char) (rid : List Char)
    (hconv : ∀ st c r, conv st c = some r → ImgInv rid st r.2 r.1) :
    ∀ cs st r, runChildLoop imgDir conv fmt st cs = some r →
      ImgInv rid st r.2 r.1 := by
  intro cs
  induction cs with
  | nil =>
    intro st r hr
    rw [runChildLoop] at hr
    cases hr
    exact ImgInv_nil rid st
  | cons child rest ih =>
    intro st r hr
    rw [runChildLoop] at hr
    by_cases ht : child.tag = "t".data
    · rw [if_pos ht] at hr
      rcases htx : child.text with _ | txt
      · simp only [htx] at hr
        exact ih st r hr
      · simp only [htx] at hr
        by_cases he : txt.isEmpty
        · rw [if_pos he] at hr
          exact ih st r hr
        · rw [if_neg he] at hr
          rcases hrec : runChildLoop imgDir conv fmt st rest with _ | r0
          · simp only [hrec] at hr
            cases hr
          · simp only [hrec] at hr
            cases hr
            exact ImgInv_cons_noimg rid st r0.2 _ r0.1 (by rfl) (ih st r0 hrec)
    · rw [if_neg ht] at hr
      by_cases hm : child.tag = "oMath".data
      · rw [if_pos hm] at hr
        rcases hrec : runChildLoop imgDir conv fmt st rest with _ | r0
        · simp only [hrec] at hr
          cases hr
        · simp only [hrec] at hr
          cases hr
          exact ImgInv_comp rid st st r0.2 _ r0.1
            (ImgInv_noimg rid st _ (countImg_runMath rid child)) (ih st r0 hrec)
      · rw [if_neg hm] at hr
        rcases hc : conv st child with _ | c
        · simp only [hc] at hr
          cases hr
        · simp only [hc] at hr
          rcases hrec : runChildLoop imgDir conv fmt c.2 rest with _ | r0
          · simp only [hrec] at hr
            cases hr
          · simp only [hrec] at hr
            by_cases hj : (joinParts imgDir c.1).isEmpty
            · rw [if_pos hj] at hr
              cases hr
              exact ImgInv_drop rid st c.2 r0.2 c.1 r0.1
                (hconv st child c hc) (ih c.2 r0 hrec)
            · rw [if_neg hj] at hr
              cases hr
              exact ImgInv_comp rid st c.2 r0.2 c.1 r0.1
                (hconv st child c hc) (ih c.2 r0 hrec)

theorem paraChildLoop_inv (imgDir : List Char)
    (convP convR : List (List Char) → Xml → Option (List RPart × List (List Char)))
    (rid : List Char)
    (hconvP : ∀ st c r, convP st c = some r → ImgInv rid st r.2 r.1)
    (hconvR : ∀ st c r, convR st c = some r → ImgInv rid st r.2 r.1) :
    ∀ cs st r, paraChildLoop imgDir convP convR st cs = some r →
      ImgInv rid st r.2 r.1 := by
  intro cs
  induction cs with
  | nil =>
    intro st r hr
    rw [paraChildLoop] at hr
    cases hr
    exact ImgInv_nil rid st
  | cons child rest ih =>
    intro st r hr
    rw [paraChildLoop] at hr
    by_cases hrt : child.tag = "r".data
    · rw [if_pos hrt] at hr
      rcases hc : convR st child with _ | c
      · simp only [hc] at hr
        cases hr
      · simp only [hc] at hr
        rcases hrec : paraChildLoop imgDir convP convR c.2 rest with _ | r0
        · simp only [hrec] at hr
          cases hr
        · simp only [hrec] at hr
          by_cases hj : (joinParts imgDir c.1).isEmpty
          · rw [if_pos hj] at hr
            cases hr
            exact ImgInv_drop rid st c.2 r0.2 c.1 r0.1
              (hconvR st child c hc) (ih c.2 r0 hrec)
          · rw [if_neg hj] at hr
            cases hr
            exact ImgInv_comp rid st c.2 r0.2 c.1 r0.1
              (hconvR st child c hc) (ih c.2 r0 hrec)
    · rw [if_neg hrt] at hr
      by_cases hm : child.tag = "oMath".data
      · rw [if_pos hm] at hr
        rcases hrec : paraChildLoop imgDir convP convR st rest with _ | r0
        · simp only [hrec] at hr
          cases hr
        · simp only [hrec] at hr
          cases hr
          exact ImgInv_comp rid st st r0.2 _ r0.1
            (ImgInv_noimg rid st _ (countImg_paraMath rid child)) (ih st r0 hrec)
      · rw [if_neg hm] at hr
        rcases hc : convP st child with _ | c
        · simp only [hc] at hr
          cases hr
        · simp only [hc] at hr
          rcases hrec : paraChildLoop imgDir convP convR c.2 rest with _ | r0
          · simp only [hrec] at hr
            cases hr
          · simp only [hrec] at hr
            by_cases hj : (joinParts imgDir c.1).isEmpty
            · rw [if_pos hj] at hr
              cases hr
              exact ImgInv_drop rid st c.2 r0.2 c.1 r0.1
                (hconvP st child c hc) (ih c.2 r0 hrec)
            · rw [if_neg hj] at hr
              cases hr
              exact ImgInv_comp rid st c.2 r0.2 c.1 r0.1
                (hconvP st child c hc) (ih c.2 r0 hrec)

theorem process_run_inv (rel : RelMap) (imgDir : List Char) (rid : List Char) :
    ∀ fuel st e r, process_run_element rel imgDir fuel st e = some r →
      ImgInv rid st r.2 r.1 := by
  intro fuel
  induction fuel with
  | zero => intro st e r hr; cases hr
  | succ f ih =>
    intro st e r hr
    rw [process_run_element] at hr
    rcases hloop : runChildLoop imgDir (process_run_element rel imgDir f)
        (formatRunText (f + 1) e)
        (emitImgs rel (find_embedded_image_ids (f + 1) e) st).2 e.children
      with _ | r0
    · simp only [hloop] at hr
      cases hr
    · simp only [hloop] at hr
      cases hr
      exact ImgInv_comp rid st _ r0.2 _ r0.1
        (emitImgs_inv rel rid (find_embedded_image_ids (f + 1) e) st)
        (runChildLoop_inv imgDir _ _ rid ih e.children _ r0 hloop)

theorem process_para_inv (rel : RelMap) (imgDir : List Char) (rid : List Char) :
    ∀ fuel st e r,
      process_paragraph_element_recursively rel imgDir fuel st e = some r →
      ImgInv rid st r.2 r.1 := by
  intro fuel
  induction fuel with
  | zero => intro st e r hr; cases hr
  | succ f ih =>
    intro st e r hr
    rw [process_paragraph_element_recursively] at hr
    rcases hloop : paraChildLoop imgDir
        (process_paragraph_element_recursively rel imgDir f)
        (process_run_element rel imgDir f)
        (if e.tag = "p".data then paraPrepass rel (f + 1) st e.children
          else ([], st)).2 e.children with _ | r0
    · simp only [hloop] at hr
      cases hr
    · simp only [hloop] at hr
      cases hr
      by_cases hpt : e.tag = "p".data
      · rw [if_pos hpt] at hloop ⊢
        exact ImgInv_comp rid st _ r0.2 _ r0.1
          (paraPrepass_inv rel (f + 1) rid e.children st)
          (paraChildLoop_inv imgDir _ _ rid ih
            (process_run_inv rel imgDir rid f) e.children _ r0 hloop)
      · rw [if_neg hpt] at hloop ⊢
        exact ImgInv_comp rid st st r0.2 [] r0.1 (ImgInv_nil rid st)
          (paraChildLoop_inv imgDir _ _ rid ih
            (process_run_inv rel imgDir rid f) e.children _ r0 hloop)

theorem convert_paragraph_inv (rel : RelMap) (imgDir : List Char)
    (fuel : Nat) (rid : List Char) :
    ∀ st p out, convert_paragraph_to_html_improved rel imgDir fuel st p = some out →
      ImgInv rid st out.2.2 out.2.1 := by
  intro st p out hout
  rw [convert_paragraph_to_html_improved] at hout
  by_cases h1 : ((pyStrip p.text).isEmpty && !has_math_or_images fuel p.el) = true
  · rw [if_pos h1] at hout
    cases hout
    exact ImgInv_nil rid st
  · rw [if_neg h1] at hout
    simp only at hout
    by_cases h2 : (decide ((styleTagOf (match p.styleName with
        | some n => asciiLower n
        | none => "normal".data)).head? = some 'h') &&
        !(pyStrip p.text).isEmpty) = true
    · rw [if_pos h2] at hout
      cases hout
      exact ImgInv_nil rid st
    · rw [if_neg h2] at hout
      rcases hp : process_paragraph_element_recursively rel imgDir fuel st p.el
        with _ | pr
      · simp only [hp] at hout
        cases hout
      · simp only [hp] at hout
        obtain ⟨parts, st'⟩ := pr
        by_cases hj : (joinParts imgDir parts).isEmpty
        · simp only [if_pos hj] at hout
          cases hout
          exact process_para_inv rel imgDir rid fuel st p.el _ hp
        · simp only [if_neg hj] at hout
          cases hout
          exact process_para_inv rel imgDir rid fuel st p.el _ hp

theorem convertCellParas_inv (rel : RelMap) (imgDir : List Char)
    (fuel : Nat) (rid : List Char) :
    ∀ ps st out, convertCellParas rel imgDir fuel st ps = some out →
      ImgInv rid st out.2.2 out.2.1 := by
  intro ps
  induction ps with
  | nil =>
    intro st out hout
    rw [convertCellParas] at hout
    cases hout
    exact ImgInv_nil rid st
  | cons p rest ih =>
    intro st out hout
    rw [convertCellParas] at hout
    rcases hc : convert_paragraph_to_html_improved rel imgDir fuel st p
      with _ | c
    · simp only [hc] at hout
      cases hout
    · simp only [hc] at hout
      obtain ⟨html, parts, st1⟩ := c
      rcases hrec : convertCellParas rel imgDir fuel st1 rest with _ | r0
      · simp only [hrec] at hout
        cases hout
      · simp only [hrec] at hout
        obtain ⟨hs, ps2, st2⟩ := r0
        have hi1 := convert_paragraph_inv rel imgDir fuel rid st p _ hc
        have hi2 := ih st1 _ hrec
        by_cases hh : html.isEmpty
        · simp only [if_pos hh] at hout
          cases hout
          exact ImgInv_comp rid st st1 st2 parts ps2 hi1 hi2
        · simp only [if_neg hh] at hout
          cases hout
          exact ImgInv_comp rid st st1 st2 parts ps2 hi1 hi2

theorem convertRowCells_inv (rel : RelMap) (imgDir : List Char)
    (fuel : Nat) (rid : List Char) :
    ∀ cells st out, convertRowCells rel imgDir fuel st cells = some out →
      ImgInv rid st out.2.2 out.2.1 := by
  intro cells
  induction cells with
  | nil =>
    intro st out hout
    rw [convertRowCells] at hout
    cases hout
    exact ImgInv_nil rid st
  | cons cell rest ih =>
    intro st out hout
    rw [convertRowCells] at hout
    rcases hc : convertCellParas rel imgDir fuel st cell with _ | c
    · simp only [hc] at hout
      cases hout
    · simp only [hc] at hout
      obtain ⟨hs, parts, st1⟩ := c
      rcases hrec : convertRowCells rel imgDir fuel st1 rest with _ | r0
      · simp only [hrec] at hout
        cases hout
      · simp only [hrec] at hout
        obtain ⟨cs2, ps2, st2⟩ := r0
        cases hout
        exact ImgInv_comp rid st st1 st2 parts ps2
          (convertCellParas_inv rel imgDir fuel rid cell st _ hc)
          (ih st1 _ hrec)

theorem convertTableRows_inv (rel : RelMap) (imgDir : List Char)
    (fuel : Nat) (rid : List Char) :
    ∀ rows st out, convertTableRows rel imgDir fuel st rows = some out →
      ImgInv rid st out.2.2 out.2.1 := by
  intro rows
  induction rows with
  | nil =>
    intro st out hout
    rw [convertTableRows] at hout
    cases hout
    exact ImgInv_nil rid st
  | cons row rest ih =>
    intro st out hout
    rw [convertTableRows] at hout
    rcases hc : convertRowCells rel imgDir fuel st row with _ | c
    · simp only [hc] at hout
      cases hout
    · simp only [hc] at hout
      obtain ⟨cells, parts, st1⟩ := c
      rcases hrec : convertTableRows rel imgDir fuel st1 rest with _ | r0
      · simp only [hrec] at hout
        cases hout
      · simp only [hrec] at hout
        obtain ⟨rs2, ps2, st2⟩ := r0
        cases hout
        exact ImgInv_comp rid st st1 st2 parts ps2
          (convertRowCells_inv rel imgDir fuel rid row st _ hc)
          (ih st1 _ hrec)

theorem convertBlocks_inv (rel : RelMap) (imgDir : List Char)
    (fuel : Nat) (rid : List Char) :
    ∀ blocks st out, convertBlocks rel imgDir fuel st blocks = some out →
      ImgInv rid st out.2.2 out.2.1 := by
  intro blocks
  induction blocks with
  | nil =>
    intro st out hout
    rw [convertBlocks.eq_def] at hout
    cases hout
    exact ImgInv_nil rid st
  | cons b rest ih =>
    intro st out hout
    rw [convertBlocks.eq_def] at hout
    cases b with
    | par p =>
      rcases hc : convert_paragraph_to_html_improved rel imgDir fuel st p
        with _ | c
      · simp only [hc] at hout
        cases hout
      · simp only [hc] at hout
        obtain ⟨html, parts, st1⟩ := c
        rcases hrec : convertBlocks rel imgDir fuel st1 rest with _ | r0
        · simp only [hrec] at hout
          cases hout
        · simp only [hrec] at hout
          obtain ⟨hs, ps2, st2⟩ := r0
          have hi1 := convert_paragraph_inv rel imgDir fuel rid st p _ hc
          have hi2 := ih st1 _ hrec
          by_cases hh : html.isEmpty
          · simp only [if_pos hh] at hout
            cases hout
            exact ImgInv_comp rid st st1 st2 parts ps2 hi1 hi2
          · simp only [if_neg hh] at hout
            cases hout
            exact ImgInv_comp rid st st1 st2 parts ps2 hi1 hi2
    | table rows =>
      rcases ht : convertTableRows rel imgDir fuel st rows with _ | t0
      · simp only [convert_table_to_html.eq_def, ht] at hout
        cases hout
      · simp only [convert_table_to_html.eq_def, ht] at hout
        obtain ⟨rs, parts, st1⟩ := t0
        rcases hrec : convertBlocks rel imgDir fuel st1 rest with _ | r0
        · simp only [hrec] at hout
          cases hout
        · simp only [hrec] at hout
          obtain ⟨hs, ps2, st2⟩ := r0
          have hi1 := convertTableRows_inv rel imgDir fuel rid rows st _ ht
          have hi2 := ih st1 _ hrec
          by_cases hh : ("<table border=\x271\x27>".data ++ rs.flatten ++
              "</table>".data).isEmpty
          · simp only [if_pos hh] at hout
            cases hout
            exact ImgInv_comp rid st st1 st2 parts ps2 hi1 hi2
          · simp only [if_neg hh] at hout
            cases hout
            exact ImgInv_comp rid st st1 st2 parts ps2 hi1 hi2

/-- Claim C3: within one document conversion every relationship id yields at
most one `<img>` part; the first unprocessed reference adds the id to the
processed set, a reference to an already-processed id emits nothing — at
paragraph level and nested in a run alike — and `processed_image_ids` is
reset at the start of each conversion, so the set carried over from an
earlier document does not influence the output. -/
theorem claim_C3 :
    (∀ (rel : RelMap) (imgDir : List Char) (fuel : Nat)
        (prior : List (List Char)) (blocks : List Block),
      convert_docx_to_html rel imgDir fuel prior blocks =
        convert_docx_to_html rel imgDir fuel [] blocks) ∧
    (∀ (rel : RelMap) (imgDir : List Char) (fuel : Nat)
        (prior : List (List Char)) (blocks : List Block) out,
      convert_docx_to_html rel imgDir fuel prior blocks = some out →
      ∀ rid, countImg rid out.2.1 ≤ 1) ∧
    (∀ (rel : RelMap) (imgDir : List Char) (fuel : Nat)
        (st : List (List Char)) (e : Xml) r rid,
      process_paragraph_element_recursively rel imgDir fuel st e = some r →
      (rid ∈ st → countImg rid r.1 = 0) ∧
        (1 ≤ countImg rid r.1 → rid ∈ r.2)) ∧
    (∀ (rel : RelMap) (imgDir : List Char) (fuel : Nat)
        (st : List (List Char)) (e : Xml) r rid,
      process_run_element rel imgDir fuel st e = some r →
      (rid ∈ st → countImg rid r.1 = 0) ∧
        (1 ≤ countImg rid r.1 → rid ∈ r.2)) := by
  refine ⟨fun _ _ _ _ _ => rfl, ?_, ?_, ?_⟩
  · intro rel imgDir fuel prior blocks out hout rid
    exact (convertBlocks_inv rel imgDir fuel rid blocks [] out hout).2.2.1
  · intro rel imgDir fuel st e r rid hr
    obtain ⟨_, z, _, a⟩ := process_para_inv rel imgDir rid fuel st e r hr
    exact ⟨z, a⟩
  · intro rel imgDir fuel st e r rid hr
    obtain ⟨_, z, _, a⟩ := process_run_inv rel imgDir rid fuel st e r hr
    exact ⟨z, a⟩

/-- Claim C3, witness: a document with two references to the same
relationship id — one in a run, one in a later paragraph child — emits
exactly one `<img>` part for it. -/
theorem claim_C3_witness :
    countImg "rId1".data
      [RPart.img "rId1".data "image_rId1.png".data, RPart.str "A".data] ≤ 1 ∧
    countImg "rId1".data [] = 0 := by
  constructor
  · exact claim_C3.2.1 [("rId1".data, ".png".data)] "imgs".data 5 []
      [Block.par ⟨"x".data, none,
        Xml.mk "p".data [] none
          [Xml.mk "r".data [] none
            [Xml.mk "t".data [] (some "A".data) [],
             Xml.mk "drawing".data [] none
               [Xml.mk "blip".data [("embed".data, "rId1".data)] none []]],
           Xml.mk "fldSimple".data [] none
             [Xml.mk "drawing".data [] none
               [Xml.mk "blip".data [("embed".data, "rId1".data)] none []]]]⟩]
      ("<p><img src=\"imgs/image_rId1.png\" alt=\"Image\" />A</p>".data ::
        ([], [RPart.img "rId1".data "image_rId1.png".data,
          RPart.str "A".data], ["rId1".data]).1,
        [RPart.img "rId1".data "image_rId1.png".data, RPart.str "A".data],
        ["rId1".data]) (by decide) "rId1".data
  · exact (claim_C3.2.2.2 [("rId1".data, ".png".data)] "imgs".data 5
      ["rId1".data]
      (Xml.mk "r".data [] none
        [Xml.mk "drawing".data [] none
          [Xml.mk "blip".data [("embed".data, "rId1".data)] none []]])
      ([], ["rId1".data]) "rId1".data (by decide)).1 (by decide)


/-! ## C4 — amended: ordering of inline items -/

def isImgPart : RPart → Bool
  | RPart.img _ _ => true
  | _ => false

/-- Spec-side run walk ("produce the Inline Items in encounter order by
walking the node tree depth-first"), restricted to the text and math items
— the part of the claim that survives the correction.  It mirrors the
source's child loop with the image emission removed. -/
def specRunChildLoop (imgDir : List Char) (conv : Xml → Option (List RPart))
    (fmt : List Char → List Char) : List Xml → Option (List RPart)
  | [] => some []
  | child :: rest =>
    if child.tag = "t".data then
      match child.text with
      | some txt =>
        if txt.isEmpty then specRunChildLoop imgDir conv fmt rest
        else
          match specRunChildLoop imgDir conv fmt rest with
          | none => none
          | some r => some (RPart.str (fmt txt) :: r)
      | none => specRunChildLoop imgDir conv fmt rest
    else if child.tag = "oMath".data then
      match specRunChildLoop imgDir conv fmt rest with
      | none => none
      | some r => some (runMathParts child ++ r)
    else
      match conv child with
      | none => none
      | some c =>
        match specRunChildLoop imgDir conv fmt rest with
        | none => none
        | some r =>
          if (joinParts imgDir c).isEmpty then some r
          else some (c ++ r)

def specRunWalk (imgDir : List Char) : Nat → Xml → Option (List RPart)
  | 0, _ => none
  | fuel + 1, e =>
    specRunChildLoop imgDir (specRunWalk imgDir fuel)
      (formatRunText (fuel + 1) e) e.children

/-- Spec-side paragraph walk: depth-first encounter order of text and math
items, runs walked through `specRunWalk`. -/
def specParaChildLoop (imgDir : List Char)
    (convP convR : Xml → Option (List RPart)) : List Xml → Option (List RPart)
  | [] => some []
  | child :: rest =>
    if child.tag = "r".data then
      match convR child with
      | none => none
      | some c =>
        match specParaChildLoop imgDir convP convR rest with
        | none => none
        | some r =>
          if (joinParts imgDir c).isEmpty then some r
          else some (c ++ r)
    else if child.tag = "oMath".data then
      match specParaChildLoop imgDir convP convR rest with
      | none => none
      | some r => some (paraMathParts child ++ r)
    else
      match convP child with
      | none => none
      | some c =>
        match specParaChildLoop imgDir convP convR rest with
        | none => none
        | some r =>
          if (joinParts imgDir c).isEmpty then some r
          else some (c ++ r)

def specParaWalk (imgDir : List Char) : Nat → Xml → Option (List RPart)
  | 0, _ => none
  | fuel + 1, e =>
    specParaChildLoop imgDir (specParaWalk imgDir fuel)
      (specRunWalk imgDir fuel) e.children

theorem htmlEscape_ne (txt : List Char) (h : txt ≠ []) :
    htmlEscape txt ≠ [] := by
  match txt with
  | [] => exact absurd rfl h
  | c :: rest =>
    rw [htmlEscape]
    simp only [List.flatMap_cons]
    intro hcon
    rcases List.append_eq_nil.mp hcon with ⟨h1, _⟩
    by_cases ha : c = '&'
    · rw [if_pos ha] at h1; cases h1
    · rw [if_neg ha] at h1
      by_cases hb : c = '<'
      · rw [if_pos hb] at h1; cases h1
      · rw [if_neg hb] at h1
        by_cases hc : c = '>'
        · rw [if_pos hc] at h1; cases h1
        · rw [if_neg hc] at h1; cases h1

theorem wrap_ne (P : Prop) [Decidable P] (pre post c : List Char)
    (h : c ≠ []) : (if P then pre ++ c ++ post else c) ≠ [] := by
  by_cases hp : P
  · rw [if_pos hp]
    simp [List.append_eq_nil, h]
  · rw [if_neg hp]
    exact h

theorem formatRunText_ne (fuel : Nat) (e : Xml) (txt : List Char)
    (h : txt ≠ []) : formatRunText fuel e txt ≠ [] := by
  rw [formatRunText]
  rcases findDesc fuel "rPr".data e with _ | props
  · exact htmlEscape_ne txt h
  · simp only
    apply wrap_ne
    apply wrap_ne
    apply wrap_ne
    apply wrap_ne
    apply wrap_ne
    apply wrap_ne
    exact htmlEscape_ne txt h

theorem renderPart_math_ne (imgDir L : List Char) (d : Bool) :
    renderPart imgDir (RPart.math L d) ≠ [] := by
  rw [renderPart]
  cases d <;> simp

theorem renderPart_img_ne (imgDir rid f : List Char) :
    renderPart imgDir (RPart.img rid f) ≠ [] := by
  rw [renderPart]
  simp

theorem runMathParts_shape (c : Xml) (p : RPart) (hp : p ∈ runMathParts c) :
    ∃ L, p = RPart.math L false := by
  rw [runMathParts] at hp
  by_cases hg : ((omml_to_latex c).isEmpty
      || decide (omml_to_latex c = "[Math Formula]".data)) = true
  · rw [if_pos hg] at hp
    simp at hp
  · rw [if_neg hg] at hp
    simp only [List.mem_singleton] at hp
    exact ⟨preprocess_latex (omml_to_latex c), hp⟩

theorem paraMathParts_shape (c : Xml) (p : RPart) (hp : p ∈ paraMathParts c) :
    ∃ L d, p = RPart.math L d := by
  rw [paraMathParts] at hp
  by_cases hg : ((omml_to_latex c).isEmpty
      || decide (omml_to_latex c = "[Math Formula]".data)) = true
  · rw [if_pos hg] at hp
    simp at hp
  · rw [if_neg hg] at hp
    simp only [List.mem_singleton] at hp
    exact ⟨preprocess_latex (omml_to_latex c),
      isDisplayMath (preprocess_latex (omml_to_latex c)), hp⟩

/-- Every part a run walk emits renders non-empty (text parts arise only
from non-empty `<w:t>` text). -/
theorem process_run_render_ne (rel : RelMap) (imgDir : List Char) :
    ∀ fuel st e r, process_run_element rel imgDir fuel st e = some r →
      ∀ p ∈ r.1, renderPart imgDir p ≠ [] := by
  apply process_run_forall rel imgDir (fun p => renderPart imgDir p ≠ [])
  · intro c p hp
    obtain ⟨L, rfl⟩ := runMathParts_shape c p hp
    exact renderPart_math_ne imgDir L false
  · intro fl el txt htx
    exact formatRunText_ne fl el txt htx
  · intro rid fn
    exact renderPart_img_ne imgDir rid fn

/-- Every part a paragraph walk emits renders non-empty. -/
theorem process_para_render_ne (rel : RelMap) (imgDir : List Char) :
    ∀ fuel st e r,
      process_paragraph_element_recursively rel imgDir fuel st e = some r →
      ∀ p ∈ r.1, renderPart imgDir p ≠ [] := by
  apply process_para_forall rel imgDir (fun p => renderPart imgDir p ≠ [])
  · intro c p hp
    obtain ⟨L, d, rfl⟩ := paraMathParts_shape c p hp
    exact renderPart_math_ne imgDir L d
  · intro c p hp
    obtain ⟨L, rfl⟩ := runMathParts_shape c p hp
    exact renderPart_math_ne imgDir L false
  · intro fl el txt htx
    exact formatRunText_ne fl el txt htx
  · intro rid fn
    exact renderPart_img_ne imgDir rid fn

theorem joinParts_ne_of_mem (imgDir : List Char) (ps : List RPart)
    (p : RPart) (hp : p ∈ ps) (h : renderPart imgDir p ≠ []) :
    joinParts imgDir ps ≠ [] := by
  rw [joinParts]
  intro hcon
  have : renderPart imgDir p ∈ ps.map (renderPart imgDir) :=
    List.mem_map_of_mem _ hp
  rw [List.flatten_eq_nil_iff] at hcon
  exact h (hcon _ this)

theorem joinParts_nil_of_nil (imgDir : List Char) : joinParts imgDir [] = [] :=
  rfl

theorem filter_nonimg_append (ps qs : List RPart) :
    (ps ++ qs).filter (fun p => !isImgPart p) =
      ps.filter (fun p => !isImgPart p) ++ qs.filter (fun p => !isImgPart p) :=
  List.filter_append _ _

theorem filter_nonimg_imgs (ps : List RPart)
    (h : ∀ p ∈ ps, ∃ rid f, p = RPart.img rid f) :
    ps.filter (fun p => !isImgPart p) = [] := by
  induction ps with
  | nil => rfl
  | cons p rest ih =>
    obtain ⟨rid, f, rfl⟩ := h p (List.mem_cons_self p rest)
    have ih2 := ih (fun q hq => h q (List.mem_cons_of_mem _ hq))
    rw [List.filter_cons, if_neg (by simp [isImgPart])]
    exact ih2

theorem filter_nonimg_nonimgs (ps : List RPart)
    (h : ∀ p ∈ ps, isImgPart p = false) :
    ps.filter (fun p => !isImgPart p) = ps := by
  induction ps with
  | nil => rfl
  | cons p rest ih =>
    have hp := h p (List.mem_cons_self p rest)
    have ih2 := ih (fun q hq => h q (List.mem_cons_of_mem _ hq))
    rw [List.filter_cons, if_pos (by simp [hp]), ih2]


theorem runMath_filter (ch : Xml) :
    (runMathParts ch).filter (fun p => !isImgPart p) = runMathParts ch :=
  filter_nonimg_nonimgs _ (fun p hp => by
    obtain ⟨L, rfl⟩ := runMathParts_shape ch p hp
    rfl)

theorem paraMath_filter (ch : Xml) :
    (paraMathParts ch).filter (fun p => !isImgPart p) = paraMathParts ch :=
  filter_nonimg_nonimgs _ (fun p hp => by
    obtain ⟨L, d, rfl⟩ := paraMathParts_shape ch p hp
    rfl)

theorem runChildLoop_refine (imgDir : List Char)
    (conv : List (List Char) → Xml → Option (List RPart × List (List Char)))
    (sconv : Xml → Option (List RPart)) (fmt : List Char → List Char)
    (href : ∀ st c r, conv st c = some r →
      sconv c = some (r.1.filter (fun p => !isImgPart p)))
    (hne : ∀ st c r, conv st c = some r → ∀ p ∈ r.1, renderPart imgDir p ≠ []) :
    ∀ cs st r, runChildLoop imgDir conv fmt st cs = some r →
      specRunChildLoop imgDir sconv fmt cs =
        some (r.1.filter (fun p => !isImgPart p)) := by
  intro cs
  induction cs with
  | nil =>
    intro st r hr
    rw [runChildLoop] at hr
    cases hr
    rfl
  | cons child rest ih =>
    intro st r hr
    rw [runChildLoop] at hr
    rw [specRunChildLoop]
    by_cases ht : child.tag = "t".data
    · rw [if_pos ht] at hr
      rw [if_pos ht]
      rcases htx : child.text with _ | txt
      · simp only [htx] at hr ⊢
        exact ih st r hr
      · simp only [htx] at hr ⊢
        by_cases he : txt.isEmpty
        · rw [if_pos he] at hr
          rw [if_pos he]
          exact ih st r hr
        · rw [if_neg he] at hr
          rw [if_neg he]
          rcases hrec : runChildLoop imgDir conv fmt st rest with _ | r0
          · simp only [hrec] at hr
            cases hr
          · simp only [hrec] at hr
            cases hr
            simp only [ih st r0 hrec]
            rw [List.filter_cons, if_pos (by simp [isImgPart])]
    · rw [if_neg ht] at hr
      rw [if_neg ht]
      by_cases hm : child.tag = "oMath".data
      · rw [if_pos hm] at hr
        rw [if_pos hm]
        rcases hrec : runChildLoop imgDir conv fmt st rest with _ | r0
        · simp only [hrec] at hr
          cases hr
        · simp only [hrec] at hr
          cases hr
          simp only [ih st r0 hrec]
          rw [filter_nonimg_append, runMath_filter]
      · rw [if_neg hm] at hr
        rw [if_neg hm]
        rcases hc : conv st child with _ | c
        · simp only [hc] at hr
          cases hr
        · simp only [hc] at hr
          rcases hrec : runChildLoop imgDir conv fmt c.2 rest with _ | r0
          · simp only [hrec] at hr
            cases hr
          · simp only [hrec] at hr
            simp only [href st child c hc, ih c.2 r0 hrec]
            by_cases hj : (joinParts imgDir c.1).isEmpty
            · rw [if_pos hj] at hr
              cases hr
              have hc1 : c.1 = [] := by
                cases hcc : c.1 with
                | nil => rfl
                | cons p ps =>
                  exfalso
                  apply joinParts_ne_of_mem imgDir c.1 p
                    (by rw [hcc]; exact List.mem_cons_self _ _)
                    (hne st child c hc p
                      (by rw [hcc]; exact List.mem_cons_self _ _))
                  exact List.isEmpty_iff.mp hj
              rw [hc1]
              rw [show (([] : List RPart).filter (fun p => !isImgPart p)) = []
                from rfl]
              rw [if_pos (by rfl)]
            · rw [if_neg hj] at hr
              cases hr
              by_cases hf : c.1.filter (fun p => !isImgPart p) = []
              · rw [hf, if_pos (by rfl), filter_nonimg_append, hf,
                  List.nil_append]
              · have hne2 : ¬ (joinParts imgDir
                    (c.1.filter (fun p => !isImgPart p))).isEmpty = true := by
                  obtain ⟨p, ps, hcc⟩ := List.exists_cons_of_ne_nil hf
                  intro hje
                  have hpm : p ∈ c.1.filter (fun q => !isImgPart q) := by
                    rw [hcc]; exact List.mem_cons_self _ _
                  exact joinParts_ne_of_mem imgDir _ p hpm
                    (hne st child c hc p (List.mem_of_mem_filter hpm))
                    (List.isEmpty_iff.mp hje)
                rw [if_neg hne2, filter_nonimg_append]

theorem paraChildLoop_refine (imgDir : List Char)
    (convP convR : List (List Char) → Xml → Option (List RPart × List (List Char)))
    (sconvP sconvR : Xml → Option (List RPart))
    (hrefP : ∀ st c r, convP st c = some r →
      sconvP c = some (r.1.filter (fun p => !isImgPart p)))
    (hneP : ∀ st c r, convP st c = some r → ∀ p ∈ r.1, renderPart imgDir p ≠ [])
    (hrefR : ∀ st c r, convR st c = some r →
      sconvR c = some (r.1.filter (fun p => !isImgPart p)))
    (hneR : ∀ st c r, convR st c = some r → ∀ p ∈ r.1, renderPart imgDir p ≠ []) :
    ∀ cs st r, paraChildLoop imgDir convP convR st cs = some r →
      specParaChildLoop imgDir sconvP sconvR cs =
        some (r.1.filter (fun p => !isImgPart p)) := by
  intro cs
  induction cs with
  | nil =>
    intro st r hr
    rw [paraChildLoop] at hr
    cases hr
    rfl
  | cons child rest ih =>
    intro st r hr
    rw [paraChildLoop] at hr
    rw [specParaChildLoop]
    by_cases hrt : child.tag = "r".data
    · rw [if_pos hrt] at hr
      rw [if_pos hrt]
      rcases hc : convR st child with _ | c
      · simp only [hc] at hr
        cases hr
      · simp only [hc] at hr
        rcases hrec : paraChildLoop imgDir convP convR c.2 rest with _ | r0
        · simp only [hrec] at hr
          cases hr
        · simp only [hrec] at hr
          simp only [hrefR st child c hc, ih c.2 r0 hrec]
          by_cases hj : (joinParts imgDir c.1).isEmpty
          · rw [if_pos hj] at hr
            cases hr
            have hc1 : c.1 = [] := by
              cases hcc : c.1 with
              | nil => rfl
              | cons p ps =>
                exfalso
                apply joinParts_ne_of_mem imgDir c.1 p
                  (by rw [hcc]; exact List.mem_cons_self _ _)
                  (hneR st child c hc p
                    (by rw [hcc]; exact List.mem_cons_self _ _))
                exact List.isEmpty_iff.mp hj
            rw [hc1]
            rw [show (([] : List RPart).filter (fun p => !isImgPart p)) = []
              from rfl]
            rw [if_pos (by rfl)]
          · rw [if_neg hj] at hr
            cases hr
            by_cases hf : c.1.filter (fun p => !isImgPart p) = []
            · rw [hf, if_pos (by rfl), filter_nonimg_append, hf,
                List.nil_append]
            · have hne2 : ¬ (joinParts imgDir
                  (c.1.filter (fun p => !isImgPart p))).isEmpty = true := by
                obtain ⟨p, ps, hcc⟩ := List.exists_cons_of_ne_nil hf
                intro hje
                have hpm : p ∈ c.1.filter (fun q => !isImgPart q) := by
                  rw [hcc]; exact List.mem_cons_self _ _
                exact joinParts_ne_of_mem imgDir _ p hpm
                  (hneR st child c hc p (List.mem_of_mem_filter hpm))
                  (List.isEmpty_iff.mp hje)
              rw [if_neg hne2, filter_nonimg_append]
    · rw [if_neg hrt] at hr
      rw [if_neg hrt]
      by_cases hm : child.tag = "oMath".data
      · rw [if_pos hm] at hr
        rw [if_pos hm]
        rcases hrec : paraChildLoop imgDir convP convR st rest with _ | r0
        · simp only [hrec] at hr
          cases hr
        · simp only [hrec] at hr
          cases hr
          simp only [ih st r0 hrec]
          rw [filter_nonimg_append, paraMath_filter]
      · rw [if_neg hm] at hr
        rw [if_neg hm]
        rcases hc : convP st child with _ | c
        · simp only [hc] at hr
          cases hr
        · simp only [hc] at hr
          rcases hrec : paraChildLoop imgDir convP convR c.2 rest with _ | r0
          · simp only [hrec] at hr
            cases hr
          · simp only [hrec] at hr
            simp only [hrefP st child c hc, ih c.2 r0 hrec]
            by_cases hj : (joinParts imgDir c.1).isEmpty
            · rw [if_pos hj] at hr
              cases hr
              have hc1 : c.1 = [] := by
                cases hcc : c.1 with
                | nil => rfl
                | cons p ps =>
                  exfalso
                  apply joinParts_ne_of_mem imgDir c.1 p
                    (by rw [hcc]; exact List.mem_cons_self _ _)
                    (hneP st child c hc p
                      (by rw [hcc]; exact List.mem_cons_self _ _))
                  exact List.isEmpty_iff.mp hj
              rw [hc1]
              rw [show (([] : List RPart).filter (fun p => !isImgPart p)) = []
                from rfl]
              rw [if_pos (by rfl)]
            · rw [if_neg hj] at hr
              cases hr
              by_cases hf : c.1.filter (fun p => !isImgPart p) = []
              · rw [hf, if_pos (by rfl), filter_nonimg_append, hf,
                  List.nil_append]
              · have hne2 : ¬ (joinParts imgDir
                    (c.1.filter (fun p => !isImgPart p))).isEmpty = true := by
                  obtain ⟨p, ps, hcc⟩ := List.exists_cons_of_ne_nil hf
                  intro hje
                  have hpm : p ∈ c.1.filter (fun q => !isImgPart q) := by
                    rw [hcc]; exact List.mem_cons_self _ _
                  exact joinParts_ne_of_mem imgDir _ p hpm
                    (hneP st child c hc p (List.mem_of_mem_filter hpm))
                    (List.isEmpty_iff.mp hje)
                rw [if_neg hne2, filter_nonimg_append]

theorem run_walk_refine (rel : RelMap) (imgDir : List Char) :
    ∀ fuel st e r, process_run_element rel imgDir fuel st e = some r →
      specRunWalk imgDir fuel e =
        some (r.1.filter (fun p => !isImgPart p)) := by
  intro fuel
  induction fuel with
  | zero => intro st e r hr; cases hr
  | succ f ih =>
    intro st e r hr
    rw [process_run_element] at hr
    rw [specRunWalk]
    rcases hloop : runChildLoop imgDir (process_run_element rel imgDir f)
        (formatRunText (f + 1) e)
        (emitImgs rel (find_embedded_image_ids (f + 1) e) st).2 e.children
      with _ | r0
    · simp only [hloop] at hr
      cases hr
    · simp only [hloop] at hr
      cases hr
      rw [runChildLoop_refine imgDir (process_run_element rel imgDir f)
        (specRunWalk imgDir f) (formatRunText (f + 1) e)
        (fun st c r hc => ih st c r hc)
        (process_run_render_ne rel imgDir f) e.children _ r0 hloop]
      rw [show ((emitImgs rel (find_embedded_image_ids (f + 1) e) st).1 ++
          r0.1).filter (fun p => !isImgPart p) =
        ((emitImgs rel (find_embedded_image_ids (f + 1) e) st).1.filter
          (fun p => !isImgPart p)) ++ r0.1.filter (fun p => !isImgPart p)
        from filter_nonimg_append _ _]
      rw [filter_nonimg_imgs _ (emitImgs_parts_img rel _ st), List.nil_append]

theorem para_walk_refine (rel : RelMap) (imgDir : List Char) :
    ∀ fuel st e r,
      process_paragraph_element_recursively rel imgDir fuel st e = some r →
      specParaWalk imgDir fuel e =
        some (r.1.filter (fun p => !isImgPart p)) := by
  intro fuel
  induction fuel with
  | zero => intro st e r hr; cases hr
  | succ f ih =>
    intro st e r hr
    rw [process_paragraph_element_recursively] at hr
    rw [specParaWalk]
    rcases hloop : paraChildLoop imgDir
        (process_paragraph_element_recursively rel imgDir f)
        (process_run_element rel imgDir f)
        (if e.tag = "p".data then paraPrepass rel (f + 1) st e.children
          else ([], st)).2 e.children with _ | r0
    · simp only [hloop] at hr
      cases hr
    · simp only [hloop] at hr
      cases hr
      rw [paraChildLoop_refine imgDir
        (process_paragraph_element_recursively rel imgDir f)
        (process_run_element rel imgDir f)
        (specParaWalk imgDir f) (specRunWalk imgDir f)
        (fun st c r hc => ih st c r hc)
        (process_para_render_ne rel imgDir f)
        (fun st c r hc => run_walk_refine rel imgDir f st c r hc)
        (process_run_render_ne rel imgDir f) e.children _ r0 hloop]
      rw [show ((if e.tag = "p".data then paraPrepass rel (f + 1) st e.children
          else ([], st)).1 ++ r0.1).filter (fun p => !isImgPart p) =
        ((if e.tag = "p".data then paraPrepass rel (f + 1) st e.children
          else ([], st)).1.filter (fun p => !isImgPart p)) ++
          r0.1.filter (fun p => !isImgPart p) from filter_nonimg_append _ _]
      by_cases hpt : e.tag = "p".data
      · rw [if_pos hpt, filter_nonimg_imgs _
          (paraPrepass_parts_img rel (f + 1) e.children st), List.nil_append]
      · rw [if_neg hpt]
        rfl

/-- Claim C4, amended: within a non-heading paragraph the text and math
items appear in the output exactly in depth-first encounter order (the
spec-side walk `specParaWalk`), but image items are hoisted — at the start
of the paragraph for images in non-run children, at the start of the
containing run otherwise — so the full item sequence is not in encounter
order (see the counterexample). -/
theorem claim_C4_amended (rel : RelMap) (imgDir : List Char) (fuel : Nat)
    (st : List (List Char)) (e : Xml) (r : List RPart × List (List Char))
    (hr : process_paragraph_element_recursively rel imgDir fuel st e = some r) :
    specParaWalk imgDir fuel e = some (r.1.filter (fun p => !isImgPart p)) :=
  para_walk_refine rel imgDir fuel st e r hr

/-- Claim C4, witness: on the counterexample paragraph the spec-side walk
yields exactly the non-image items of the output. -/
theorem claim_C4_witness :
    specParaWalk "imgs".data 5
        (Xml.mk "p".data [] none
          [Xml.mk "r".data [] none [Xml.mk "t".data [] (some "A".data) []],
           Xml.mk "fldSimple".data [] none
             [Xml.mk "drawing".data [] none
               [Xml.mk "blip".data [("embed".data, "rId1".data)] none []]]]) =
      some [RPart.str "A".data] :=
  claim_C4_amended [("rId1".data, ".png".data)] "imgs".data 5 []
    (Xml.mk "p".data [] none
      [Xml.mk "r".data [] none [Xml.mk "t".data [] (some "A".data) []],
       Xml.mk "fldSimple".data [] none
         [Xml.mk "drawing".data [] none
           [Xml.mk "blip".data [("embed".data, "rId1".data)] none []]]])
    ([RPart.img "rId1".data "image_rId1.png".data, RPart.str "A".data],
      ["rId1".data]) (by decide)
